import Mathlib

/-!
# Cancellation-propagating contexts: a shallow embedding

The development follows the three source files.

* `pairs.go`: the immutable linked association list `pairs` with `append` and `Get`.
* `trigger.go`: the one-shot `errorTrigger` with `Subscribe`, `Unsubscribe`, `Fire`,
  `Fired` and `Get`.
* `context.go`: the `context` node with `newChild`, `New`, `GetValue`, `WithFields`,
  `WithValue`, `Cancel`, `Error`, `Terminated`, `WithTimeout` and `TimeRemaining`.

Pointers become indices into a heap kept in `State`: contexts live in `State.nodes`
(a context and the trigger it owns share one index, every context owning exactly one
trigger), runtime timers live in `State.timers`.  Methods take the heap and return the
new heap.  A Go `error` is `Option Err` (`none` is the nil error), a Go `interface{}`
value is `Option V` (`none` is the nil interface).  Keys are `interface{}` values as
well; the operator `==` on them is the function `GoEq.eq`, which may answer `false` on a
key compared with itself (a floating-point NaN) and may panic (two keys of one
uncomparable type, such as slices).  Instants are integers counted from the zero
`time.Time`, so `IsZero` is equality with `0`.

A run that panics or cannot return yields a `Fault`.  The recursion of `Fire` is driven
by fuel; the public operations supply more fuel than there are triggers in the heap, and
on every reachable heap `Fire` is shown to return within that budget.  Go leaves the
order in which `range` visits a map unspecified: the subscriber map is ranged in its
stored order, and the cascade lemmas use membership only, never the order; the map
argument of `WithFields` is given by an arbitrary traversal of its entries.

`newChild` sets a finalizer on every child.  The collector runs it, through `collect`,
on a context that nothing refers to any more.  `Reachable` are the heaps of runs during
which no context is collected (the program keeps the contexts it derives);
`GcReachable` are the heaps of runs in which the collector takes part.
-/

namespace Context

/-! ## Data model -/

/-- The two cancelation reasons of `context.go` (`ErrTimeout`, `ErrCanceled`). -/
inductive Err where
  | ErrTimeout
  | ErrCanceled
  deriving DecidableEq, Repr

/-- Ways in which a call fails to return normally. -/
inductive Fault where
  /-- A method was called through a pointer that is not in the heap. -/
  | nilDeref
  /-- `mu.Lock()` on a mutex that is already held: the call never returns. -/
  | deadlock
  /-- Assignment to an entry of a nil map. -/
  | nilMapWrite
  /-- Close of an already closed channel. -/
  | closeOfClosedChannel
  /-- The recursion budget of the model was exhausted. -/
  | outOfFuel
  /-- The operator `==` on two interface values of one uncomparable dynamic type. -/
  | uncomparable
  deriving DecidableEq, Repr

/-- The operator `==` of Go on two `interface{}` values that hold keys: `some b` when
the comparison yields `b`, `none` when it panics, which it does when both operands have
the same dynamic type and that type is not comparable. -/
class GoEq (K : Type) where
  eq : K → K → Option Bool

/-- Keys of a Go integer type: compared by value. -/
instance : GoEq Nat where
  eq a b := some (decide (a = b))

/-- A few of the dynamic values a key of type `interface{}` can hold: an `int`, the
`float64` NaN, and a slice `[]int`. -/
inductive Key where
  | int (n : Int)
  | nan
  | slice (xs : List Int)
  deriving DecidableEq, Repr

/-- The operator `==` on these keys: integers are compared by value, NaN differs from
everything including itself, two slices cannot be compared, and values of different
dynamic types are different. -/
instance : GoEq Key where
  eq a b :=
    match a, b with
    | Key.int m, Key.int n => some (decide (m = n))
    | Key.slice _, Key.slice _ => none
    | _, _ => some false

/-- The linked list of `pairs.go`; `pairs.nil` is the nil pointer `nilPairs`. -/
inductive pairs (K V : Type) where
  | nil : pairs K V
  | node (prev : pairs K V) (key : K) (value : Option V) : pairs K V
  deriving DecidableEq, Repr

/-- The struct `errorTrigger` of `trigger.go`: `mu` is true while the mutex is held,
`waiter` is true once the channel is closed, `subscribers` is `none` for the nil map and
otherwise lists the subscribed triggers. -/
structure errorTrigger where
  mu : Bool
  value : Option Err
  waiter : Bool
  subscribers : Option (List Nat)
  deriving DecidableEq, Repr

/-- The struct `context` of `context.go`.  `timer` points into `State.timers`,
`deadline = 0` is the zero time.  `finalizer` is not a field of the Go struct: it is
the record the runtime keeps for the object, true while a finalizer is set on it by
`runtime.SetFinalizer` and has not run. -/
structure context (K V : Type) where
  parent : Option Nat
  fields : pairs K V
  trigger : errorTrigger
  timer : Option Nat
  deadline : Int
  finalizer : Bool
  deriving DecidableEq, Repr

/-- The life of a runtime timer created by `time.AfterFunc`. -/
inductive TimerState where
  | armed
  | stopped
  | expired
  deriving DecidableEq, Repr

/-- A runtime timer: `target` is the trigger its function fires with `ErrTimeout`,
`when` the instant it was set for. -/
structure Timer where
  target : Nat
  when : Int
  state : TimerState
  deriving DecidableEq, Repr

/-- The heap: every context ever allocated and every timer ever created. -/
structure State (K V : Type) where
  nodes : List (context K V)
  timers : List Timer
  deriving DecidableEq, Repr

/-- The map type `Fields`, given by the sequence in which `range` yields its entries. -/
abbrev Fields (K V : Type) := List (K × Option V)

variable {K V : Type}

/-! ## pairs.go -/

/-- The method `(*pairs).append`: a new head in front of `l`. -/
def pairs.append (l : pairs K V) (key : K) (value : Option V) : pairs K V :=
  pairs.node l key value

/-- The method `(*pairs).Get`: the case `l.key == key` is decided by `GoEq.eq`, so the
call panics when that comparison does. -/
def pairs.Get [GoEq K] : pairs K V → K → Except Fault (Option V × Bool)
  | pairs.nil, _ => Except.ok (none, false)
  | pairs.node prev k v, key =>
    match GoEq.eq k key with
    | none => Except.error Fault.uncomparable
    | some true => Except.ok (v, true)
    | some false => pairs.Get prev key

/-! ## trigger.go -/

/-- The function `newTrigger`: open channel, empty map. -/
def newTrigger : errorTrigger :=
  { mu := false, value := none, waiter := false, subscribers := some [] }

/-- Write the trigger of node `t`. -/
def State.setTrigger (s : State K V) (t : Nat) (tr : errorTrigger) : State K V :=
  match s.nodes[t]? with
  | none => s
  | some c => { s with nodes := s.nodes.set t { c with trigger := tr } }

/-- The keys of a subscriber map; ranging over the nil map yields nothing. -/
def subscriberList (tr : errorTrigger) : List Nat :=
  match tr.subscribers with
  | none => []
  | some l => l

/-- The loop `for subscriber := range t.subscribers`, with body `f`. -/
def rangeSubscribers (f : State K V → Nat → Except Fault (State K V)) :
    List Nat → State K V → Except Fault (State K V)
  | [], s => Except.ok s
  | sub :: rest, s =>
    match f s sub with
    | Except.error e => Except.error e
    | Except.ok s1 => rangeSubscribers f rest s1

/-- The method `(*errorTrigger).Fire` on trigger `t`. -/
def Fire : Nat → State K V → Nat → Option Err → Except Fault (State K V)
  | 0, _, _, _ => Except.error Fault.outOfFuel
  | fuel + 1, s, t, value =>
    match s.nodes[t]? with
    | none => Except.error Fault.nilDeref
    | some c =>
      if c.trigger.mu then Except.error Fault.deadlock
      else if c.trigger.value ≠ none then Except.ok s
      else
        let s1 := s.setTrigger t { c.trigger with mu := true, value := value }
        match rangeSubscribers (fun st sub => Fire fuel st sub value)
            (subscriberList c.trigger) s1 with
        | Except.error e => Except.error e
        | Except.ok s2 =>
          match s2.nodes[t]? with
          | none => Except.error Fault.nilDeref
          | some c2 =>
            if c2.trigger.waiter then Except.error Fault.closeOfClosedChannel
            else Except.ok (s2.setTrigger t
              { c2.trigger with subscribers := none, waiter := true, mu := false })

/-- The method `(*errorTrigger).Subscribe`: trigger `sub` subscribes to trigger `t`. -/
def Subscribe (fuel : Nat) (s : State K V) (t sub : Nat) : Except Fault (State K V) :=
  match s.nodes[t]? with
  | none => Except.error Fault.nilDeref
  | some c =>
    if c.trigger.mu then Except.error Fault.deadlock
    else if c.trigger.value ≠ none then
      match Fire fuel (s.setTrigger t { c.trigger with mu := true }) sub c.trigger.value with
      | Except.error e => Except.error e
      | Except.ok s1 =>
        match s1.nodes[t]? with
        | none => Except.error Fault.nilDeref
        | some c1 => Except.ok (s1.setTrigger t { c1.trigger with mu := false })
    else
      match c.trigger.subscribers with
      | none => Except.error Fault.nilMapWrite
      | some l => Except.ok (s.setTrigger t { c.trigger with subscribers := some (l.insert sub) })

/-- The method `(*errorTrigger).Unsubscribe`; `delete` on the nil map does nothing. -/
def Unsubscribe (s : State K V) (t sub : Nat) : Except Fault (State K V) :=
  match s.nodes[t]? with
  | none => Except.error Fault.nilDeref
  | some c =>
    if c.trigger.mu then Except.error Fault.deadlock
    else Except.ok (s.setTrigger t
      { c.trigger with subscribers := c.trigger.subscribers.map (fun l => l.erase sub) })

/-- The method `(*errorTrigger).Fired`: whether the returned channel is closed. -/
def Fired (s : State K V) (t : Nat) : Except Fault Bool :=
  match s.nodes[t]? with
  | none => Except.error Fault.nilDeref
  | some c => Except.ok c.trigger.waiter

/-- The method `(*errorTrigger).Get`. -/
def Get (s : State K V) (t : Nat) : Except Fault (Option Err) :=
  match s.nodes[t]? with
  | none => Except.error Fault.nilDeref
  | some c => if c.trigger.mu then Except.error Fault.deadlock else Except.ok c.trigger.value

/-! ## context.go -/

/-- Recursion budget handed to `Fire` by the operations: one more than the number of
triggers in the heap. -/
def State.fuel (s : State K V) : Nat := s.nodes.length + 1

/-- The heap before any call. -/
def State.empty : State K V := { nodes := [], timers := [] }

/-- The function `New`: allocates a root and returns its index.  No finalizer is set
on a root. -/
def New (s : State K V) : State K V × Nat :=
  ({ s with nodes := s.nodes ++
      [{ parent := none, fields := pairs.nil, trigger := newTrigger, timer := none,
         deadline := 0, finalizer := false }] },
   s.nodes.length)

/-- The runtime's record of `runtime.SetFinalizer` for context `c`: `set` tells whether
a finalizer is now set on it. -/
def State.setFinalizer (s : State K V) (c : Nat) (set : Bool) : State K V :=
  match s.nodes[c]? with
  | none => s
  | some n => { s with nodes := s.nodes.set c { n with finalizer := set } }

/-- The function literal that `newChild` hands to `runtime.SetFinalizer`, applied to the
context `garbage`: the trigger of `garbage` is unsubscribed from the trigger of its
parent.  Every context owns a trigger, so `garbage.parent.trigger != nil` holds whenever
`garbage.parent != nil` does. -/
def finalizer (s : State K V) (garbage : Nat) : Except Fault (State K V) :=
  match s.nodes[garbage]? with
  | none => Except.error Fault.nilDeref
  | some g =>
    match g.parent with
    | none => Except.ok s
    | some p => Unsubscribe s p garbage

/-- The method `(*context).newChild`: the child is allocated, subscribed to its parent,
and given the finalizer. -/
def newChild (s : State K V) (c : Nat) : Except Fault (State K V × Nat) :=
  match s.nodes[c]? with
  | none => Except.error Fault.nilDeref
  | some parent =>
    let child := s.nodes.length
    let s1 : State K V := { s with nodes := s.nodes ++
      [{ parent := some c, fields := parent.fields, trigger := newTrigger, timer := none,
         deadline := parent.deadline, finalizer := false }] }
    match Subscribe s1.fuel s1 c child with
    | Except.error e => Except.error e
    | Except.ok s2 => Except.ok (s2.setFinalizer child true, child)

/-- The method `(*context).GetValue`. -/
def GetValue [GoEq K] (s : State K V) (c : Nat) (key : K) :
    Except Fault (Option V × Bool) :=
  match s.nodes[c]? with
  | none => Except.error Fault.nilDeref
  | some n => n.fields.Get key

/-- The method `(*context).WithValue`. -/
def WithValue (s : State K V) (c : Nat) (key : K) (value : Option V) :
    Except Fault (State K V × Nat) :=
  match s.nodes[c]? with
  | none => Except.error Fault.nilDeref
  | some parent =>
    match newChild s c with
    | Except.error e => Except.error e
    | Except.ok (s1, child) =>
      match s1.nodes[child]? with
      | none => Except.error Fault.nilDeref
      | some n =>
        let n1 : context K V := { n with fields := parent.fields.append key value }
        Except.ok ({ s1 with nodes := s1.nodes.set child n1 }, child)

/-- The method `(*context).WithFields`: `fields` lists the entries in the order in which
the `range` loop visits them. -/
def WithFields (s : State K V) (c : Nat) : Fields K V → Except Fault (State K V × Nat)
  | [] => Except.ok (s, c)
  | (k, v) :: rest =>
    match WithValue s c k v with
    | Except.error e => Except.error e
    | Except.ok (s1, new) => WithFields s1 new rest

/-- The method `(*time.Timer).Stop`: an armed timer will not fire any more. -/
def Timer.Stop (tm : Timer) : Timer :=
  match tm.state with
  | TimerState.armed => { tm with state := TimerState.stopped }
  | _ => tm

/-- Stop timer `k` of the heap. -/
def State.stopTimer (s : State K V) (k : Nat) : State K V :=
  match s.timers[k]? with
  | none => s
  | some tm => { s with timers := s.timers.set k tm.Stop }

/-- The method `(*context).Cancel`. -/
def Cancel (s : State K V) (c : Nat) : Except Fault (State K V) :=
  match s.nodes[c]? with
  | none => Except.error Fault.nilDeref
  | some n =>
    let s1 := match n.timer with
      | none => s
      | some k => s.stopTimer k
    Fire s1.fuel s1 c (some Err.ErrCanceled)

/-- The method `(*context).Terminated`: whether the returned channel is closed. -/
def Terminated (s : State K V) (c : Nat) : Except Fault Bool :=
  Fired s c

/-- The method `(*context).Error`: `none` while the receive on `Terminated()` blocks,
otherwise the value read from the trigger. -/
def Error (s : State K V) (c : Nat) : Except Fault (Option (Option Err)) :=
  match Terminated s c with
  | Except.error e => Except.error e
  | Except.ok false => Except.ok none
  | Except.ok true =>
    match Get s c with
    | Except.error e => Except.error e
    | Except.ok v => Except.ok (some v)

/-- The method `(*context).WithTimeout`; `now` is the value of `time.Now()`. -/
def WithTimeout (s : State K V) (c : Nat) (now timeout : Int) :
    Except Fault (State K V × Nat) :=
  let deadline := now + timeout
  match s.nodes[c]? with
  | none => Except.error Fault.nilDeref
  | some parent =>
    match newChild s c with
    | Except.error e => Except.error e
    | Except.ok (s1, child) =>
      match s1.nodes[child]? with
      | none => Except.error Fault.nilDeref
      | some n =>
        if parent.deadline ≠ 0 ∧ parent.deadline < deadline then
          let n1 : context K V := { n with deadline := parent.deadline }
          Except.ok ({ s1 with nodes := s1.nodes.set child n1 }, child)
        else
          let n1 : context K V := { n with deadline := deadline, timer := some s1.timers.length }
          let tm : Timer := { target := child, when := deadline, state := TimerState.armed }
          Except.ok ({ s1 with nodes := s1.nodes.set child n1, timers := s1.timers ++ [tm] },
            child)

/-- The function passed to `time.AfterFunc` runs: timer `k`, if still armed, expires and
fires its trigger with `ErrTimeout`.  A timer that is not armed does nothing. -/
def timerFires (s : State K V) (k : Nat) : Except Fault (State K V) :=
  match s.timers[k]? with
  | none => Except.ok s
  | some tm =>
    match tm.state with
    | TimerState.armed =>
      let s1 : State K V :=
        { s with timers := s.timers.set k { tm with state := TimerState.expired } }
      Fire s1.fuel s1 tm.target (some Err.ErrTimeout)
    | _ => Except.ok s

/-- The method `(*context).TimeRemaining`; `now` is the value of `time.Now()`. -/
def TimeRemaining (s : State K V) (c : Nat) (now : Int) : Except Fault (Int × Bool) :=
  match s.nodes[c]? with
  | none => Except.error Fault.nilDeref
  | some n =>
    if n.deadline = 0 then Except.ok (0, false)
    else
      match Get s c with
      | Except.error e => Except.error e
      | Except.ok (some _) => Except.ok (0, false)
      | Except.ok none =>
        if now < n.deadline then Except.ok (n.deadline - now, true)
        else Except.ok (0, true)

/-! ## The garbage collector -/

/-- Context `c` has been reclaimed: it was made by `newChild`, which sets a finalizer on
every child, and that finalizer has run. -/
def State.reclaimed (s : State K V) (c : Nat) : Bool :=
  match s.nodes[c]? with
  | none => false
  | some n => n.parent.isSome && !n.finalizer

/-- Nothing in the heap refers to context `c`: every child of `c` (they hold `c` in
their field `parent`) has been reclaimed, and no armed timer holds the function that
fires the trigger of `c` (that function literal captures the context).  The program may
then have dropped its last reference to `c`. -/
def State.unreferenced (s : State K V) (c : Nat) : Bool :=
  s.nodes.all (fun n => !(n.finalizer && decide (n.parent = some c))) &&
  s.timers.all (fun tm => !(decide (tm.target = c) && decide (tm.state = TimerState.armed)))

/-- The collector reclaims context `c`: a finalizer set on it is cleared and run, once;
a context without one is reclaimed silently. -/
def collect (s : State K V) (c : Nat) : Except Fault (State K V) :=
  match s.nodes[c]? with
  | none => Except.error Fault.nilDeref
  | some n =>
    if n.finalizer then finalizer (s.setFinalizer c false) c
    else Except.ok s

/-! ## Runs of the public interface -/

/-- One call of the public interface, or a timer running its function. -/
inductive Op (K V : Type) where
  | New
  | WithValue (c : Nat) (key : K) (value : Option V)
  | WithFields (c : Nat) (fields : Fields K V)
  | WithTimeout (c : Nat) (now timeout : Int)
  | Cancel (c : Nat)
  | timerFires (k : Nat)

/-- The heap after one operation. -/
def step (s : State K V) : Op K V → Except Fault (State K V)
  | Op.New => Except.ok (New s).1
  | Op.WithValue c key value => (WithValue s c key value).map Prod.fst
  | Op.WithFields c fields => (WithFields s c fields).map Prod.fst
  | Op.WithTimeout c now timeout => (WithTimeout s c now timeout).map Prod.fst
  | Op.Cancel c => Cancel s c
  | Op.timerFires k => timerFires s k

/-- The heap after a sequence of operations, the first fault ending the run. -/
def run (s : State K V) : List (Op K V) → Except Fault (State K V)
  | [] => Except.ok s
  | op :: rest =>
    match step s op with
    | Except.error e => Except.error e
    | Except.ok s1 => run s1 rest

/-- The heaps that runs of the public interface produce from the empty heap while the
program keeps every context it derives, so that the collector reclaims none. -/
inductive Reachable : State K V → Prop where
  | empty : Reachable State.empty
  | step {s s1 : State K V} (op : Op K V) :
      Reachable s → step s op = Except.ok s1 → Reachable s1

/-- The context on which a call is made. -/
def Op.receiver : Op K V → Option Nat
  | Op.New => none
  | Op.WithValue c _ _ => some c
  | Op.WithFields c _ => some c
  | Op.WithTimeout c _ _ => some c
  | Op.Cancel c => some c
  | Op.timerFires _ => none

/-- The heaps that runs produce from the empty heap when the collector takes part:
between two operations it may reclaim a context that nothing refers to, and the program
makes no call on a context that has been reclaimed. -/
inductive GcReachable : State K V → Prop where
  | empty : GcReachable State.empty
  | step {s s1 : State K V} (op : Op K V) :
      GcReachable s → (∀ c, op.receiver = some c → s.reclaimed c = false) →
      step s op = Except.ok s1 → GcReachable s1
  | collect {s s1 : State K V} (c : Nat) :
      GcReachable s → s.unreferenced c = true → collect s c = Except.ok s1 →
      GcReachable s1

/-! ## Specification vocabulary -/

/-- The parent pointer of node `i`, `none` for a root or an index outside the heap. -/
def State.parentOf (s : State K V) (i : Nat) : Option Nat :=
  (s.nodes[i]?).bind (fun c => c.parent)

/-- The reason held by the trigger of node `i`; `none` while the node is Live. -/
def State.reason (s : State K V) (i : Nat) : Option Err :=
  (s.nodes[i]?).bind (fun c => c.trigger.value)

/-- Node `i` exists and its trigger holds a non-nil reason. -/
def State.fired (s : State K V) (i : Nat) : Prop :=
  ∃ c, s.nodes[i]? = some c ∧ c.trigger.value ≠ none

/-- Node `d` is a descendant of node `n`, direct or transitive, along parent pointers
`par`. -/
inductive Descendant (par : Nat → Option Nat) (n : Nat) : Nat → Prop where
  | child {d : Nat} : par d = some n → Descendant par n d
  | trans {p d : Nat} : Descendant par n p → par d = some p → Descendant par n d

/-- The trigger left behind by a completed first `Fire` with `value`. -/
def firedTrigger (value : Option Err) : errorTrigger :=
  { mu := false, value := value, waiter := true, subscribers := none }

/-- How a cascade relates the nodes before and after: their number is kept, and every
node is either untouched or was unfired, lies at index `lo` or above,
satisfies `R`, now carries `firedTrigger value`, and has all its subscribers fired. -/
def Cascade (value : Option Err) (lo : Nat) (R : Nat → Prop) (s s1 : State K V) : Prop :=
  s1.nodes.length = s.nodes.length ∧
  ∀ i c, s.nodes[i]? = some c →
    s1.nodes[i]? = some c ∨
    (lo ≤ i ∧ R i ∧ c.trigger.value = none ∧
      s1.nodes[i]? = some { c with trigger := firedTrigger value } ∧
      ∀ j ∈ subscriberList c.trigger, s1.fired j)

/-- Local shape of the heap from index `t` upwards, enough for `Fire` on `t` to
succeed: mutexes free, channels of unfired triggers open, subscribers are children
with larger indices. -/
def WellFormedFrom (s : State K V) (t : Nat) : Prop :=
  ∀ i c, t ≤ i → s.nodes[i]? = some c →
    c.trigger.mu = false ∧ (c.trigger.value = none → c.trigger.waiter = false) ∧
    ∀ j ∈ subscriberList c.trigger, s.parentOf j = some i ∧ i < j

/-- The invariant of the heap between operations. -/
structure Inv (s : State K V) : Prop where
  parent_lt : ∀ (i p : Nat), s.parentOf i = some p → p < i
  subs_child : ∀ (i : Nat) (c : context K V), s.nodes[i]? = some c →
    ∀ j ∈ subscriberList c.trigger, s.parentOf j = some i
  unlocked : ∀ (i : Nat) (c : context K V), s.nodes[i]? = some c → c.trigger.mu = false
  live : ∀ (i : Nat) (c : context K V), s.nodes[i]? = some c → c.trigger.value = none →
    c.trigger.waiter = false ∧ c.trigger.subscribers ≠ none
  dead : ∀ (i : Nat) (c : context K V), s.nodes[i]? = some c → c.trigger.value ≠ none →
    c.trigger.waiter = true ∧ c.trigger.subscribers = none
  link : ∀ (j p : Nat) (cj cp : context K V), s.nodes[j]? = some cj → cj.parent = some p →
    s.nodes[p]? = some cp → cj.finalizer = true →
    (cp.trigger.value = none → j ∈ subscriberList cp.trigger) ∧
    (cp.trigger.value ≠ none → cj.trigger.value ≠ none)
  timer_target : ∀ (k : Nat) (tm : Timer), s.timers[k]? = some tm → tm.target < s.nodes.length
  timer_owner : ∀ (i : Nat) (c : context K V) (k : Nat), s.nodes[i]? = some c →
    c.timer = some k → ∃ tm, s.timers[k]? = some tm ∧ tm.target = i

/-- The parent `p` after the child with index `n` has subscribed to it: recorded in the
map while `p` is unfired, left alone once `p` has fired. -/
def context.subscribe (p : context K V) (n : Nat) : context K V :=
  match p.trigger.value, p.trigger.subscribers with
  | none, some l => { p with trigger := { p.trigger with subscribers := some (l.insert n) } }
  | _, _ => p

/-- The child that `newChild` leaves in the heap for parent `p` at index `c`: fresh
trigger under an unfired parent, trigger fired with the parent's reason otherwise, and
the finalizer set. -/
def context.child (p : context K V) (c : Nat) : context K V :=
  { parent := some c, fields := p.fields,
    trigger := match p.trigger.value with
      | none => newTrigger
      | some v => firedTrigger (some v),
    timer := none, deadline := p.deadline, finalizer := true }

/-- Every node of `s` is still there in `s1` with the same parent, data, timer pointer,
deadline and finalizer record, and with the same trigger if it had fired. -/
def Keeps (s s1 : State K V) : Prop :=
  ∀ (i : Nat) (c : context K V), s.nodes[i]? = some c →
    ∃ c1, s1.nodes[i]? = some c1 ∧ c1.parent = c.parent ∧ c1.fields = c.fields ∧
      c1.timer = c.timer ∧ c1.deadline = c.deadline ∧ c1.finalizer = c.finalizer ∧
      (c.trigger.value ≠ none → c1.trigger = c.trigger)

/-- The heap after a run from the empty heap; the empty heap if the run faults. -/
def after (ops : List (Op K V)) : State K V :=
  match run State.empty ops with
  | Except.ok s => s
  | Except.error _ => State.empty

/-- The chain obtained from `l` by appending the entries of `fields` in order. -/
def appendAll (l : pairs K V) : Fields K V → pairs K V
  | [] => l
  | (k, v) :: rest => appendAll (l.append k v) rest

/-- The entries of a chain, head first. -/
def pairs.entries : pairs K V → List (K × Option V)
  | pairs.nil => []
  | pairs.node prev k v => (k, v) :: pairs.entries prev

/-- Reference lookup, in the words of the specification: the value of the first entry,
walking from the head, whose key equals the query key; not-found when there is none. -/
def firstMatch [DecidableEq K] (es : List (K × Option V)) (key : K) : Option V × Bool :=
  match es.find? (fun e => decide (e.1 = key)) with
  | some e => (e.2, true)
  | none => (none, false)

/-- What it means for node `c` of `s1` to be born canceled under parent `P`, which
held reason `r` in `s`: `Error` on `c` returns `r` at once, `P` is exactly as it was and
does not list `c` among its subscribers, and whatever runs afterwards `Error` on `c`
still returns `r`. -/
def CanceledAtBirth (s s1 : State K V) (P c : Nat) (r : Err) : Prop :=
  Error s1 c = Except.ok (some (some r)) ∧
  s1.nodes[P]? = s.nodes[P]? ∧
  (∀ p1 : context K V, s1.nodes[P]? = some p1 → c ∉ subscriberList p1.trigger) ∧
  ∀ (ops : List (Op K V)) (s2 : State K V), run s1 ops = Except.ok s2 →
    Error s2 c = Except.ok (some (some r))

/-- A small run: a root, a child carrying a value, a grandchild with a timeout. -/
def demoOps : List (Op Nat Nat) :=
  [Op.New, Op.WithValue 0 1 (some 2), Op.WithTimeout 1 100 5]

/-- The heap after `demoOps`: root `0`, child `1`, grandchild `2` owning timer `0`. -/
def demo : State Nat Nat := after demoOps

/-- The heap `demo` after its root has been canceled. -/
def demoCanceled : State Nat Nat := after (demoOps ++ [Op.Cancel 0])

/-- A root with a timeout child whose timer has already run. -/
def expiredOps : List (Op Nat Nat) :=
  [Op.New, Op.WithTimeout 0 100 5, Op.timerFires 0]

/-- The heap holding a single fresh root, node `0`. -/
def rootOnly : State Nat Nat := after [Op.New]

/-- From `s` to `s1` nothing outside the subtree of `N` has moved: every node other than
`N` and its descendants is unchanged, and in particular every ancestor of `N` and every
sibling of `N` keeps its reason. -/
def UntouchedOutside (s s1 : State K V) (N : Nat) : Prop :=
  (∀ i : Nat, i ≠ N → ¬ Descendant s.parentOf N i → s1.nodes[i]? = s.nodes[i]?) ∧
  (∀ A : Nat, Descendant s.parentOf A N → s1.reason A = s.reason A) ∧
  (∀ S : Nat, S ≠ N → s.parentOf S = s.parentOf N → s1.reason S = s.reason S)

/-- A root and a timeout child set at instant `100` for `5`: deadline `105`. -/
def timeoutOps : List (Op Nat Nat) :=
  [Op.New, Op.WithTimeout 0 100 5]

/-- The instant requested by a `WithTimeout` is not the zero time.  Instants come from
`time.Now()` and durations are bounded, so the sum never is the zero `time.Time`. -/
def Op.clockOk : Op K V → Bool
  | Op.WithTimeout _ now timeout => decide (now + timeout ≠ 0)
  | _ => true

/-- The heaps produced by runs in which no `WithTimeout` requests the zero time. -/
inductive ClockReachable : State K V → Prop where
  | empty : ClockReachable State.empty
  | step {s s1 : State K V} (op : Op K V) :
      ClockReachable s → op.clockOk = true → step s op = Except.ok s1 → ClockReachable s1

/-- A node below a parent that has a deadline has a deadline too, and not a later
one. -/
def DeadlineInv (s : State K V) : Prop :=
  ∀ (i p : Nat) (c cp : context K V), s.nodes[i]? = some c → c.parent = some p →
    s.nodes[p]? = some cp → cp.deadline ≠ 0 → c.deadline ≠ 0 ∧ c.deadline ≤ cp.deadline

/-- The heap that `Fire` with the nil error leaves behind on the fresh root: no reason
stored, yet the channel closed and the subscriber map nil. -/
def nilFired : State Nat Nat :=
  State.mk [context.mk none pairs.nil (firedTrigger none) none 0 false] []

/-- No subscriber map lists a trigger twice. -/
def NodupSubs (s : State K V) : Prop :=
  ∀ (i : Nat) (c : context K V), s.nodes[i]? = some c → (subscriberList c.trigger).Nodup

/-- Trigger `x` is in no subscriber map of the heap. -/
def Unlisted (s : State K V) (x : Nat) : Prop :=
  ∀ (j : Nat) (c : context K V), s.nodes[j]? = some c → x ∉ subscriberList c.trigger

/-- Trigger `N` is reached from trigger `A` through an unbroken chain of
subscriptions: each trigger on the way is listed in the map of the one before. -/
inductive SubChain (s : State K V) (A : Nat) : Nat → Prop where
  | refl : SubChain s A A
  | step {P N : Nat} {cp : context K V} : SubChain s A P → s.nodes[P]? = some cp →
      N ∈ subscriberList cp.trigger → SubChain s A N

/-- Every Live node with a deadline either owns an armed timer set for that deadline
and aimed at its own trigger, or has the deadline of its parent. -/
def TimerInv (s : State K V) : Prop :=
  ∀ (i : Nat) (c : context K V), s.nodes[i]? = some c → c.trigger.value = none →
    c.deadline ≠ 0 →
    (∃ k tm, c.timer = some k ∧ s.timers[k]? = some tm ∧ tm.state = TimerState.armed ∧
      tm.when = c.deadline ∧ tm.target = i) ∨
    (∃ p cp, c.parent = some p ∧ s.nodes[p]? = some cp ∧ cp.deadline = c.deadline)

/-- The heap `demo` with a further child `3` below the timeout node `2`. -/
def inheritedOps : List (Op Nat Nat) := demoOps ++ [Op.WithValue 2 9 none]

/-- The loop of `rangeSubscribers` for a body that also reports the triggers it has
entered; the reports are concatenated in the order of the loop. -/
def rangeLog (f : State K V → Nat → Except Fault (State K V × List Nat)) :
    List Nat → State K V → Except Fault (State K V × List Nat)
  | [], s => Except.ok (s, [])
  | sub :: rest, s =>
    match f s sub with
    | Except.error e => Except.error e
    | Except.ok (s1, log1) =>
      match rangeLog f rest s1 with
      | Except.error e => Except.error e
      | Except.ok (s2, log2) => Except.ok (s2, log1 ++ log2)

/-- The method `Fire` once more, line by line as in `Fire`, returning next to the heap
the list of the triggers whose mutex the call has taken, in the order of the calls. -/
def FireLog : Nat → State K V → Nat → Option Err → Except Fault (State K V × List Nat)
  | 0, _, _, _ => Except.error Fault.outOfFuel
  | fuel + 1, s, t, value =>
    match s.nodes[t]? with
    | none => Except.error Fault.nilDeref
    | some c =>
      if c.trigger.mu then Except.error Fault.deadlock
      else if c.trigger.value ≠ none then Except.ok (s, [t])
      else
        let s1 := s.setTrigger t { c.trigger with mu := true, value := value }
        match rangeLog (fun st sub => FireLog fuel st sub value)
            (subscriberList c.trigger) s1 with
        | Except.error e => Except.error e
        | Except.ok (s2, log) =>
          match s2.nodes[t]? with
          | none => Except.error Fault.nilDeref
          | some c2 =>
            if c2.trigger.waiter then Except.error Fault.closeOfClosedChannel
            else Except.ok (s2.setTrigger t
              { c2.trigger with subscribers := none, waiter := true, mu := false }, t :: log)

/-- The parent pointer of node `i` as long as `i` has not been reclaimed, `none`
afterwards. -/
def State.heldParentOf (s : State K V) (i : Nat) : Option Nat :=
  if s.reclaimed i then none else s.parentOf i

/-- No context of the heap has been reclaimed: every child still has its finalizer
set. -/
def Unreclaimed (s : State K V) : Prop :=
  ∀ (i : Nat) (c : context K V), s.nodes[i]? = some c → c.parent ≠ none → c.finalizer = true

/-- A root `0` and a child `1` carrying a value. -/
def childOps : List (Op Nat Nat) :=
  [Op.New, Op.WithValue 0 1 (some 2)]

/-- The heap after `childOps` once the program has dropped the child `1`, keeping at
most its `Terminated` channel, and the collector has reclaimed it. -/
def droppedChild : State Nat Nat :=
  match collect (after childOps) 1 with
  | Except.ok s => s
  | Except.error _ => State.empty

/-- A root `0` with two children `1` and `2`, each carrying a value. -/
def siblingOps : List (Op Nat Nat) :=
  childOps ++ [Op.WithValue 0 3 (some 4)]

/-- The heap after `siblingOps` once the program has dropped the child `1` and the
collector has reclaimed it; the child `2` is kept. -/
def droppedSibling : State Nat Nat :=
  match collect (after siblingOps) 1 with
  | Except.ok s => s
  | Except.error _ => State.empty

/-- The heap `droppedSibling` after `Cancel` on its root. -/
def droppedSiblingCanceled : State Nat Nat :=
  match Cancel droppedSibling 0 with
  | Except.ok s => s
  | Except.error _ => State.empty

/-- The heap holding a single fresh root, node `0`, for keys of type `Key`. -/
def keyRoot : State Key Nat := after [Op.New]

/-! ## Heap bookkeeping -/

theorem setTrigger_timers (s : State K V) (t : Nat) (tr : errorTrigger) :
    (s.setTrigger t tr).timers = s.timers := by
  unfold State.setTrigger
  cases s.nodes[t]? <;> rfl

theorem setFinalizer_timers (s : State K V) (c : Nat) (b : Bool) :
    (s.setFinalizer c b).timers = s.timers := by
  unfold State.setFinalizer
  cases s.nodes[c]? <;> rfl

theorem setFinalizer_self (s : State K V) (c : Nat) (b : Bool) (n : context K V)
    (h : s.nodes[c]? = some n) :
    (s.setFinalizer c b).nodes[c]? = some { n with finalizer := b } := by
  have hlt : c < s.nodes.length := by
    rcases List.getElem?_eq_some.mp h with ⟨hh, _⟩
    exact hh
  unfold State.setFinalizer
  rw [h]
  simp [List.getElem?_set_self hlt]

theorem setFinalizer_other (s : State K V) (c i : Nat) (b : Bool) (h : i ≠ c) :
    (s.setFinalizer c b).nodes[i]? = s.nodes[i]? := by
  unfold State.setFinalizer
  cases s.nodes[c]? with
  | none => rfl
  | some n => simp [List.getElem?_set_ne (Ne.symm h)]

theorem setTrigger_length (s : State K V) (t : Nat) (tr : errorTrigger) :
    (s.setTrigger t tr).nodes.length = s.nodes.length := by
  unfold State.setTrigger
  cases s.nodes[t]? <;> simp

theorem setTrigger_self (s : State K V) (t : Nat) (tr : errorTrigger) (c : context K V)
    (h : s.nodes[t]? = some c) :
    (s.setTrigger t tr).nodes[t]? = some { c with trigger := tr } := by
  have hlt : t < s.nodes.length := by
    rcases List.getElem?_eq_some.mp h with ⟨hh, _⟩
    exact hh
  unfold State.setTrigger
  rw [h]
  simp [List.getElem?_set_self hlt]

theorem setTrigger_other (s : State K V) (t i : Nat) (tr : errorTrigger) (h : i ≠ t) :
    (s.setTrigger t tr).nodes[i]? = s.nodes[i]? := by
  unfold State.setTrigger
  cases s.nodes[t]? with
  | none => rfl
  | some c => simp [List.getElem?_set_ne (Ne.symm h)]

theorem setTrigger_parentOf (s : State K V) (t : Nat) (tr : errorTrigger) :
    (s.setTrigger t tr).parentOf = s.parentOf := by
  funext i
  unfold State.parentOf
  by_cases h : i = t
  · subst h
    cases hc : s.nodes[i]? with
    | none =>
      have : (s.setTrigger i tr) = s := by
        unfold State.setTrigger
        rw [hc]
      rw [this, hc]
    | some c => rw [setTrigger_self s i tr c hc]; rfl
  · rw [setTrigger_other s t i tr h]

theorem lt_length_of_get {α : Type} {l : List α} {i : Nat} {a : α} (h : l[i]? = some a) :
    i < l.length := by
  rcases List.getElem?_eq_some.mp h with ⟨hh, _⟩
  exact hh

theorem lt_length_of_parentOf {s : State K V} {j p : Nat} (h : s.parentOf j = some p) :
    j < s.nodes.length := by
  unfold State.parentOf at h
  cases hc : s.nodes[j]? with
  | none => rw [hc] at h; simp at h
  | some c => exact lt_length_of_get hc

/-! ## The cascade relation -/

theorem Cascade.refl (value : Option Err) (lo : Nat) (R : Nat → Prop) (s : State K V) :
    Cascade value lo R s s :=
  ⟨rfl, fun _ _ h => Or.inl h⟩

theorem Cascade.get_some {value : Option Err} {lo : Nat} {R : Nat → Prop} {s s1 : State K V}
    (h : Cascade value lo R s s1) {i : Nat} {c : context K V} (hc : s.nodes[i]? = some c) :
    ∃ c1, s1.nodes[i]? = some c1 ∧ c1.parent = c.parent ∧ c1.fields = c.fields ∧
      c1.timer = c.timer ∧ c1.deadline = c.deadline ∧
      (c1.trigger = c.trigger ∨ (c.trigger.value = none ∧ c1.trigger = firedTrigger value)) := by
  rcases h.2 i c hc with h1 | ⟨_, _, hv, h1, _⟩
  · exact ⟨c, h1, rfl, rfl, rfl, rfl, Or.inl rfl⟩
  · exact ⟨_, h1, rfl, rfl, rfl, rfl, Or.inr ⟨hv, rfl⟩⟩

theorem Cascade.get_none {value : Option Err} {lo : Nat} {R : Nat → Prop} {s s1 : State K V}
    (h : Cascade value lo R s s1) {i : Nat} (hc : s.nodes[i]? = none) :
    s1.nodes[i]? = none := by
  rw [List.getElem?_eq_none_iff] at hc ⊢
  rw [h.1]
  exact hc

theorem Cascade.parentOf {value : Option Err} {lo : Nat} {R : Nat → Prop} {s s1 : State K V}
    (h : Cascade value lo R s s1) : s1.parentOf = s.parentOf := by
  funext i
  unfold State.parentOf
  cases hc : s.nodes[i]? with
  | none => rw [h.get_none hc]
  | some c =>
    rcases h.get_some hc with ⟨c1, h1, hp, _⟩
    rw [h1]
    simp [hp]

theorem Cascade.fired_mono {e : Err} {lo : Nat} {R : Nat → Prop} {s s1 : State K V}
    (h : Cascade (some e) lo R s s1) {j : Nat} (hj : s.fired j) : s1.fired j := by
  rcases hj with ⟨c, hc, hv⟩
  rcases h.get_some hc with ⟨c1, h1, _, _, _, _, ht | ⟨_, ht⟩⟩
  · exact ⟨c1, h1, by rw [ht]; exact hv⟩
  · exact ⟨c1, h1, by rw [ht]; simp [firedTrigger]⟩

theorem Cascade.mono {value : Option Err} {lo lo1 : Nat} {R R1 : Nat → Prop}
    {s s1 : State K V} (h : Cascade value lo R s s1) (hlo : lo1 ≤ lo)
    (hR : ∀ i, lo ≤ i → R i → R1 i) : Cascade value lo1 R1 s s1 := by
  refine ⟨h.1, fun i c hc => ?_⟩
  rcases h.2 i c hc with h1 | ⟨h0, hr, hv, h1, hs⟩
  · exact Or.inl h1
  · exact Or.inr ⟨le_trans hlo h0, hR i h0 hr, hv, h1, hs⟩

theorem Cascade.trans {e : Err} {lo : Nat} {R : Nat → Prop} {s s1 s2 : State K V}
    (h : Cascade (some e) lo R s s1) (h1 : Cascade (some e) lo R s1 s2) :
    Cascade (some e) lo R s s2 := by
  refine ⟨h1.1.trans h.1, fun i c hc => ?_⟩
  rcases h.2 i c hc with hs | ⟨h0, hr, hv, hs, hsub⟩
  · rcases h1.2 i c hs with ht | ht
    · exact Or.inl ht
    · exact Or.inr ht
  · rcases h1.2 i _ hs with ht | ⟨_, _, hv1, _, _⟩
    · exact Or.inr ⟨h0, hr, hv, ht, fun j hj => h1.fired_mono (hsub j hj)⟩
    · simp [firedTrigger] at hv1

theorem Cascade.wellFormedFrom {e : Err} {lo : Nat} {R : Nat → Prop} {s s1 : State K V}
    (h : Cascade (some e) lo R s s1) {t : Nat} (hw : WellFormedFrom s t) :
    WellFormedFrom s1 t := by
  intro i c1 hti hc1
  have hlt : i < s.nodes.length := by
    rw [← h.1]
    exact lt_length_of_get hc1
  obtain ⟨c, hc⟩ : ∃ c, s.nodes[i]? = some c := by
    cases hq : s.nodes[i]? with
    | none =>
      rw [List.getElem?_eq_none_iff] at hq
      omega
    | some c => exact ⟨c, rfl⟩
  rcases hw i c hti hc with ⟨hmu, hwait, hsub⟩
  rcases h.2 i c hc with hs | ⟨_, _, _, hs, _⟩
  · rw [hs] at hc1
    cases hc1
    refine ⟨hmu, hwait, fun j hj => ?_⟩
    rw [h.parentOf]
    exact hsub j hj
  · rw [hs] at hc1
    cases hc1
    refine ⟨rfl, ?_, ?_⟩
    · intro hv
      simp [firedTrigger] at hv
    · intro j hj
      simp [firedTrigger, subscriberList] at hj

/-! ## `Fire` returns and cascades -/

theorem Descendant.of_parent {par : Nat → Option Nat} {t j i : Nat} (hj : par j = some t)
    (h : Descendant par j i) : Descendant par t i := by
  induction h with
  | child hd => exact Descendant.trans (Descendant.child hj) hd
  | trans _ hd ih => exact Descendant.trans ih hd

theorem rangeSubscribers_cascade (e : Err) (fuel : Nat)
    (IH : ∀ (s : State K V) (t : Nat), t < s.nodes.length → s.nodes.length ≤ fuel + t →
      WellFormedFrom s t →
      ∃ s1, Fire fuel s t (some e) = Except.ok s1 ∧ s1.timers = s.timers ∧
        Cascade (some e) t (fun i => i = t ∨ Descendant s.parentOf t i) s s1 ∧ s1.fired t)
    (t : Nat) :
    ∀ (l : List Nat) (σ : State K V), (∀ j ∈ l, t < j ∧ σ.parentOf j = some t) →
      σ.nodes.length ≤ fuel + (t + 1) → WellFormedFrom σ (t + 1) →
      ∃ σ1, rangeSubscribers (fun st sub => Fire fuel st sub (some e)) l σ = Except.ok σ1 ∧
        σ1.timers = σ.timers ∧
        Cascade (some e) (t + 1) (fun i => Descendant σ.parentOf t i) σ σ1 ∧
        ∀ j ∈ l, σ1.fired j := by
  intro l
  induction l with
  | nil =>
    intro σ _ _ _
    exact ⟨σ, rfl, rfl, Cascade.refl _ _ _ _, by simp⟩
  | cons j rest ih =>
    intro σ hl hlen hw
    have hj := hl j (List.mem_cons_self j rest)
    have hjlt := lt_length_of_parentOf hj.2
    obtain ⟨σ1, hf, htm, hc, hfired⟩ :=
      IH σ j hjlt (by omega) (fun i c hi => hw i c (by omega))
    have hc1 : Cascade (some e) (t + 1) (fun i => Descendant σ.parentOf t i) σ σ1 := by
      refine hc.mono (by omega) (fun i _ hr => ?_)
      rcases hr with rfl | hd
      · exact Descendant.child hj.2
      · exact Descendant.of_parent hj.2 hd
    obtain ⟨σ2, hf2, htm2, hc2, hfired2⟩ := ih σ1
      (by
        rw [hc.parentOf]
        intro k hk
        exact hl k (List.mem_cons_of_mem j hk))
      (by rw [hc.1]; exact hlen) (hc.wellFormedFrom hw)
    rw [hc.parentOf] at hc2
    refine ⟨σ2, ?_, htm2.trans htm, hc1.trans hc2, ?_⟩
    · simp only [rangeSubscribers, hf]
      exact hf2
    · intro k hk
      rcases List.mem_cons.mp hk with rfl | hk
      · exact hc2.fired_mono hfired
      · exact hfired2 k hk

theorem Fire_cascade (e : Err) :
    ∀ (fuel : Nat) (s : State K V) (t : Nat), t < s.nodes.length →
      s.nodes.length ≤ fuel + t → WellFormedFrom s t →
      ∃ s1, Fire fuel s t (some e) = Except.ok s1 ∧ s1.timers = s.timers ∧
        Cascade (some e) t (fun i => i = t ∨ Descendant s.parentOf t i) s s1 ∧ s1.fired t := by
  intro fuel
  induction fuel with
  | zero =>
    intro s t ht hlen _
    omega
  | succ fuel IH =>
    intro s t ht hlen hw
    obtain ⟨c, hc⟩ : ∃ c, s.nodes[t]? = some c := by
      cases hq : s.nodes[t]? with
      | none =>
        rw [List.getElem?_eq_none_iff] at hq
        omega
      | some c => exact ⟨c, rfl⟩
    rcases hw t c (le_refl t) hc with ⟨hmu, hwait, hsub⟩
    by_cases hv : c.trigger.value = none
    · -- first fire
      let s0 : State K V := s.setTrigger t { c.trigger with mu := true, value := some e }
      have hs0p : s0.parentOf = s.parentOf := setTrigger_parentOf s t _
      have hs0len : s0.nodes.length = s.nodes.length := setTrigger_length s t _
      have hs0t : s0.nodes[t]? =
          some { c with trigger := { c.trigger with mu := true, value := some e } } :=
        setTrigger_self s t _ c hc
      have hw0 : WellFormedFrom s0 (t + 1) := by
        intro i ci hi hci
        have hne : i ≠ t := by omega
        rw [show s0.nodes[i]? = s.nodes[i]? from setTrigger_other s t i _ hne] at hci
        rw [hs0p]
        exact hw i ci (by omega) hci
      obtain ⟨s2, hr, htms, hcas, hfired⟩ := rangeSubscribers_cascade e fuel IH t
        (subscriberList c.trigger) s0
        (by
          intro j hj
          rw [hs0p]
          exact ⟨(hsub j hj).2, (hsub j hj).1⟩)
        (by rw [hs0len]; omega) hw0
      have hs2t : s2.nodes[t]? =
          some { c with trigger := { c.trigger with mu := true, value := some e } } := by
        rcases hcas.2 t _ hs0t with h1 | ⟨h0, _⟩
        · exact h1
        · omega
      have hwt : c.trigger.waiter = false := hwait hv
      refine ⟨s2.setTrigger t (firedTrigger (some e)), ?_, ?_, ?_, ?_⟩
      · simp only [Fire, hc, hmu, hv]
        simp only [Bool.false_eq_true, if_false, ne_eq, not_true_eq_false]
        have hr1 : rangeSubscribers (fun st sub => Fire fuel st sub (some e))
            (subscriberList c.trigger)
            (s.setTrigger t { c.trigger with mu := true, value := some e }) = Except.ok s2 := hr
        rw [hr1]
        simp only [hs2t, hwt, Bool.false_eq_true, if_false]
        rfl
      · rw [setTrigger_timers, htms, setTrigger_timers]
      · refine ⟨?_, fun i ci hci => ?_⟩
        · rw [setTrigger_length, hcas.1, hs0len]
        · by_cases hit : i = t
          · subst hit
            rw [hc] at hci
            cases hci
            refine Or.inr ⟨le_refl _, Or.inl rfl, hv, ?_, fun j hj => ?_⟩
            · rw [setTrigger_self s2 i _ _ hs2t]
            · rcases hfired j hj with ⟨cj, hcj, hvj⟩
              have hne : j ≠ i := by
                have := (hsub j hj).2
                omega
              exact ⟨cj, by rw [setTrigger_other s2 i j _ hne]; exact hcj, hvj⟩
          · have hci0 : s0.nodes[i]? = some ci := by
              rw [show s0.nodes[i]? = s.nodes[i]? from setTrigger_other s t i _ hit]
              exact hci
            rcases hcas.2 i ci hci0 with h1 | ⟨h0, hR, hvi, h1, hs⟩
            · left
              rw [setTrigger_other s2 t i _ hit]
              exact h1
            · right
              refine ⟨by omega, Or.inr (by rw [← hs0p]; exact hR), hvi, ?_, fun j hj => ?_⟩
              · rw [setTrigger_other s2 t i _ hit]
                exact h1
              · rcases hs j hj with ⟨cj, hcj, hvj⟩
                by_cases hjt : j = t
                · subst hjt
                  exact ⟨_, setTrigger_self s2 j _ _ hs2t, by simp [firedTrigger]⟩
                · exact ⟨cj, by rw [setTrigger_other s2 t j _ hjt]; exact hcj, hvj⟩
      · exact ⟨_, setTrigger_self s2 t _ _ hs2t, by simp [firedTrigger]⟩
    · -- only fire once
      refine ⟨s, ?_, rfl, Cascade.refl _ _ _ _, ⟨c, hc, hv⟩⟩
      simp [Fire, hc, hmu, hv]

/-! ## `newChild` and the derivations -/

theorem State.ext_get {s1 s2 : State K V} (ht : s1.timers = s2.timers)
    (hn : ∀ i : Nat, s1.nodes[i]? = s2.nodes[i]?) : s1 = s2 := by
  cases s1
  cases s2
  simp only [State.mk.injEq]
  exact ⟨List.ext_getElem? hn, ht⟩

theorem get_set_append {α : Type} (l : List α) (c : Nat) (x y : α) (hc : c < l.length)
    (i : Nat) :
    (l.set c x ++ [y])[i]? =
      if i = c then some x else if i = l.length then some y else l[i]? := by
  by_cases h1 : i = c
  · subst h1
    rw [if_pos rfl, List.getElem?_append_left (by simpa using hc),
      List.getElem?_set_self hc]
  · rw [if_neg h1]
    by_cases h2 : i = l.length
    · subst h2
      rw [if_pos rfl]
      have := List.getElem?_concat_length (l.set c x) y
      rw [List.length_set] at this
      exact this
    · rw [if_neg h2]
      by_cases h3 : i < l.length
      · rw [List.getElem?_append_left (by simpa using h3),
          List.getElem?_set_ne (Ne.symm h1)]
      · have h4 : l.length + 1 ≤ i := by omega
        rw [List.getElem?_eq_none (by simp; omega), List.getElem?_eq_none (by omega)]

theorem get_append_one {α : Type} (l : List α) (y : α) (i : Nat) :
    (l ++ [y])[i]? = if i = l.length then some y else l[i]? := by
  by_cases h2 : i = l.length
  · subst h2
    rw [if_pos rfl]
    exact List.getElem?_concat_length l y
  · rw [if_neg h2]
    by_cases h3 : i < l.length
    · rw [List.getElem?_append_left h3]
    · rw [List.getElem?_eq_none (by simp; omega), List.getElem?_eq_none (by omega)]

theorem Fire_fresh (fuel : Nat) (s : State K V) (t : Nat) (c : context K V) (v : Option Err)
    (hc : s.nodes[t]? = some c) (htr : c.trigger = newTrigger) :
    ∃ s1, Fire (fuel + 1) s t v = Except.ok s1 ∧ s1.timers = s.timers ∧
      s1.nodes[t]? = some { c with trigger := firedTrigger v } ∧
      ∀ i, i ≠ t → s1.nodes[i]? = s.nodes[i]? := by
  have h1 : (s.setTrigger t { c.trigger with mu := true, value := v }).nodes[t]? =
      some { c with trigger := { c.trigger with mu := true, value := v } } :=
    setTrigger_self s t _ c hc
  refine ⟨(s.setTrigger t { c.trigger with mu := true, value := v }).setTrigger t
    (firedTrigger v), ?_, ?_, ?_, ?_⟩
  · simp only [Fire, hc, htr, newTrigger, subscriberList, rangeSubscribers]
    simp only [Bool.false_eq_true, if_false, ne_eq, not_true_eq_false]
    rw [htr] at h1
    simp only [newTrigger] at h1
    simp only [h1, Bool.false_eq_true, if_false]
    rfl
  · rw [setTrigger_timers, setTrigger_timers]
  · rw [setTrigger_self _ t _ _ h1]
  · intro i hi
    rw [setTrigger_other _ t i _ hi, setTrigger_other _ t i _ hi]

theorem newChild_eq (s : State K V) (c : Nat) (p : context K V)
    (hp : s.nodes[c]? = some p) (hmu : p.trigger.mu = false)
    (hlive : p.trigger.value = none → p.trigger.subscribers ≠ none) :
    newChild s c = Except.ok
      ({ nodes := s.nodes.set c (p.subscribe s.nodes.length) ++ [p.child c],
         timers := s.timers }, s.nodes.length) := by
  have hclt : c < s.nodes.length := lt_length_of_get hp
  have hcn : c ≠ s.nodes.length := by omega
  let ch0 : context K V :=
    { parent := some c, fields := p.fields, trigger := newTrigger, timer := none,
      deadline := p.deadline, finalizer := false }
  let s0 : State K V := { s with nodes := s.nodes ++ [ch0] }
  have h0c : s0.nodes[c]? = some p := by
    show (s.nodes ++ [ch0])[c]? = some p
    rw [List.getElem?_append_left hclt]
    exact hp
  have h0n : s0.nodes[s.nodes.length]? = some ch0 := List.getElem?_concat_length _ _
  have h0i : ∀ i, s0.nodes[i]? = if i = s.nodes.length then some ch0 else s.nodes[i]? :=
    fun i => get_append_one s.nodes ch0 i
  unfold newChild
  rw [hp]
  show (match Subscribe s0.fuel s0 c s.nodes.length with
    | Except.error e => Except.error e
    | Except.ok s2 => Except.ok (s2.setFinalizer s.nodes.length true, s.nodes.length)) = _
  cases hv : p.trigger.value with
  | none =>
    obtain ⟨l, hl⟩ : ∃ l, p.trigger.subscribers = some l := by
      cases hs : p.trigger.subscribers with
      | none => exact absurd hs (hlive hv)
      | some l => exact ⟨l, rfl⟩
    have hsub : Subscribe s0.fuel s0 c s.nodes.length = Except.ok
        (s0.setTrigger c { p.trigger with subscribers := some (l.insert s.nodes.length) }) := by
      simp [Subscribe, h0c, hmu, hv, hl]
    rw [hsub]
    simp only
    congr 1
    congr 1
    apply State.ext_get
    · rw [setFinalizer_timers, setTrigger_timers]
    · intro i
      rw [get_set_append _ _ _ _ hclt]
      have hXn : (s0.setTrigger c
          { p.trigger with subscribers := some (l.insert s.nodes.length) }).nodes[
            s.nodes.length]? = some ch0 := by
        rw [setTrigger_other s0 c _ _ (Ne.symm hcn)]
        exact h0n
      by_cases hin : i = s.nodes.length
      · subst hin
        rw [if_neg (Ne.symm hcn), if_pos rfl, setFinalizer_self _ _ _ _ hXn]
        simp [context.child, hv, ch0]
      · rw [setFinalizer_other _ _ i _ hin, if_neg hin]
        by_cases hic : i = c
        · subst hic
          rw [if_pos rfl, setTrigger_self s0 i _ p h0c]
          simp [context.subscribe, hv, hl]
        · rw [if_neg hic, setTrigger_other s0 c i _ hic, h0i i, if_neg hin]
  | some v =>
    have hAc : (s0.setTrigger c { p.trigger with mu := true }).nodes[c]? =
        some { p with trigger := { p.trigger with mu := true } } :=
      setTrigger_self s0 c _ p h0c
    have hAn : (s0.setTrigger c { p.trigger with mu := true }).nodes[s.nodes.length]? =
        some ch0 := by
      rw [setTrigger_other s0 c _ _ (Ne.symm hcn)]
      exact h0n
    have hne : p.trigger.value ≠ none := by
      rw [hv]
      simp
    obtain ⟨s1, hf, hft, hfn, hfo⟩ := Fire_fresh s0.nodes.length
      (s0.setTrigger c { p.trigger with mu := true }) s.nodes.length ch0 p.trigger.value
      hAn rfl
    have h1c : s1.nodes[c]? = some { p with trigger := { p.trigger with mu := true } } := by
      rw [hfo c hcn]
      exact hAc
    have hback : errorTrigger.mk false p.trigger.value p.trigger.waiter
        p.trigger.subscribers = p.trigger := by
      rw [← hmu]
    have hsub : Subscribe s0.fuel s0 c s.nodes.length = Except.ok
        (s1.setTrigger c p.trigger) := by
      unfold Subscribe
      rw [h0c]
      simp only [hmu, hne, State.fuel, Bool.false_eq_true, if_false, ne_eq,
        not_false_eq_true, if_true] at hf h1c ⊢
      rw [hf]
      simp only [h1c]
      rw [hback]
    rw [hsub]
    simp only
    congr 1
    congr 1
    apply State.ext_get
    · rw [setFinalizer_timers, setTrigger_timers, hft, setTrigger_timers]
    · intro i
      rw [get_set_append _ _ _ _ hclt]
      have hXn : (s1.setTrigger c p.trigger).nodes[s.nodes.length]? =
          some { ch0 with trigger := firedTrigger p.trigger.value } := by
        rw [setTrigger_other s1 c _ _ (Ne.symm hcn)]
        exact hfn
      by_cases hin : i = s.nodes.length
      · subst hin
        rw [if_neg (Ne.symm hcn), if_pos rfl, setFinalizer_self _ _ _ _ hXn]
        simp [context.child, hv, ch0]
      · rw [setFinalizer_other _ _ i _ hin, if_neg hin]
        by_cases hic : i = c
        · subst hic
          rw [if_pos rfl, setTrigger_self s1 i _ _ h1c]
          simp [context.subscribe, hv]
        · rw [if_neg hic, setTrigger_other s1 c i _ hic, hfo i hin,
            setTrigger_other s0 c i _ hic, h0i i, if_neg hin]

/-! ## The invariant is kept -/

theorem Inv.wellFormed {s : State K V} (h : Inv s) (t : Nat) : WellFormedFrom s t := by
  intro i c _ hc
  refine ⟨h.unlocked i c hc, fun hv => (h.live i c hc hv).1, fun j hj => ?_⟩
  have hp := h.subs_child i c hc j hj
  exact ⟨hp, h.parent_lt j i hp⟩

theorem get_of_lt {α : Type} {l : List α} {i : Nat} (h : i < l.length) :
    ∃ a, l[i]? = some a := by
  cases hq : l[i]? with
  | none =>
    rw [List.getElem?_eq_none_iff] at hq
    omega
  | some a => exact ⟨a, rfl⟩

theorem Cascade.get_back {value : Option Err} {lo : Nat} {R : Nat → Prop} {s s1 : State K V}
    (h : Cascade value lo R s s1) {i : Nat} {c1 : context K V}
    (hc1 : s1.nodes[i]? = some c1) :
    ∃ c, s.nodes[i]? = some c ∧
      (c1 = c ∨ (lo ≤ i ∧ R i ∧ c.trigger.value = none ∧
        c1 = { c with trigger := firedTrigger value } ∧
        ∀ j ∈ subscriberList c.trigger, s1.fired j)) := by
  have hlt : i < s.nodes.length := by
    rw [← h.1]
    exact lt_length_of_get hc1
  obtain ⟨c, hc⟩ := get_of_lt hlt
  refine ⟨c, hc, ?_⟩
  rcases h.2 i c hc with hs | ⟨h0, hr, hv, hs, hsub⟩
  · rw [hs] at hc1
    cases hc1
    exact Or.inl rfl
  · rw [hs] at hc1
    cases hc1
    exact Or.inr ⟨h0, hr, hv, rfl, hsub⟩

theorem Inv.of_cascade {e : Err} {lo : Nat} {R : Nat → Prop} {s s1 : State K V}
    (h : Inv s) (hc : Cascade (some e) lo R s s1) (htm : s1.timers = s.timers) : Inv s1 := by
  refine ⟨?_, ?_, ?_, ?_, ?_, ?_, ?_, ?_⟩
  · rw [hc.parentOf]
    exact h.parent_lt
  · intro i c1 hc1 j hj
    rw [hc.parentOf]
    rcases hc.get_back hc1 with ⟨c, hcs, rfl | ⟨_, _, _, rfl, _⟩⟩
    · exact h.subs_child i c1 hcs j hj
    · simp [firedTrigger, subscriberList] at hj
  · intro i c1 hc1
    rcases hc.get_back hc1 with ⟨c, hcs, rfl | ⟨_, _, _, rfl, _⟩⟩
    · exact h.unlocked i c1 hcs
    · rfl
  · intro i c1 hc1 hv
    rcases hc.get_back hc1 with ⟨c, hcs, rfl | ⟨_, _, _, rfl, _⟩⟩
    · exact h.live i c1 hcs hv
    · simp [firedTrigger] at hv
  · intro i c1 hc1 hv
    rcases hc.get_back hc1 with ⟨c, hcs, rfl | ⟨_, _, _, rfl, _⟩⟩
    · exact h.dead i c1 hcs hv
    · exact ⟨rfl, rfl⟩
  · intro j p cj1 cp1 hj hpar hp hz
    rcases hc.get_back hp with ⟨cp, hcp, rfl | ⟨_, _, hvp, rfl, hsub⟩⟩
    · rcases hc.get_back hj with ⟨cj, hcj, rfl | ⟨_, _, _, rfl, _⟩⟩
      · exact h.link j p cj1 cp1 hcj hpar hcp hz
      · refine ⟨(h.link j p cj cp1 hcj hpar hcp hz).1, fun _ => ?_⟩
        simp [firedTrigger]
    · refine ⟨fun hv => ?_, fun _ => ?_⟩
      · simp [firedTrigger] at hv
      · rcases hc.get_back hj with ⟨cj, hcj, hcase⟩
        have hpar0 : cj.parent = some p := by
          rcases hcase with rfl | ⟨_, _, _, rfl, _⟩
          · exact hpar
          · exact hpar
        have hz0 : cj.finalizer = true := by
          rcases hcase with rfl | ⟨_, _, _, rfl, _⟩
          · exact hz
          · exact hz
        have hmem := (h.link j p cj cp hcj hpar0 hcp hz0).1 hvp
        rcases hsub j hmem with ⟨cj2, hcj2, hv2⟩
        rw [hj] at hcj2
        cases hcj2
        exact hv2
  · intro k tm hk
    rw [htm] at hk
    rw [hc.1]
    exact h.timer_target k tm hk
  · intro i c1 k hc1 hk
    rw [htm]
    rcases hc.get_back hc1 with ⟨c, hcs, rfl | ⟨_, _, _, rfl, _⟩⟩
    · exact h.timer_owner i c1 k hcs hk
    · exact h.timer_owner i c k hcs hk

theorem Inv.of_timers {s s1 : State K V} (h : Inv s) (hn : s1.nodes = s.nodes)
    (ht : ∀ (k : Nat) (tm : Timer), s1.timers[k]? = some tm → tm.target < s.nodes.length)
    (ho : ∀ (k : Nat) (tm : Timer), s.timers[k]? = some tm →
      ∃ tm1, s1.timers[k]? = some tm1 ∧ tm1.target = tm.target) :
    Inv s1 := by
  have hp : s1.parentOf = s.parentOf := by
    funext i
    unfold State.parentOf
    rw [hn]
  refine ⟨?_, ?_, ?_, ?_, ?_, ?_, ?_, ?_⟩
  · rw [hp]
    exact h.parent_lt
  · rw [hp, hn]
    exact h.subs_child
  · rw [hn]
    exact h.unlocked
  · rw [hn]
    exact h.live
  · rw [hn]
    exact h.dead
  · rw [hn]
    exact h.link
  · rw [hn]
    exact ht
  · rw [hn]
    intro i c k hc hk
    rcases h.timer_owner i c k hc hk with ⟨tm, htm, htg⟩
    rcases ho k tm htm with ⟨tm1, htm1, htg1⟩
    exact ⟨tm1, htm1, by rw [htg1, htg]⟩

theorem Inv.empty : Inv (State.empty : State K V) := by
  refine ⟨?_, ?_, ?_, ?_, ?_, ?_, ?_, ?_⟩ <;> simp [State.empty, State.parentOf]

theorem subscribe_finalizer (p : context K V) (n : Nat) :
    (p.subscribe n).finalizer = p.finalizer := by
  unfold context.subscribe
  split <;> rfl

theorem subscribe_shape (p : context K V) (n : Nat) :
    (p.subscribe n).parent = p.parent ∧ (p.subscribe n).fields = p.fields ∧
    (p.subscribe n).timer = p.timer ∧ (p.subscribe n).deadline = p.deadline ∧
    (p.subscribe n).trigger.value = p.trigger.value ∧
    (p.subscribe n).trigger.mu = p.trigger.mu ∧
    (p.subscribe n).trigger.waiter = p.trigger.waiter ∧
    ((p.subscribe n).trigger.subscribers = none ↔ p.trigger.subscribers = none) ∧
    (∀ j, j ∈ subscriberList p.trigger → j ∈ subscriberList (p.subscribe n).trigger) ∧
    (∀ j, j ∈ subscriberList (p.subscribe n).trigger →
      j = n ∨ j ∈ subscriberList p.trigger) ∧
    (p.trigger.value = none → p.trigger.subscribers ≠ none →
      n ∈ subscriberList (p.subscribe n).trigger) := by
  have key : (p.subscribe n = p ∧ (p.trigger.value ≠ none ∨ p.trigger.subscribers = none)) ∨
      ∃ l, p.trigger.value = none ∧ p.trigger.subscribers = some l ∧
        p.subscribe n =
          { p with trigger := { p.trigger with subscribers := some (l.insert n) } } := by
    unfold context.subscribe
    cases hv : p.trigger.value with
    | some v => exact Or.inl ⟨rfl, Or.inl (by simp)⟩
    | none =>
      cases hs : p.trigger.subscribers with
      | none => exact Or.inl ⟨rfl, Or.inr rfl⟩
      | some l => exact Or.inr ⟨l, rfl, rfl, rfl⟩
  rcases key with ⟨heq, hcase⟩ | ⟨l, hv, hs, heq⟩
  · rw [heq]
    refine ⟨rfl, rfl, rfl, rfl, rfl, rfl, rfl, Iff.rfl, fun j hj => hj, fun j hj => Or.inr hj,
      fun hv hs => ?_⟩
    rcases hcase with hc | hc
    · exact absurd hv hc
    · exact absurd hc hs
  · rw [heq]
    refine ⟨rfl, rfl, rfl, rfl, rfl, rfl, rfl, ?_, ?_, ?_, ?_⟩
    · simp [hs]
    · intro j hj
      simp only [subscriberList, hs] at hj ⊢
      exact List.mem_insert_iff.mpr (Or.inr hj)
    · intro j hj
      simp only [subscriberList, hs] at hj ⊢
      exact List.mem_insert_iff.mp hj
    · intro _ _
      simp only [subscriberList]
      exact List.mem_insert_iff.mpr (Or.inl rfl)

theorem subscribe_fired (p : context K V) (n : Nat) (v : Err)
    (hv : p.trigger.value = some v) : p.subscribe n = p := by
  unfold context.subscribe
  simp [hv]

theorem Inv.addChild {s : State K V} (h : Inv s) {c : Nat} {p ch : context K V}
    (hp : s.nodes[c]? = some p) (hpar : ch.parent = some c)
    (htr : ch.trigger = (p.child c).trigger) (tms : List Timer)
    (ht : ∀ (k : Nat) (tm : Timer), tms[k]? = some tm → tm.target < s.nodes.length + 1)
    (hkeep : ∀ (k : Nat) (tm : Timer), s.timers[k]? = some tm → tms[k]? = some tm)
    (hown : ∀ k : Nat, ch.timer = some k →
      ∃ tm, tms[k]? = some tm ∧ tm.target = s.nodes.length) :
    Inv ({ nodes := s.nodes.set c (p.subscribe s.nodes.length) ++ [ch], timers := tms } :
      State K V) := by
  have hclt : c < s.nodes.length := lt_length_of_get hp
  obtain ⟨sp, sf, st, sd, sv, smu, sw, snone, ssub, ssub1, smem⟩ :=
    subscribe_shape p s.nodes.length
  have hget : ∀ i : Nat,
      (s.nodes.set c (p.subscribe s.nodes.length) ++ [ch])[i]? =
        if i = c then some (p.subscribe s.nodes.length)
        else if i = s.nodes.length then some ch else s.nodes[i]? :=
    fun i => get_set_append s.nodes c _ ch hclt i
  -- every node below the new one is an old node with at most more subscribers
  have hold : ∀ (i : Nat) (c1 : context K V), i ≠ s.nodes.length →
      (s.nodes.set c (p.subscribe s.nodes.length) ++ [ch])[i]? = some c1 →
      ∃ c0, s.nodes[i]? = some c0 ∧ c1.parent = c0.parent ∧ c1.timer = c0.timer ∧
        c1.trigger.value = c0.trigger.value ∧ c1.trigger.mu = c0.trigger.mu ∧
        c1.trigger.waiter = c0.trigger.waiter ∧
        (c1.trigger.subscribers = none ↔ c0.trigger.subscribers = none) ∧
        (∀ j, j ∈ subscriberList c0.trigger → j ∈ subscriberList c1.trigger) ∧
        (∀ j, j ∈ subscriberList c1.trigger →
          (j = s.nodes.length ∧ i = c) ∨ j ∈ subscriberList c0.trigger) ∧
        c1.finalizer = c0.finalizer := by
    intro i c1 hin hc1
    rw [hget i] at hc1
    by_cases hic : i = c
    · subst hic
      rw [if_pos rfl] at hc1
      cases hc1
      refine ⟨p, hp, sp, st, sv, smu, sw, snone, ssub, fun j hj => ?_,
        subscribe_finalizer p s.nodes.length⟩
      rcases ssub1 j hj with hj1 | hj1
      · exact Or.inl ⟨hj1, rfl⟩
      · exact Or.inr hj1
    · rw [if_neg hic, if_neg hin] at hc1
      exact ⟨c1, hc1, rfl, rfl, rfl, rfl, rfl, Iff.rfl, fun j hj => hj,
        fun j hj => Or.inr hj, rfl⟩
  have hchsub : subscriberList ch.trigger = [] := by
    rw [htr]
    unfold context.child subscriberList
    cases p.trigger.value <;> simp [newTrigger, firedTrigger]
  have hpo : ∀ i : Nat,
      State.parentOf
        (State.mk (s.nodes.set c (p.subscribe s.nodes.length) ++ [ch]) tms : State K V) i =
        if i = s.nodes.length then some c else s.parentOf i := by
    intro i
    unfold State.parentOf
    show ((s.nodes.set c (p.subscribe s.nodes.length) ++ [ch])[i]?).bind _ = _
    by_cases hin : i = s.nodes.length
    · subst hin
      rw [hget, if_neg (by omega), if_pos rfl, if_pos rfl]
      exact hpar
    · rw [if_neg hin]
      cases hq : (s.nodes.set c (p.subscribe s.nodes.length) ++ [ch])[i]? with
      | none =>
        rw [hget i] at hq
        by_cases hic : i = c
        · rw [if_pos hic] at hq
          cases hq
        · rw [if_neg hic, if_neg hin] at hq
          rw [hq]
      | some c1 =>
        rcases hold i c1 hin hq with ⟨c0, hc0, hpp, _⟩
        rw [hc0]
        simp [hpp]
  have hpold : ∀ j q : Nat, s.parentOf j = some q →
      State.parentOf
        (State.mk (s.nodes.set c (p.subscribe s.nodes.length) ++ [ch]) tms : State K V) j =
          some q := by
    intro j q hj
    have hjl := lt_length_of_parentOf hj
    rw [hpo j, if_neg (by omega)]
    exact hj
  refine ⟨?_, ?_, ?_, ?_, ?_, ?_, ?_, ?_⟩
  · intro i q hq
    rw [hpo i] at hq
    by_cases hin : i = s.nodes.length
    · rw [if_pos hin] at hq
      cases hq
      omega
    · rw [if_neg hin] at hq
      exact h.parent_lt i q hq
  · intro i c1 hc1 j hj
    by_cases hin : i = s.nodes.length
    · subst hin
      have hc1b : (s.nodes.set c (p.subscribe s.nodes.length) ++ [ch])[s.nodes.length]? =
          some c1 := hc1
      rw [hget, if_neg (by omega), if_pos rfl] at hc1b
      cases hc1b
      rw [hchsub] at hj
      cases hj
    · rcases hold i c1 hin hc1 with ⟨c0, hc0, _, _, _, _, _, _, _, hsub1, _⟩
      rcases hsub1 j hj with ⟨hjn, hic⟩ | hj0
      · rw [hpo j, if_pos hjn, hic]
      · exact hpold j i (h.subs_child i c0 hc0 j hj0)
  · intro i c1 hc1
    by_cases hin : i = s.nodes.length
    · subst hin
      have hc1b : (s.nodes.set c (p.subscribe s.nodes.length) ++ [ch])[s.nodes.length]? =
          some c1 := hc1
      rw [hget, if_neg (by omega), if_pos rfl] at hc1b
      cases hc1b
      rw [htr]
      unfold context.child
      cases p.trigger.value <;> rfl
    · rcases hold i c1 hin hc1 with ⟨c0, hc0, _, _, _, hmu, _⟩
      rw [hmu]
      exact h.unlocked i c0 hc0
  · intro i c1 hc1 hv
    by_cases hin : i = s.nodes.length
    · subst hin
      have hc1b : (s.nodes.set c (p.subscribe s.nodes.length) ++ [ch])[s.nodes.length]? =
          some c1 := hc1
      rw [hget, if_neg (by omega), if_pos rfl] at hc1b
      cases hc1b
      rw [htr] at hv ⊢
      unfold context.child at hv ⊢
      cases hpv : p.trigger.value with
      | none => simp [newTrigger]
      | some v => simp [hpv, firedTrigger] at hv
    · rcases hold i c1 hin hc1 with ⟨c0, hc0, _, _, hval, _, hw, hnone, _⟩
      rw [hval] at hv
      rw [hw]
      refine ⟨(h.live i c0 hc0 hv).1, fun hcon => ?_⟩
      exact (h.live i c0 hc0 hv).2 (hnone.mp hcon)
  · intro i c1 hc1 hv
    by_cases hin : i = s.nodes.length
    · subst hin
      have hc1b : (s.nodes.set c (p.subscribe s.nodes.length) ++ [ch])[s.nodes.length]? =
          some c1 := hc1
      rw [hget, if_neg (by omega), if_pos rfl] at hc1b
      cases hc1b
      rw [htr] at hv ⊢
      unfold context.child at hv ⊢
      cases hpv : p.trigger.value with
      | none => simp [hpv, newTrigger] at hv
      | some v => simp [firedTrigger]
    · rcases hold i c1 hin hc1 with ⟨c0, hc0, _, _, hval, _, hw, hnone, _⟩
      rw [hval] at hv
      rw [hw]
      exact ⟨(h.dead i c0 hc0 hv).1, hnone.mpr (h.dead i c0 hc0 hv).2⟩
  · intro j q cj cq hj hjpar hq hz
    have hqlt : q < j := by
      by_cases hjn : j = s.nodes.length
      · have hjb : (s.nodes.set c (p.subscribe s.nodes.length) ++ [ch])[j]? = some cj := hj
        rw [hget, hjn, if_neg (by omega), if_pos rfl] at hjb
        cases hjb
        rw [hpar] at hjpar
        cases hjpar
        omega
      · rcases hold j cj hjn hj with ⟨c0, hc0, hpp, _⟩
        refine h.parent_lt j q ?_
        unfold State.parentOf
        rw [hc0]
        simp [← hpp, hjpar]
    have hjlt : j < s.nodes.length + 1 := by
      have := lt_length_of_get hj
      simpa using this
    have hqn : q ≠ s.nodes.length := by omega
    rcases hold q cq hqn hq with ⟨cq0, hcq0, _, _, hqval, _, _, _, hqsub, _⟩
    by_cases hjn : j = s.nodes.length
    · have hjb : (s.nodes.set c (p.subscribe s.nodes.length) ++ [ch])[j]? = some cj := hj
      rw [hget, hjn, if_neg (by omega), if_pos rfl] at hjb
      cases hjb
      rw [hpar] at hjpar
      have hcq : c = q := by
        injection hjpar
      subst hcq
      have hqb : (s.nodes.set c (p.subscribe s.nodes.length) ++ [ch])[c]? = some cq := hq
      rw [hget, if_pos rfl] at hqb
      cases hqb
      rw [hp] at hcq0
      cases hcq0
      refine ⟨fun hv => ?_, fun hv => ?_⟩
      · rw [sv] at hv
        rw [hjn]
        exact smem hv (h.live c p hp hv).2
      · rw [sv] at hv
        rw [htr]
        unfold context.child
        cases hpv : p.trigger.value with
        | none => exact absurd hpv hv
        | some v => simp [firedTrigger]
    · rcases hold j cj hjn hj with ⟨cj0, hcj0, hjpp, _, hjval, _, _, _, _, _, hjz⟩
      have hl := h.link j q cj0 cq0 hcj0 (by rw [← hjpp]; exact hjpar) hcq0
        (by rw [← hjz]; exact hz)
      rw [hqval, hjval]
      exact ⟨fun hv => hqsub j (hl.1 hv), hl.2⟩
  · intro k tm hk
    have := ht k tm hk
    simpa using this
  · intro i c1 k hc1 hk
    by_cases hin : i = s.nodes.length
    · subst hin
      have hc1b : (s.nodes.set c (p.subscribe s.nodes.length) ++ [ch])[s.nodes.length]? =
          some c1 := hc1
      rw [hget, if_neg (by omega), if_pos rfl] at hc1b
      cases hc1b
      exact hown k hk
    · rcases hold i c1 hin hc1 with ⟨c0, hc0, _, htm, _⟩
      rcases h.timer_owner i c0 k hc0 (by rw [← htm]; exact hk) with ⟨tm, htm1, htg⟩
      exact ⟨tm, hkeep k tm htm1, htg⟩

/-! ## The operations on a heap satisfying the invariant -/

theorem Keeps.same (s : State K V) : Keeps s s :=
  fun _ c hc => ⟨c, hc, rfl, rfl, rfl, rfl, rfl, fun _ => rfl⟩

theorem Keeps.chain {s s1 s2 : State K V} (h : Keeps s s1) (h1 : Keeps s1 s2) :
    Keeps s s2 := by
  intro i c hc
  rcases h i c hc with ⟨c1, hc1, hp, hf, ht, hd, hz, hv⟩
  rcases h1 i c1 hc1 with ⟨c2, hc2, hp2, hf2, ht2, hd2, hz2, hv2⟩
  refine ⟨c2, hc2, hp2.trans hp, hf2.trans hf, ht2.trans ht, hd2.trans hd, hz2.trans hz,
    fun hne => ?_⟩
  have e1 := hv hne
  have e2 := hv2 (by rw [e1]; exact hne)
  rw [e2, e1]

theorem Keeps.of_nodes {s s1 : State K V} (h : s1.nodes = s.nodes) : Keeps s s1 := by
  intro i c hc
  exact ⟨c, by rw [h]; exact hc, rfl, rfl, rfl, rfl, rfl, fun _ => rfl⟩

theorem Keeps.after_cascade {value : Option Err} {lo : Nat} {R : Nat → Prop} {s s1 : State K V}
    (h : Cascade value lo R s s1) : Keeps s s1 := by
  intro i c hc
  rcases h.2 i c hc with h1 | ⟨_, _, hv, h1, _⟩
  · exact ⟨c, h1, rfl, rfl, rfl, rfl, rfl, fun _ => rfl⟩
  · exact ⟨_, h1, rfl, rfl, rfl, rfl, rfl, fun hne => absurd hv hne⟩

theorem Keeps.with_child (s : State K V) (c : Nat) (p ch : context K V)
    (hp : s.nodes[c]? = some p) (tms : List Timer) :
    Keeps s (State.mk (s.nodes.set c (p.subscribe s.nodes.length) ++ [ch]) tms) := by
  have hclt : c < s.nodes.length := lt_length_of_get hp
  obtain ⟨sp, sf, st, sd, _⟩ := subscribe_shape p s.nodes.length
  intro i ci hci
  have hil : i < s.nodes.length := lt_length_of_get hci
  show ∃ c1, (s.nodes.set c (p.subscribe s.nodes.length) ++ [ch])[i]? = some c1 ∧ _
  rw [get_set_append s.nodes c _ ch hclt i]
  by_cases hic : i = c
  · subst hic
    rw [hp] at hci
    cases hci
    rw [if_pos rfl]
    refine ⟨_, rfl, sp, sf, st, sd, subscribe_finalizer p s.nodes.length, fun hne => ?_⟩
    cases hv : p.trigger.value with
    | none => exact absurd hv hne
    | some v => rw [subscribe_fired p _ v hv]
  · rw [if_neg hic, if_neg (by omega)]
    exact ⟨ci, hci, rfl, rfl, rfl, rfl, rfl, fun _ => rfl⟩

theorem child_slot {α : Type} (l : List α) (a b : α) :
    (l ++ [a])[l.length]? = some a ∧ (l ++ [a]).set l.length b = l ++ [b] := by
  refine ⟨List.getElem?_concat_length l a, ?_⟩
  rw [List.set_append_right _ _ (le_refl _)]
  simp

theorem WithValue_eq {s : State K V} (h : Inv s) {c : Nat} {p : context K V}
    (hp : s.nodes[c]? = some p) (key : K) (value : Option V) :
    WithValue s c key value = Except.ok
      (State.mk (s.nodes.set c (p.subscribe s.nodes.length) ++
        [{ p.child c with fields := p.fields.append key value }]) s.timers,
       s.nodes.length) := by
  have hn := newChild_eq s c p hp (h.unlocked c p hp) (fun hv => (h.live c p hp hv).2)
  have hslot := child_slot (s.nodes.set c (p.subscribe s.nodes.length)) (p.child c)
    { p.child c with fields := p.fields.append key value }
  rw [List.length_set] at hslot
  unfold WithValue
  rw [hp]
  simp only [hn, hslot.1, hslot.2]

theorem WithTimeout_eq {s : State K V} (h : Inv s) {c : Nat} {p : context K V}
    (hp : s.nodes[c]? = some p) (now timeout : Int) :
    WithTimeout s c now timeout = Except.ok
      (if p.deadline ≠ 0 ∧ p.deadline < now + timeout then
        (State.mk (s.nodes.set c (p.subscribe s.nodes.length) ++
          [{ p.child c with deadline := p.deadline }]) s.timers, s.nodes.length)
      else
        (State.mk (s.nodes.set c (p.subscribe s.nodes.length) ++
          [{ p.child c with deadline := now + timeout, timer := some s.timers.length }])
          (s.timers ++ [Timer.mk s.nodes.length (now + timeout) TimerState.armed]),
         s.nodes.length)) := by
  have hn := newChild_eq s c p hp (h.unlocked c p hp) (fun hv => (h.live c p hp hv).2)
  have hslot1 := child_slot (s.nodes.set c (p.subscribe s.nodes.length)) (p.child c)
    { p.child c with deadline := p.deadline }
  have hslot2 := child_slot (s.nodes.set c (p.subscribe s.nodes.length)) (p.child c)
    { p.child c with deadline := now + timeout, timer := some s.timers.length }
  rw [List.length_set] at hslot1 hslot2
  unfold WithTimeout
  rw [hp]
  simp only [hn, hslot1.1]
  by_cases hd : p.deadline ≠ 0 ∧ p.deadline < now + timeout
  · rw [if_pos hd, if_pos hd]
    simp only [hslot1.2]
  · rw [if_neg hd, if_neg hd]
    simp only [hslot2.2]

theorem Inv.of_New {s : State K V} (h : Inv s) : Inv (New s).1 := by
  have hget : ∀ i : Nat, (New s).1.nodes[i]? =
      if i = s.nodes.length then
        some (context.mk none pairs.nil newTrigger none 0 false)
      else s.nodes[i]? := fun i => get_append_one s.nodes _ i
  have hpo : (New s).1.parentOf = s.parentOf := by
    funext i
    unfold State.parentOf
    rw [hget i]
    by_cases hin : i = s.nodes.length
    · rw [if_pos hin, List.getElem?_eq_none (by omega)]
      rfl
    · rw [if_neg hin]
  have hold : ∀ (i : Nat) (c1 : context K V), (New s).1.nodes[i]? = some c1 →
      (i = s.nodes.length ∧ c1 = context.mk none pairs.nil newTrigger none 0 false) ∨
      s.nodes[i]? = some c1 := by
    intro i c1 hc1
    rw [hget i] at hc1
    by_cases hin : i = s.nodes.length
    · rw [if_pos hin] at hc1
      cases hc1
      exact Or.inl ⟨hin, rfl⟩
    · rw [if_neg hin] at hc1
      exact Or.inr hc1
  refine ⟨?_, ?_, ?_, ?_, ?_, ?_, ?_, ?_⟩
  · rw [hpo]
    exact h.parent_lt
  · rw [hpo]
    intro i c1 hc1 j hj
    rcases hold i c1 hc1 with ⟨_, rfl⟩ | h0
    · simp [newTrigger, subscriberList] at hj
    · exact h.subs_child i c1 h0 j hj
  · intro i c1 hc1
    rcases hold i c1 hc1 with ⟨_, rfl⟩ | h0
    · rfl
    · exact h.unlocked i c1 h0
  · intro i c1 hc1 hv
    rcases hold i c1 hc1 with ⟨_, rfl⟩ | h0
    · simp [newTrigger]
    · exact h.live i c1 h0 hv
  · intro i c1 hc1 hv
    rcases hold i c1 hc1 with ⟨_, rfl⟩ | h0
    · simp [newTrigger] at hv
    · exact h.dead i c1 h0 hv
  · intro j q cj cq hj hjp hq hz
    rcases hold j cj hj with ⟨_, rfl⟩ | hj0
    · cases hjp
    · have hql : q < s.nodes.length := by
        have h1 : s.parentOf j = some q := by
          unfold State.parentOf
          rw [hj0]
          exact hjp
        have := h.parent_lt j q h1
        have := lt_length_of_get hj0
        omega
      rcases hold q cq hq with ⟨hqn, _⟩ | hq0
      · omega
      · exact h.link j q cj cq hj0 hjp hq0 hz
  · intro k tm hk
    have := h.timer_target k tm hk
    show tm.target < (s.nodes ++ _).length
    simp
    omega
  · intro i c1 k hc1 hk
    rcases hold i c1 hc1 with ⟨_, rfl⟩ | h0
    · cases hk
    · exact h.timer_owner i c1 k h0 hk

theorem Inv.of_WithValue {s : State K V} (h : Inv s) {c : Nat} {p : context K V}
    (hp : s.nodes[c]? = some p) (key : K) (value : Option V) :
    Inv (State.mk (s.nodes.set c (p.subscribe s.nodes.length) ++
      [{ p.child c with fields := p.fields.append key value }]) s.timers) := by
  refine h.addChild hp (by rfl) (by rfl) s.timers (fun k tm hk => ?_) (fun k tm hk => hk)
    (fun k hk => ?_)
  · have := h.timer_target k tm hk
    omega
  · cases hk

theorem Inv.of_WithTimeout {s : State K V} (h : Inv s) {c : Nat} {p : context K V}
    (hp : s.nodes[c]? = some p) (now timeout : Int) :
    Inv (if p.deadline ≠ 0 ∧ p.deadline < now + timeout then
        (State.mk (s.nodes.set c (p.subscribe s.nodes.length) ++
          [{ p.child c with deadline := p.deadline }]) s.timers, s.nodes.length)
      else
        (State.mk (s.nodes.set c (p.subscribe s.nodes.length) ++
          [{ p.child c with deadline := now + timeout, timer := some s.timers.length }])
          (s.timers ++ [Timer.mk s.nodes.length (now + timeout) TimerState.armed]),
         s.nodes.length)).1 := by
  by_cases hd : p.deadline ≠ 0 ∧ p.deadline < now + timeout
  · rw [if_pos hd]
    refine h.addChild hp (by rfl) (by rfl) s.timers (fun k tm hk => ?_) (fun k tm hk => hk)
      (fun k hk => ?_)
    · have := h.timer_target k tm hk
      omega
    · cases hk
  · rw [if_neg hd]
    refine h.addChild hp (by rfl) (by rfl) _ (fun k tm hk => ?_) (fun k tm hk => ?_) (fun k hk => ?_)
    · rw [get_append_one] at hk
      by_cases hkl : k = s.timers.length
      · rw [if_pos hkl] at hk
        cases hk
        show s.nodes.length < s.nodes.length + 1
        omega
      · rw [if_neg hkl] at hk
        have := h.timer_target k tm hk
        omega
    · rw [get_append_one, if_neg]
      · exact hk
      · have := lt_length_of_get hk
        omega
    · have hkl : s.timers.length = k := by
        injection hk
      subst hkl
      exact ⟨_, List.getElem?_concat_length _ _, rfl⟩

theorem stopTimer_spec (s : State K V) (k : Nat) :
    (s.stopTimer k).nodes = s.nodes ∧
    (∀ (j : Nat) (tm : Timer), (s.stopTimer k).timers[j]? = some tm →
      ∃ tm0, s.timers[j]? = some tm0 ∧ tm.target = tm0.target) ∧
    (∀ (j : Nat) (tm : Timer), s.timers[j]? = some tm →
      ∃ tm1, (s.stopTimer k).timers[j]? = some tm1 ∧ tm1.target = tm.target) := by
  unfold State.stopTimer
  cases hk : s.timers[k]? with
  | none => exact ⟨rfl, fun j tm h => ⟨tm, h, rfl⟩, fun j tm h => ⟨tm, h, rfl⟩⟩
  | some tm0 =>
    have hkl := lt_length_of_get hk
    have hst : tm0.Stop.target = tm0.target := by
      unfold Timer.Stop
      cases tm0.state <;> rfl
    refine ⟨rfl, fun j tm h => ?_, fun j tm h => ?_⟩
    · by_cases hjk : j = k
      · subst hjk
        have h1 : (s.timers.set j tm0.Stop)[j]? = some tm := h
        rw [List.getElem?_set_self hkl] at h1
        cases h1
        exact ⟨tm0, hk, hst⟩
      · have h1 : (s.timers.set k tm0.Stop)[j]? = some tm := h
        rw [List.getElem?_set_ne (Ne.symm hjk)] at h1
        exact ⟨tm, h1, rfl⟩
    · by_cases hjk : j = k
      · subst hjk
        rw [hk] at h
        cases h
        exact ⟨tm0.Stop, List.getElem?_set_self hkl, hst⟩
      · exact ⟨tm, by
          show (s.timers.set k tm0.Stop)[j]? = some tm
          rw [List.getElem?_set_ne (Ne.symm hjk)]
          exact h, rfl⟩

theorem Inv.of_stopTimer {s : State K V} (h : Inv s) (k : Nat) : Inv (s.stopTimer k) := by
  obtain ⟨hn, hb, hf⟩ := stopTimer_spec s k
  refine h.of_timers hn (fun j tm hj => ?_) hf
  rcases hb j tm hj with ⟨tm0, h0, ht⟩
  rw [ht]
  exact h.timer_target j tm0 h0

theorem Fire_of_inv {s : State K V} (h : Inv s) (e : Err) {t : Nat}
    (ht : t < s.nodes.length) :
    ∃ s1, Fire s.fuel s t (some e) = Except.ok s1 ∧ s1.timers = s.timers ∧
      Cascade (some e) t (fun i => i = t ∨ Descendant s.parentOf t i) s s1 ∧
      s1.fired t ∧ Inv s1 := by
  obtain ⟨s1, hf, htm, hc, hfd⟩ := Fire_cascade e s.fuel s t ht
    (by unfold State.fuel; omega) (h.wellFormed t)
  exact ⟨s1, hf, htm, hc, hfd, h.of_cascade hc htm⟩

theorem Cancel_cascade {s : State K V} (h : Inv s) {N : Nat} (hN : N < s.nodes.length) :
    ∃ s1, Cancel s N = Except.ok s1 ∧
      Cascade (some Err.ErrCanceled) N (fun i => i = N ∨ Descendant s.parentOf N i) s s1 ∧
      s1.fired N ∧ Inv s1 := by
  obtain ⟨n, hn⟩ := get_of_lt hN
  unfold Cancel
  rw [hn]
  cases hk : n.timer with
  | none =>
    obtain ⟨s1, hf, _, hc, hfd, hi⟩ := Fire_of_inv h Err.ErrCanceled hN
    refine ⟨s1, ?_, hc, hfd, hi⟩
    simp only [hk]
    exact hf
  | some k =>
    have hnodes : (s.stopTimer k).nodes = s.nodes := (stopTimer_spec s k).1
    have hpo : (s.stopTimer k).parentOf = s.parentOf := by
      funext i
      unfold State.parentOf
      rw [hnodes]
    obtain ⟨s1, hf, _, hc, hfd, hi⟩ := Fire_of_inv (h.of_stopTimer k) Err.ErrCanceled
      (show N < (s.stopTimer k).nodes.length by rw [hnodes]; exact hN)
    refine ⟨s1, ?_, ?_, hfd, hi⟩
    · simp only [hk]
      exact hf
    · rw [hpo] at hc
      refine ⟨by rw [hc.1, hnodes], fun i c hci => ?_⟩
      exact hc.2 i c (by rw [hnodes]; exact hci)

theorem timerFires_idle (s : State K V) (k : Nat)
    (h : ∀ tm, s.timers[k]? = some tm → tm.state ≠ TimerState.armed) :
    timerFires s k = Except.ok s := by
  unfold timerFires
  cases hk : s.timers[k]? with
  | none => rfl
  | some tm =>
    have := h tm hk
    cases hs : tm.state with
    | armed => exact absurd hs this
    | stopped => simp only [hs]
    | expired => simp only [hs]

theorem timerFires_cascade {s : State K V} (h : Inv s) {k : Nat} {tm : Timer}
    (hk : s.timers[k]? = some tm) (ha : tm.state = TimerState.armed) :
    ∃ s1, timerFires s k = Except.ok s1 ∧
      Cascade (some Err.ErrTimeout) tm.target
        (fun i => i = tm.target ∨ Descendant s.parentOf tm.target i) s s1 ∧
      s1.fired tm.target ∧ Inv s1 := by
  have hkl := lt_length_of_get hk
  have htg := h.timer_target k tm hk
  have hget : ∀ j : Nat, (s.timers.set k { tm with state := TimerState.expired })[j]? =
      if j = k then some { tm with state := TimerState.expired } else s.timers[j]? := by
    intro j
    by_cases hjk : j = k
    · subst hjk
      rw [if_pos rfl, List.getElem?_set_self hkl]
    · rw [if_neg hjk, List.getElem?_set_ne (Ne.symm hjk)]
  have hi0 : Inv (State.mk s.nodes (s.timers.set k { tm with state := TimerState.expired })) := by
    refine h.of_timers rfl (fun j tm1 hj => ?_) (fun j tm1 hj => ?_)
    · have hj1 : (s.timers.set k { tm with state := TimerState.expired })[j]? = some tm1 := hj
      rw [hget j] at hj1
      by_cases hjk : j = k
      · rw [if_pos hjk] at hj1
        cases hj1
        exact htg
      · rw [if_neg hjk] at hj1
        exact h.timer_target j tm1 hj1
    · show ∃ tm2, (s.timers.set k { tm with state := TimerState.expired })[j]? = some tm2 ∧ _
      rw [hget j]
      by_cases hjk : j = k
      · subst hjk
        rw [hk] at hj
        cases hj
        rw [if_pos rfl]
        exact ⟨_, rfl, rfl⟩
      · rw [if_neg hjk]
        exact ⟨tm1, hj, rfl⟩
  obtain ⟨s1, hf, _, hc, hfd, hi⟩ := Fire_of_inv hi0 Err.ErrTimeout
    (show tm.target < s.nodes.length from htg)
  refine ⟨s1, ?_, hc, hfd, hi⟩
  unfold timerFires
  rw [hk]
  simp only [ha]
  exact hf

theorem WithFields_spec : ∀ (fields : Fields K V) (s : State K V) (c : Nat) (p : context K V),
    Inv s → s.nodes[c]? = some p →
    ∃ s1 new cn, WithFields s c fields = Except.ok (s1, new) ∧ Inv s1 ∧ Keeps s s1 ∧
      s1.nodes[new]? = some cn ∧ cn.fields = appendAll p.fields fields ∧
      cn.deadline = p.deadline ∧
      (∀ r, p.trigger.value = some r → cn.trigger.value = some r) ∧
      (fields ≠ [] → s.nodes.length ≤ new ∧ Descendant s1.parentOf c new) ∧
      (fields = [] → s1 = s ∧ new = c) := by
  intro fields
  induction fields with
  | nil =>
    intro s c p h hp
    exact ⟨s, c, p, rfl, h, Keeps.same s, hp, rfl, rfl, fun r hr => hr,
      fun hne => absurd rfl hne, fun _ => ⟨rfl, rfl⟩⟩
  | cons kv rest ih =>
    intro s c p h hp
    obtain ⟨k, v⟩ := kv
    have hclt : c < s.nodes.length := lt_length_of_get hp
    have hw := WithValue_eq h hp k v
    have hi1 := h.of_WithValue hp k v
    have hk1 := Keeps.with_child s c p { p.child c with fields := p.fields.append k v } hp
      s.timers
    have hslot := (child_slot (s.nodes.set c (p.subscribe s.nodes.length))
      ({ p.child c with fields := p.fields.append k v } : context K V)
      { p.child c with fields := p.fields.append k v }).1
    rw [List.length_set] at hslot
    obtain ⟨s1, new, cn, hwf, hi, hkp, hcn, hfl, hdl, hrs, hdesc, _⟩ := ih _ s.nodes.length
      { p.child c with fields := p.fields.append k v } hi1 hslot
    refine ⟨s1, new, cn, ?_, hi, hk1.chain hkp, hcn, hfl, hdl, fun r hr => ?_,
      fun _ => ?_, fun hnil => ?_⟩
    · simp only [WithFields, hw]
      exact hwf
    · refine hrs r ?_
      simp [context.child, hr, firedTrigger]
    · have hpar : s1.parentOf s.nodes.length = some c := by
        rcases hkp s.nodes.length _ hslot with ⟨c1, hc1, hp1, _⟩
        unfold State.parentOf
        rw [hc1]
        simp [hp1, context.child]
      by_cases hrest : rest = []
      · subst hrest
        simp only [WithFields] at hwf
        cases hwf
        exact ⟨le_refl _, Descendant.child hpar⟩
      · rcases hdesc hrest with ⟨hle, hd⟩
        refine ⟨?_, Descendant.of_parent hpar hd⟩
        have hlen : (s.nodes.set c (p.subscribe s.nodes.length) ++
            [({ p.child c with fields := p.fields.append k v } : context K V)]).length =
            s.nodes.length + 1 := by simp
        have hle1 : (State.mk (s.nodes.set c (p.subscribe s.nodes.length) ++
            [({ p.child c with fields := p.fields.append k v } : context K V)])
            s.timers).nodes.length ≤ new := hle
        rw [hlen] at hle1
        omega
    · cases hnil

/-! ## Reachable heaps -/

theorem Keeps.after_New (s : State K V) : Keeps s (New s).1 := by
  intro i c hc
  have hil := lt_length_of_get hc
  refine ⟨c, ?_, rfl, rfl, rfl, rfl, rfl, fun _ => rfl⟩
  show (s.nodes ++ _)[i]? = some c
  rw [List.getElem?_append_left hil]
  exact hc

theorem WithValue_invalid (s : State K V) (c : Nat) (key : K) (value : Option V)
    (hc : s.nodes[c]? = none) : WithValue s c key value = Except.error Fault.nilDeref := by
  unfold WithValue
  rw [hc]

theorem WithTimeout_invalid (s : State K V) (c : Nat) (now timeout : Int)
    (hc : s.nodes[c]? = none) :
    WithTimeout s c now timeout = Except.error Fault.nilDeref := by
  unfold WithTimeout
  simp only [hc]

theorem Cancel_invalid (s : State K V) (c : Nat) (hc : s.nodes[c]? = none) :
    Cancel s c = Except.error Fault.nilDeref := by
  unfold Cancel
  rw [hc]

theorem step_inv {s s1 : State K V} (h : Inv s) (op : Op K V)
    (hs : step s op = Except.ok s1) : Inv s1 ∧ Keeps s s1 := by
  cases op with
  | New =>
    simp only [step] at hs
    cases hs
    exact ⟨h.of_New, Keeps.after_New s⟩
  | WithValue c key value =>
    simp only [step] at hs
    cases hc : s.nodes[c]? with
    | none =>
      rw [WithValue_invalid s c key value hc] at hs
      cases hs
    | some p =>
      rw [WithValue_eq h hc key value] at hs
      cases hs
      exact ⟨h.of_WithValue hc key value, Keeps.with_child s c p _ hc s.timers⟩
  | WithFields c fields =>
    simp only [step] at hs
    cases hc : s.nodes[c]? with
    | none =>
      cases fields with
      | nil =>
        simp only [WithFields] at hs
        cases hs
        exact ⟨h, Keeps.same s⟩
      | cons kv rest =>
        obtain ⟨k, v⟩ := kv
        simp only [WithFields, WithValue_invalid s c k v hc] at hs
        cases hs
    | some p =>
      obtain ⟨s2, new, cn, hwf, hi, hkp, _⟩ := WithFields_spec fields s c p h hc
      rw [hwf] at hs
      cases hs
      exact ⟨hi, hkp⟩
  | WithTimeout c now timeout =>
    simp only [step] at hs
    cases hc : s.nodes[c]? with
    | none =>
      rw [WithTimeout_invalid s c now timeout hc] at hs
      cases hs
    | some p =>
      have hi := h.of_WithTimeout hc now timeout
      rw [WithTimeout_eq h hc now timeout] at hs
      cases hs
      refine ⟨hi, ?_⟩
      by_cases hd : p.deadline ≠ 0 ∧ p.deadline < now + timeout
      · rw [if_pos hd]
        exact Keeps.with_child s c p _ hc _
      · rw [if_neg hd]
        exact Keeps.with_child s c p _ hc _
  | Cancel c =>
    simp only [step] at hs
    cases hc : s.nodes[c]? with
    | none =>
      rw [Cancel_invalid s c hc] at hs
      cases hs
    | some p =>
      obtain ⟨s2, hcan, hcas, _, hi⟩ := Cancel_cascade h (lt_length_of_get hc)
      rw [hcan] at hs
      cases hs
      exact ⟨hi, Keeps.after_cascade hcas⟩
  | timerFires k =>
    simp only [step] at hs
    by_cases ha : ∃ tm, s.timers[k]? = some tm ∧ tm.state = TimerState.armed
    · obtain ⟨tm, hk, hst⟩ := ha
      obtain ⟨s2, htf, hcas, _, hi⟩ := timerFires_cascade h hk hst
      rw [htf] at hs
      cases hs
      exact ⟨hi, Keeps.after_cascade hcas⟩
    · rw [timerFires_idle s k (fun tm hk hst => ha ⟨tm, hk, hst⟩)] at hs
      cases hs
      exact ⟨h, Keeps.same s⟩

theorem reachable_inv {s : State K V} (h : Reachable s) : Inv s := by
  induction h with
  | empty => exact Inv.empty
  | step op _ hs ih => exact (step_inv ih op hs).1

theorem reachable_run {s : State K V} (h : Reachable s) :
    ∀ (ops : List (Op K V)) (s1 : State K V), run s ops = Except.ok s1 →
      Reachable s1 ∧ Keeps s s1 := by
  intro ops
  induction ops generalizing s with
  | nil =>
    intro s1 hr
    simp only [run] at hr
    cases hr
    exact ⟨h, Keeps.same s⟩
  | cons op rest ih =>
    intro s1 hr
    simp only [run] at hr
    cases hst : step s op with
    | error e =>
      rw [hst] at hr
      cases hr
    | ok s2 =>
      rw [hst] at hr
      have h2 := Reachable.step op h hst
      obtain ⟨hr1, hk1⟩ := ih h2 s1 hr
      exact ⟨hr1, (step_inv (reachable_inv h) op hst).2.chain hk1⟩

theorem reachable_after (ops : List (Op K V)) (s1 : State K V)
    (h : run State.empty ops = Except.ok s1) : Reachable (after ops) := by
  have : after ops = s1 := by
    unfold after
    rw [h]
  rw [this]
  exact (reachable_run Reachable.empty ops s1 h).1

theorem WithFields_induct (J : State K V → Prop)
    (hJ : ∀ (s : State K V) (c : Nat) (k : K) (v : Option V) (s1 : State K V) (c1 : Nat),
      J s → WithValue s c k v = Except.ok (s1, c1) → J s1) :
    ∀ (fields : Fields K V) (s : State K V) (c : Nat) (s1 : State K V) (c1 : Nat),
      J s → WithFields s c fields = Except.ok (s1, c1) → J s1 := by
  intro fields
  induction fields with
  | nil =>
    intro s c s1 c1 hj hw
    simp only [WithFields] at hw
    injection hw with hw
    injection hw with h1 _
    rw [← h1]
    exact hj
  | cons kv rest ih =>
    intro s c s1 c1 hj hw
    obtain ⟨k, v⟩ := kv
    simp only [WithFields] at hw
    cases hq : WithValue s c k v with
    | error e =>
      rw [hq] at hw
      cases hw
    | ok r =>
      obtain ⟨s2, c2⟩ := r
      rw [hq] at hw
      exact ih s2 c2 s1 c1 (hJ s c k v s2 c2 hj hq) hw

theorem grown_get {s : State K V} {c : Nat} {p : context K V} (hp : s.nodes[c]? = some p)
    (x ch : context K V) (i : Nat) (ci : context K V)
    (hi : (s.nodes.set c x ++ [ch])[i]? = some ci) :
    (i = c ∧ ci = x) ∨ (i = s.nodes.length ∧ ci = ch) ∨
    (i ≠ c ∧ i < s.nodes.length ∧ s.nodes[i]? = some ci) := by
  have hclt := lt_length_of_get hp
  rw [get_set_append s.nodes c x ch hclt i] at hi
  by_cases h1 : i = c
  · rw [if_pos h1] at hi
    injection hi with hi
    exact Or.inl ⟨h1, hi.symm⟩
  · rw [if_neg h1] at hi
    by_cases h2 : i = s.nodes.length
    · rw [if_pos h2] at hi
      injection hi with hi
      exact Or.inr (Or.inl ⟨h2, hi.symm⟩)
    · rw [if_neg h2] at hi
      exact Or.inr (Or.inr ⟨h1, lt_length_of_get hi, hi⟩)

theorem Unreclaimed.held {s : State K V} (h : Unreclaimed s) :
    s.heldParentOf = s.parentOf := by
  funext i
  unfold State.heldParentOf State.reclaimed
  cases hc : s.nodes[i]? with
  | none => simp [State.parentOf, hc]
  | some c =>
    cases hp : c.parent with
    | none => simp [State.parentOf, hc, hp]
    | some q =>
      have := h i c hc (by rw [hp]; simp)
      simp [hp, this]

theorem Unreclaimed.descendant {s : State K V} (h : Unreclaimed s) {N D : Nat}
    (hd : Descendant s.parentOf N D) : Descendant s.heldParentOf N D := by
  rw [h.held]
  exact hd

theorem unreclaimed_cascade {s s1 : State K V} {value : Option Err} {lo : Nat}
    {R : Nat → Prop} (h : Unreclaimed s) (hc : Cascade value lo R s s1) : Unreclaimed s1 := by
  intro i c1 hc1 hp
  rcases hc.get_back hc1 with ⟨c, hcs, rfl | ⟨_, _, _, rfl, _⟩⟩
  · exact h i c1 hcs hp
  · exact h i c hcs hp

theorem Cascade.heldParentOf {value : Option Err} {lo : Nat} {R : Nat → Prop}
    {s s1 : State K V} (h : Cascade value lo R s s1) : s1.heldParentOf = s.heldParentOf := by
  funext i
  unfold State.heldParentOf State.reclaimed
  rw [h.parentOf]
  cases hc : s.nodes[i]? with
  | none => rw [h.get_none hc]
  | some c =>
    rcases h.2 i c hc with h1 | ⟨_, _, _, h1, _⟩
    · rw [h1]
    · rw [h1]

theorem unreclaimed_grow {s : State K V} (hu : Unreclaimed s) {c : Nat} {p : context K V}
    (hp : s.nodes[c]? = some p) (ch : context K V) (hz : ch.finalizer = true)
    (tms : List Timer) :
    Unreclaimed (State.mk (s.nodes.set c (p.subscribe s.nodes.length) ++ [ch]) tms) := by
  intro i ci hci hpar
  rcases grown_get hp _ ch i ci hci with ⟨_, h1⟩ | ⟨_, h1⟩ | ⟨_, _, h1⟩
  · rw [h1, subscribe_finalizer]
    rw [h1, (subscribe_shape p s.nodes.length).1] at hpar
    exact hu c p hp hpar
  · rw [h1]
    exact hz
  · exact hu i ci h1 hpar

theorem unreclaimed_step {s s1 : State K V} (hi : Inv s) (hu : Unreclaimed s)
    (op : Op K V) (hst : step s op = Except.ok s1) : Unreclaimed s1 := by
  have hWV : ∀ (σ : State K V) (c : Nat) (k : K) (v : Option V) (σ1 : State K V) (c1 : Nat),
      (Inv σ ∧ Unreclaimed σ) → WithValue σ c k v = Except.ok (σ1, c1) →
      (Inv σ1 ∧ Unreclaimed σ1) := by
    intro σ c k v σ1 c1 ⟨hiσ, huσ⟩ hw
    cases hc : σ.nodes[c]? with
    | none =>
      rw [WithValue_invalid σ c k v hc] at hw
      cases hw
    | some p =>
      rw [WithValue_eq hiσ hc k v] at hw
      injection hw with hw
      injection hw with h1 _
      rw [← h1]
      refine ⟨hiσ.of_WithValue hc k v, unreclaimed_grow huσ hc _ ?_ _⟩
      rfl
  cases op with
  | New =>
    simp only [step] at hst
    injection hst with hst
    rw [← hst]
    intro i ci hci hpar
    have hci1 : (s.nodes ++ [context.mk none pairs.nil newTrigger none 0 false])[i]? =
        some ci := hci
    rw [get_append_one] at hci1
    by_cases h1 : i = s.nodes.length
    · rw [if_pos h1] at hci1
      injection hci1 with hci1
      rw [← hci1] at hpar
      exact absurd rfl hpar
    · rw [if_neg h1] at hci1
      exact hu i ci hci1 hpar
  | WithValue c key value =>
    simp only [step] at hst
    cases hq : WithValue s c key value with
    | error e =>
      rw [hq] at hst
      cases hst
    | ok r =>
      obtain ⟨σ1, c1⟩ := r
      rw [hq] at hst
      injection hst with hst
      have hst1 : σ1 = s1 := hst
      rw [← hst1]
      exact (hWV s c key value σ1 c1 ⟨hi, hu⟩ hq).2
  | WithFields c fields =>
    simp only [step] at hst
    cases hq : WithFields s c fields with
    | error e =>
      rw [hq] at hst
      cases hst
    | ok r =>
      obtain ⟨σ1, c1⟩ := r
      rw [hq] at hst
      injection hst with hst
      have hst1 : σ1 = s1 := hst
      rw [← hst1]
      exact (WithFields_induct (fun σ => Inv σ ∧ Unreclaimed σ) hWV fields s c σ1 c1
        ⟨hi, hu⟩ hq).2
  | WithTimeout c now timeout =>
    simp only [step] at hst
    cases hc : s.nodes[c]? with
    | none =>
      rw [WithTimeout_invalid s c now timeout hc] at hst
      cases hst
    | some p =>
      rw [WithTimeout_eq hi hc now timeout] at hst
      injection hst with hst
      rw [← hst]
      by_cases hdl : p.deadline ≠ 0 ∧ p.deadline < now + timeout
      · rw [if_pos hdl]
        refine unreclaimed_grow hu hc _ ?_ _
        rfl
      · rw [if_neg hdl]
        refine unreclaimed_grow hu hc _ ?_ _
        rfl
  | Cancel c =>
    simp only [step] at hst
    cases hc : s.nodes[c]? with
    | none =>
      rw [Cancel_invalid s c hc] at hst
      cases hst
    | some p =>
      obtain ⟨s2, hcan, hcas, _, _⟩ := Cancel_cascade hi (lt_length_of_get hc)
      rw [hcan] at hst
      injection hst with hst
      subst hst
      exact unreclaimed_cascade hu hcas
  | timerFires k =>
    simp only [step] at hst
    by_cases ha : ∃ tm, s.timers[k]? = some tm ∧ tm.state = TimerState.armed
    · obtain ⟨tm, htm, hst0⟩ := ha
      obtain ⟨s2, htf, hcas, _, _⟩ := timerFires_cascade hi htm hst0
      rw [htf] at hst
      injection hst with hst
      subst hst
      exact unreclaimed_cascade hu hcas
    · rw [timerFires_idle s k (fun tm hk hs0 => ha ⟨tm, hk, hs0⟩)] at hst
      injection hst with hst
      rw [← hst]
      exact hu

theorem reachable_unreclaimed {s : State K V} (h : Reachable s) : Unreclaimed s := by
  induction h with
  | empty =>
    intro i c hc
    simp [State.empty] at hc
  | step op hprev hst ih => exact unreclaimed_step (reachable_inv hprev) ih op hst

/-! ## The collector keeps the invariant -/

theorem Inv.of_shrink {s s1 : State K V} (h : Inv s) (ht : s1.timers = s.timers)
    (hlen : s1.nodes.length = s.nodes.length)
    (hn : ∀ (i : Nat) (c1 : context K V), s1.nodes[i]? = some c1 →
      ∃ c0, s.nodes[i]? = some c0 ∧ c1.parent = c0.parent ∧ c1.timer = c0.timer ∧
        c1.trigger.value = c0.trigger.value ∧ c1.trigger.mu = c0.trigger.mu ∧
        c1.trigger.waiter = c0.trigger.waiter ∧
        (c1.trigger.subscribers = none ↔ c0.trigger.subscribers = none) ∧
        (∀ j, j ∈ subscriberList c1.trigger → j ∈ subscriberList c0.trigger) ∧
        (c1.finalizer = true → c0.finalizer = true))
    (hkeep : ∀ (j q : Nat) (cj1 cq0 cq1 : context K V), s1.nodes[j]? = some cj1 →
      cj1.finalizer = true → s.nodes[q]? = some cq0 → s1.nodes[q]? = some cq1 →
      j ∈ subscriberList cq0.trigger → j ∈ subscriberList cq1.trigger) :
    Inv s1 := by
  have hpo : s1.parentOf = s.parentOf := by
    funext i
    unfold State.parentOf
    cases hc1 : s1.nodes[i]? with
    | none =>
      have : s.nodes[i]? = none := by
        rw [List.getElem?_eq_none_iff] at hc1 ⊢
        omega
      rw [this]
    | some c1 =>
      obtain ⟨c0, hc0, hp, _⟩ := hn i c1 hc1
      rw [hc0]
      simp [hp]
  refine ⟨?_, ?_, ?_, ?_, ?_, ?_, ?_, ?_⟩
  · rw [hpo]
    exact h.parent_lt
  · intro i c1 hc1 j hj
    obtain ⟨c0, hc0, _, _, _, _, _, _, hsub, _⟩ := hn i c1 hc1
    rw [hpo]
    exact h.subs_child i c0 hc0 j (hsub j hj)
  · intro i c1 hc1
    obtain ⟨c0, hc0, _, _, _, hmu, _⟩ := hn i c1 hc1
    rw [hmu]
    exact h.unlocked i c0 hc0
  · intro i c1 hc1 hv
    obtain ⟨c0, hc0, _, _, hval, _, hw, hnone, _⟩ := hn i c1 hc1
    rw [hval] at hv
    rw [hw]
    exact ⟨(h.live i c0 hc0 hv).1, fun hcon => (h.live i c0 hc0 hv).2 (hnone.mp hcon)⟩
  · intro i c1 hc1 hv
    obtain ⟨c0, hc0, _, _, hval, _, hw, hnone, _⟩ := hn i c1 hc1
    rw [hval] at hv
    rw [hw]
    exact ⟨(h.dead i c0 hc0 hv).1, hnone.mpr (h.dead i c0 hc0 hv).2⟩
  · intro j q cj1 cq1 hj hjp hq hz
    obtain ⟨cj0, hcj0, hjpar, _, hjval, _, _, _, _, hjz⟩ := hn j cj1 hj
    obtain ⟨cq0, hcq0, _, _, hqval, _⟩ := hn q cq1 hq
    have hl := h.link j q cj0 cq0 hcj0 (by rw [← hjpar]; exact hjp) hcq0 (hjz hz)
    rw [hqval, hjval]
    exact ⟨fun hv => hkeep j q cj1 cq0 cq1 hj hz hcq0 hq (hl.1 hv), hl.2⟩
  · intro k tm hk
    rw [ht] at hk
    rw [hlen]
    exact h.timer_target k tm hk
  · intro i c1 k hc1 hk
    obtain ⟨c0, hc0, _, htm, _⟩ := hn i c1 hc1
    rw [ht]
    exact h.timer_owner i c0 k hc0 (by rw [← htm]; exact hk)

theorem setFinalizer_length (s : State K V) (c : Nat) (b : Bool) :
    (s.setFinalizer c b).nodes.length = s.nodes.length := by
  unfold State.setFinalizer
  cases s.nodes[c]? <;> simp

theorem Inv.of_clearFinalizer {s : State K V} (h : Inv s) (c : Nat) :
    Inv (s.setFinalizer c false) := by
  have hnode : ∀ (i : Nat) (c1 : context K V), (s.setFinalizer c false).nodes[i]? = some c1 →
      ∃ c0, s.nodes[i]? = some c0 ∧ c1.parent = c0.parent ∧ c1.timer = c0.timer ∧
        c1.trigger = c0.trigger ∧ (c1.finalizer = true → c0.finalizer = true) := by
    intro i c1 hc1
    by_cases hic : i = c
    · subst hic
      cases hq : s.nodes[i]? with
      | none =>
        have hlt := lt_length_of_get hc1
        rw [setFinalizer_length] at hlt
        rw [List.getElem?_eq_none_iff] at hq
        omega
      | some n =>
        rw [setFinalizer_self s i false n hq] at hc1
        injection hc1 with hc1
        rw [← hc1]
        exact ⟨n, rfl, rfl, rfl, rfl, fun hz => by simp at hz⟩
    · rw [setFinalizer_other s c i false hic] at hc1
      exact ⟨c1, hc1, rfl, rfl, rfl, fun hz => hz⟩
  refine h.of_shrink (setFinalizer_timers s c false) (setFinalizer_length s c false)
    (fun i c1 hc1 => ?_) (fun j q cj1 cq0 cq1 _ _ hq0 hq1 hmem => ?_)
  · obtain ⟨c0, hc0, hp, htm, htr, hz⟩ := hnode i c1 hc1
    rw [htr]
    exact ⟨c0, hc0, hp, htm, rfl, rfl, rfl, Iff.rfl, fun j hj => hj, hz⟩
  · obtain ⟨c0, hc0, _, _, htr, _⟩ := hnode q cq1 hq1
    rw [hq0] at hc0
    cases hc0
    rw [htr]
    exact hmem

theorem Inv.of_Unsubscribe {s s1 : State K V} (h : Inv s) {p c : Nat} {n : context K V}
    (hn : s.nodes[c]? = some n) (hz : n.finalizer = false)
    (hu : Unsubscribe s p c = Except.ok s1) : Inv s1 := by
  unfold Unsubscribe at hu
  cases hp : s.nodes[p]? with
  | none =>
    rw [hp] at hu
    cases hu
  | some cp =>
    rw [hp] at hu
    have hmu := h.unlocked p cp hp
    have hu : s.setTrigger p { cp.trigger with
        subscribers := cp.trigger.subscribers.map (fun l => l.erase c) } = s1 := by
      simpa [hmu] using hu
    have hnode : ∀ (i : Nat) (c1 : context K V), s1.nodes[i]? = some c1 →
        ∃ c0, s.nodes[i]? = some c0 ∧
          ((i ≠ p ∧ c1 = c0) ∨ (i = p ∧ c1 = { c0 with trigger :=
            { c0.trigger with
              subscribers := c0.trigger.subscribers.map (fun l => l.erase c) } })) := by
      intro i c1 hc1
      rw [← hu] at hc1
      by_cases hip : i = p
      · subst hip
        rw [setTrigger_self s i _ cp hp] at hc1
        injection hc1 with hc1
        exact ⟨cp, hp, Or.inr ⟨rfl, hc1.symm⟩⟩
      · rw [setTrigger_other s p i _ hip] at hc1
        exact ⟨c1, hc1, Or.inl ⟨hip, rfl⟩⟩
    have hsubs : ∀ (c0 : context K V) (j : Nat),
        j ∈ subscriberList { c0.trigger with
          subscribers := c0.trigger.subscribers.map (fun l => l.erase c) } →
        j ∈ subscriberList c0.trigger := by
      intro c0 j hj
      unfold subscriberList at hj ⊢
      cases hs : c0.trigger.subscribers with
      | none => simp [hs] at hj
      | some l =>
        simp only [hs, Option.map_some'] at hj
        exact List.mem_of_mem_erase hj
    refine h.of_shrink (by rw [← hu, setTrigger_timers]) (by rw [← hu, setTrigger_length])
      (fun i c1 hc1 => ?_) (fun j q cj1 cq0 cq1 hj hjz hq0 hq1 hmem => ?_)
    · obtain ⟨c0, hc0, ⟨_, rfl⟩ | ⟨_, rfl⟩⟩ := hnode i c1 hc1
      · exact ⟨c1, hc0, rfl, rfl, rfl, rfl, rfl, Iff.rfl, fun j hj => hj, fun hz1 => hz1⟩
      · refine ⟨c0, hc0, rfl, rfl, rfl, rfl, rfl, ?_, hsubs c0, fun hz1 => hz1⟩
        cases c0.trigger.subscribers <;> simp
    · have hjc : j ≠ c := by
        intro hjc
        subst hjc
        obtain ⟨c0, hc0, ⟨_, rfl⟩ | ⟨_, rfl⟩⟩ := hnode j cj1 hj
        · rw [hn] at hc0
          cases hc0
          rw [hz] at hjz
          cases hjz
        · rw [hn] at hc0
          cases hc0
          simp only at hjz
          rw [hz] at hjz
          cases hjz
      obtain ⟨c0, hc0, ⟨_, rfl⟩ | ⟨_, rfl⟩⟩ := hnode q cq1 hq1
      · rw [hq0] at hc0
        cases hc0
        exact hmem
      · rw [hq0] at hc0
        cases hc0
        unfold subscriberList at hmem ⊢
        cases hs : cq0.trigger.subscribers with
        | none => simp [hs] at hmem
        | some l =>
          simp only [hs, Option.map_some'] at hmem ⊢
          exact (List.mem_erase_of_ne hjc).mpr hmem

theorem collect_inv {s s1 : State K V} (h : Inv s) {c : Nat}
    (hc : collect s c = Except.ok s1) : Inv s1 := by
  unfold collect at hc
  cases hn : s.nodes[c]? with
  | none =>
    rw [hn] at hc
    cases hc
  | some n =>
    rw [hn] at hc
    cases hz : n.finalizer with
    | false =>
      simp only [hz, Bool.false_eq_true, if_false] at hc
      injection hc with hc
      rw [← hc]
      exact h
    | true =>
      simp only [hz, if_true] at hc
      have h1 := h.of_clearFinalizer c
      have hn1 := setFinalizer_self s c false n hn
      unfold finalizer at hc
      rw [hn1] at hc
      cases hp : n.parent with
      | none =>
        simp only [hp] at hc
        injection hc with hc
        rw [← hc]
        exact h1
      | some p =>
        simp only [hp] at hc
        exact h1.of_Unsubscribe hn1 rfl hc

theorem gcReachable_inv {s : State K V} (h : GcReachable s) : Inv s := by
  induction h with
  | empty => exact Inv.empty
  | step op _ _ hst ih => exact (step_inv ih op hst).1
  | collect c _ _ hc ih => exact collect_inv ih hc

/-! ## Consequences used by the claims -/

theorem reason_eq_some {s : State K V} {i : Nat} {r : Err} (h : s.reason i = some r) :
    ∃ c, s.nodes[i]? = some c ∧ c.trigger.value = some r := by
  unfold State.reason at h
  cases hc : s.nodes[i]? with
  | none => rw [hc] at h; cases h
  | some c =>
    rw [hc] at h
    exact ⟨c, rfl, h⟩

theorem reason_of_get {s : State K V} {i : Nat} {c : context K V}
    (h : s.nodes[i]? = some c) : s.reason i = c.trigger.value := by
  unfold State.reason
  rw [h]
  rfl

theorem fired_iff_reason {s : State K V} {i : Nat} : s.fired i ↔ s.reason i ≠ none := by
  constructor
  · rintro ⟨c, hc, hv⟩
    rw [reason_of_get hc]
    exact hv
  · intro h
    unfold State.reason at h
    cases hc : s.nodes[i]? with
    | none => rw [hc] at h; exact absurd rfl h
    | some c =>
      rw [hc] at h
      exact ⟨c, hc, h⟩

theorem Error_of_reason {s : State K V} (h : Inv s) {i : Nat} {r : Err}
    (hr : s.reason i = some r) : Error s i = Except.ok (some (some r)) := by
  obtain ⟨c, hc, hv⟩ := reason_eq_some hr
  have hd := h.dead i c hc (by rw [hv]; simp)
  have hmu := h.unlocked i c hc
  simp [Error, Terminated, Fired, Get, hc, hd.1, hmu, hv]

theorem Error_of_live {s : State K V} (h : Inv s) {i : Nat} {c : context K V}
    (hc : s.nodes[i]? = some c) (hv : c.trigger.value = none) :
    Error s i = Except.ok none := by
  have hl := h.live i c hc hv
  simp [Error, Terminated, Fired, hc, hl.1]

theorem Terminated_of_fired {s : State K V} (h : Inv s) {i : Nat} (hf : s.fired i) :
    Terminated s i = Except.ok true := by
  obtain ⟨c, hc, hv⟩ := hf
  have hd := h.dead i c hc hv
  simp [Terminated, Fired, hc, hd.1]

theorem Inv.descendant_fired {s : State K V} (h : Inv s) {N D : Nat}
    (hN : s.fired N) (hd : Descendant s.heldParentOf N D) : s.fired D := by
  have key : ∀ P D : Nat, s.fired P → s.heldParentOf D = some P → s.fired D := by
    intro P D ⟨cp, hcp, hvp⟩ hpar
    unfold State.heldParentOf State.reclaimed State.parentOf at hpar
    cases hc : s.nodes[D]? with
    | none => rw [hc] at hpar; simp at hpar
    | some cd =>
      rw [hc] at hpar
      cases hz : cd.finalizer with
      | false =>
        cases hq : cd.parent with
        | none => simp [hz, hq] at hpar
        | some q => simp [hz, hq] at hpar
      | true =>
        simp only [hz, Bool.not_true, Bool.and_false, Bool.false_eq_true, if_false,
          Option.bind_some] at hpar
        exact ⟨cd, hc, (h.link D P cd cp hc hpar hcp hz).2 hvp⟩
  induction hd with
  | child hp => exact key N _ hN hp
  | trans _ hp ih => exact key _ _ ih hp

theorem Inv.descendant_lt {s : State K V} (h : Inv s) {N D : Nat}
    (hd : Descendant s.parentOf N D) : N < D := by
  induction hd with
  | child hp => exact h.parent_lt _ _ hp
  | trans _ hp ih => exact lt_trans ih (h.parent_lt _ _ hp)

theorem Descendant.parent_mem {par : Nat → Option Nat} {N D P : Nat}
    (hd : Descendant par N D) (hp : par D = some P) : P = N ∨ Descendant par N P := by
  cases hd with
  | child h0 =>
    rw [h0] at hp
    injection hp with hp
    exact Or.inl hp.symm
  | trans h1 h0 =>
    rw [h0] at hp
    injection hp with hp
    subst hp
    exact Or.inr h1

theorem Fire_noop (fuel : Nat) (s : State K V) (t : Nat) (c : context K V) (v : Option Err)
    (hc : s.nodes[t]? = some c) (hmu : c.trigger.mu = false)
    (hv : c.trigger.value ≠ none) : Fire (fuel + 1) s t v = Except.ok s := by
  simp [Fire, hc, hmu, hv]

theorem set_same {α : Type} (l : List α) (k : Nat) (a : α) (h : l[k]? = some a) :
    l.set k a = l := by
  apply List.ext_getElem?
  intro j
  by_cases hjk : j = k
  · subst hjk
    rw [List.getElem?_set_self (lt_length_of_get h), h]
  · rw [List.getElem?_set_ne (Ne.symm hjk)]

theorem stopTimer_idem (s : State K V) (k : Nat) :
    (s.stopTimer k).stopTimer k = s.stopTimer k := by
  cases hk : s.timers[k]? with
  | none =>
    have h1 : s.stopTimer k = s := by
      unfold State.stopTimer
      rw [hk]
    rw [h1, h1]
  | some tm =>
    have hkl := lt_length_of_get hk
    have h1 : s.stopTimer k = State.mk s.nodes (s.timers.set k tm.Stop) := by
      unfold State.stopTimer
      rw [hk]
    have h2 : (State.mk s.nodes (s.timers.set k tm.Stop) : State K V).timers[k]? =
        some tm.Stop := List.getElem?_set_self hkl
    have h3 : tm.Stop.Stop = tm.Stop := by
      unfold Timer.Stop
      cases hs : tm.state <;> simp [hs]
    rw [h1]
    unfold State.stopTimer
    rw [h2]
    simp only [h3]
    rw [set_same _ _ _ h2]

theorem Keeps.node_eq {s s1 : State K V} (h : Keeps s s1) {i : Nat} {c : context K V}
    (hc : s.nodes[i]? = some c) (hv : c.trigger.value ≠ none) :
    s1.nodes[i]? = some c := by
  rcases h i c hc with ⟨c1, hc1, hp, hf, ht, hd, hz, htr⟩
  rw [hc1]
  cases c1
  cases c
  simp only at hp hf ht hd hz htr
  simp [hp, hf, ht, hd, hz, htr hv]

theorem cascade_reasons {s s1 : State K V} (h : Inv s) {e : Err} {lo : Nat}
    {R : Nat → Prop} {N D : Nat} (hc : Cascade (some e) lo R s s1) (hi1 : Inv s1)
    (hf : s1.fired N) (hd : Descendant s.heldParentOf N D) :
    (s.reason D = none → s1.reason D = some e ∧ s1.reason N = some e) ∧
    (∀ r, s.reason D = some r → s1.reason D = some r) := by
  have hfD : s1.fired D := hi1.descendant_fired hf (by rw [hc.heldParentOf]; exact hd)
  have flip : ∀ i : Nat, s.reason i = none → s1.fired i → s1.reason i = some e := by
    intro i hr ⟨c1, hc1, hv1⟩
    rcases hc.get_back hc1 with ⟨c, hcs, rfl | ⟨_, _, _, rfl, _⟩⟩
    · rw [reason_of_get hcs] at hr
      exact absurd hr hv1
    · rw [reason_of_get hc1]
      rfl
  refine ⟨fun hr => ⟨flip D hr hfD, flip N ?_ hf⟩, fun r hr => ?_⟩
  · by_contra hne
    have := h.descendant_fired (fired_iff_reason.mpr hne) hd
    exact (fired_iff_reason.mp this) hr
  · obtain ⟨c, hcs, hv⟩ := reason_eq_some hr
    have := (Keeps.after_cascade hc).node_eq hcs (by rw [hv]; simp)
    rw [reason_of_get this]
    exact hv

theorem descendant_valid {s : State K V} (h : Inv s) {N D : Nat}
    (hd : Descendant s.parentOf N D) : N < s.nodes.length ∧ D < s.nodes.length := by
  have h1 := h.descendant_lt hd
  have h2 : D < s.nodes.length := by
    cases hd with
    | child hp => exact lt_length_of_parentOf hp
    | trans _ hp => exact lt_length_of_parentOf hp
  exact ⟨by omega, h2⟩

/-! ## The claims -/

/-- C1 fails on the code once the collector has reclaimed a descendant.  In every heap
reached without the collector, `Cancel` on a node `N` returns, and so does the function
of the timer owned by `N` when that timer is armed; afterwards every descendant `D` of
`N`, at any depth, holds a non-nil reason and its `Terminated` channel is closed.  In
every heap reached with the collector the two calls return as well, and terminate every
descendant that hangs below `N` through contexts that have not been reclaimed.  The
others are missed: after `childOps` the root lists the child `1` and nothing refers to
the child; the program drops it, keeping its `Terminated` channel, and the collector
reclaims it, the finalizer set by `newChild` unsubscribing its trigger from the root.
`Cancel` on the root `0` then returns and leaves `ErrCanceled` at the root, while the
child `1`, a descendant of the root, holds no reason and its `Terminated` channel stays
open. -/
theorem C1_cancel_misses_a_reclaimed_descendant :
    (∀ (s : State K V) (N : Nat), Reachable s → N < s.nodes.length →
      (∃ s1, Cancel s N = Except.ok s1 ∧
        ∀ D, Descendant s.parentOf N D →
          s1.reason D ≠ none ∧ Terminated s1 D = Except.ok true) ∧
      (∀ (n : context K V) (k : Nat) (tm : Timer), s.nodes[N]? = some n →
        n.timer = some k → s.timers[k]? = some tm → tm.state = TimerState.armed →
        ∃ s1, timerFires s k = Except.ok s1 ∧
          ∀ D, Descendant s.parentOf N D →
            s1.reason D ≠ none ∧ Terminated s1 D = Except.ok true)) ∧
    (∀ (s : State K V) (N : Nat), GcReachable s → N < s.nodes.length →
      (∃ s1, Cancel s N = Except.ok s1 ∧
        ∀ D, Descendant s.heldParentOf N D →
          s1.reason D ≠ none ∧ Terminated s1 D = Except.ok true) ∧
      (∀ (n : context K V) (k : Nat) (tm : Timer), s.nodes[N]? = some n →
        n.timer = some k → s.timers[k]? = some tm → tm.state = TimerState.armed →
        ∃ s1, timerFires s k = Except.ok s1 ∧
          ∀ D, Descendant s.heldParentOf N D →
            s1.reason D ≠ none ∧ Terminated s1 D = Except.ok true)) ∧
    Reachable (after childOps) ∧
    (after childOps).nodes[0]? = some (context.mk none pairs.nil
      (errorTrigger.mk false none false (some [1])) none 0 false) ∧
    (after childOps).unreferenced 1 = true ∧
    collect (after childOps) 1 = Except.ok droppedChild ∧
    droppedChild.nodes[0]? = some (context.mk none pairs.nil
      (errorTrigger.mk false none false (some [])) none 0 false) ∧
    droppedChild.reclaimed 1 = true ∧
    GcReachable droppedChild ∧
    Descendant droppedChild.parentOf 0 1 ∧
    ∃ s1, Cancel droppedChild 0 = Except.ok s1 ∧ s1.reason 0 = some Err.ErrCanceled ∧
      s1.reason 1 = none ∧ Terminated s1 1 = Except.ok false := by
  have core : ∀ (s : State K V) (N : Nat), Inv s → N < s.nodes.length →
      (∃ s1, Cancel s N = Except.ok s1 ∧
        ∀ D, Descendant s.heldParentOf N D →
          s1.reason D ≠ none ∧ Terminated s1 D = Except.ok true) ∧
      (∀ (n : context K V) (k : Nat) (tm : Timer), s.nodes[N]? = some n →
        n.timer = some k → s.timers[k]? = some tm → tm.state = TimerState.armed →
        ∃ s1, timerFires s k = Except.ok s1 ∧
          ∀ D, Descendant s.heldParentOf N D →
            s1.reason D ≠ none ∧ Terminated s1 D = Except.ok true) := by
    intro s N h hN
    constructor
    · obtain ⟨s1, hcan, hcas, hf, hi⟩ := Cancel_cascade h hN
      refine ⟨s1, hcan, fun D hd => ?_⟩
      have hfD := hi.descendant_fired hf (by rw [hcas.heldParentOf]; exact hd)
      exact ⟨fired_iff_reason.mp hfD, Terminated_of_fired hi hfD⟩
    · intro n k tm hn hk htm ha
      obtain ⟨tm1, htm1, htg⟩ := h.timer_owner N n k hn hk
      rw [htm] at htm1
      cases htm1
      obtain ⟨s1, htf, hcas, hf, hi⟩ := timerFires_cascade h htm ha
      rw [htg] at hcas hf
      refine ⟨s1, htf, fun D hd => ?_⟩
      have hfD := hi.descendant_fired hf (by rw [hcas.heldParentOf]; exact hd)
      exact ⟨fired_iff_reason.mp hfD, Terminated_of_fired hi hfD⟩
  refine ⟨fun s N hs hN => ?_, fun s N hs hN => core s N (gcReachable_inv hs) hN,
    reachable_after childOps (after childOps) rfl, rfl, rfl, rfl, rfl, rfl, ?_,
    Descendant.child rfl, ?_⟩
  · have h := core s N (reachable_inv hs) hN
    rw [(reachable_unreclaimed hs).held] at h
    exact h
  · have h0 : GcReachable (State.empty : State Nat Nat) := GcReachable.empty
    have h1 : GcReachable (after [(Op.New : Op Nat Nat)]) :=
      GcReachable.step Op.New h0 (fun c hc => by cases hc) rfl
    have h2 : GcReachable (after childOps) :=
      GcReachable.step (Op.WithValue 0 1 (some 2)) h1
        (fun c hc => by
          injection hc with hc
          subst hc
          rfl) rfl
    exact GcReachable.collect 1 h2 rfl rfl
  · exact ⟨_, rfl, rfl, rfl, rfl⟩

/-- The first part of C1 at the heap after `inheritedOps`, at node `2`, which owns the
armed timer `0` and has the child `3`: both `Cancel` on `2` and its timer terminate
every descendant of `2`.  The second part at the heap `droppedSibling`, where the
collector has reclaimed the child `1` of the root and the child `2` is kept: `Cancel` on
the root terminates the child `2` and misses the child `1`. -/
theorem C1_witness :
    Reachable (after inheritedOps) ∧ 2 < (after inheritedOps).nodes.length ∧
    Descendant (after inheritedOps).parentOf 2 3 ∧
    (∃ s1, Cancel (after inheritedOps) 2 = Except.ok s1 ∧
      ∀ D, Descendant (after inheritedOps).parentOf 2 D →
        s1.reason D ≠ none ∧ Terminated s1 D = Except.ok true) ∧
    (∃ s1, timerFires (after inheritedOps) 0 = Except.ok s1 ∧
      ∀ D, Descendant (after inheritedOps).parentOf 2 D →
        s1.reason D ≠ none ∧ Terminated s1 D = Except.ok true) ∧
    GcReachable droppedSibling ∧ 0 < droppedSibling.nodes.length ∧
    Descendant droppedSibling.heldParentOf 0 2 ∧
    Descendant droppedSibling.parentOf 0 1 ∧
    (∃ s1, Cancel droppedSibling 0 = Except.ok s1 ∧
      (∀ D, Descendant droppedSibling.heldParentOf 0 D →
        s1.reason D ≠ none ∧ Terminated s1 D = Except.ok true) ∧
      s1.reason 2 = some Err.ErrCanceled ∧ s1.reason 1 = none) := by
  have hg : GcReachable droppedSibling := by
    have h0 : GcReachable (State.empty : State Nat Nat) := GcReachable.empty
    have h1 : GcReachable (after [(Op.New : Op Nat Nat)]) :=
      GcReachable.step Op.New h0 (fun c hc => by cases hc) rfl
    have h2 : GcReachable (after childOps) :=
      GcReachable.step (Op.WithValue 0 1 (some 2)) h1
        (fun c hc => by
          injection hc with hc
          subst hc
          rfl) rfl
    have h3 : GcReachable (after siblingOps) :=
      GcReachable.step (Op.WithValue 0 3 (some 4)) h2
        (fun c hc => by
          injection hc with hc
          subst hc
          rfl) rfl
    exact GcReachable.collect 1 h3 rfl rfl
  obtain ⟨s1, hcan, hall⟩ :=
    (C1_cancel_misses_a_reclaimed_descendant.2.1 droppedSibling 0 hg (by decide)).1
  have e : Cancel droppedSibling 0 = Except.ok droppedSiblingCanceled := rfl
  exact ⟨reachable_after inheritedOps (after inheritedOps) rfl, by decide,
    Descendant.child rfl,
    (C1_cancel_misses_a_reclaimed_descendant.1 (after inheritedOps) 2
      (reachable_after inheritedOps (after inheritedOps) rfl) (by decide)).1,
    (C1_cancel_misses_a_reclaimed_descendant.1 (after inheritedOps) 2
      (reachable_after inheritedOps (after inheritedOps) rfl) (by decide)).2 _ 0 _
      rfl rfl rfl rfl,
    hg, by decide, Descendant.child rfl, Descendant.child rfl,
    s1, hcan, hall, (by rw [hcan] at e; injection e with e; rw [e]; rfl),
    (by rw [hcan] at e; injection e with e; rw [e]; rfl)⟩

/-- C2, as stated, fails: in the heap where the timeout child `1` of the root `0` has
already timed out, `Cancel` on the root leaves `Error` on the child at `ErrTimeout`
while `Error` on the root returns `ErrCanceled`. -/
theorem C2_counterexample :
    ¬ ∀ (s s1 : State Nat Nat) (N D : Nat), Reachable s → Descendant s.parentOf N D →
      Cancel s N = Except.ok s1 → Error s1 D = Error s1 N := by
  intro hall
  have h := hall (after expiredOps) (after (expiredOps ++ [Op.Cancel 0])) 0 1
    (reachable_after expiredOps (after expiredOps) rfl)
    (@Descendant.child (after expiredOps).parentOf 0 1 rfl) (by rfl)
  have h1 : Error (after (expiredOps ++ [Op.Cancel 0])) 1 =
      Except.ok (some (some Err.ErrTimeout)) := rfl
  have h0 : Error (after (expiredOps ++ [Op.Cancel 0])) 0 =
      Except.ok (some (some Err.ErrCanceled)) := rfl
  rw [h1, h0] at h
  cases h

/-- C2, amended: in every reachable heap, after `Cancel` on `N` (reason `ErrCanceled`)
and after the timer owned by `N` has run (reason `ErrTimeout`), every descendant `D`
that was still Live reports through `Error` the reason that `Error` reports on `N`,
and every descendant that already held a reason keeps reporting that reason. -/
theorem C2_live_descendants_share_reason (s : State K V) (N D : Nat)
    (hs : Reachable s) (hd : Descendant s.parentOf N D) :
    (∃ s1, Cancel s N = Except.ok s1 ∧
      (s.reason D = none →
        Error s1 D = Except.ok (some (some Err.ErrCanceled)) ∧
        Error s1 N = Except.ok (some (some Err.ErrCanceled))) ∧
      (∀ r, s.reason D = some r → Error s1 D = Except.ok (some (some r)))) ∧
    (∀ (n : context K V) (k : Nat) (tm : Timer), s.nodes[N]? = some n →
      n.timer = some k → s.timers[k]? = some tm → tm.state = TimerState.armed →
      ∃ s1, timerFires s k = Except.ok s1 ∧
        (s.reason D = none →
          Error s1 D = Except.ok (some (some Err.ErrTimeout)) ∧
          Error s1 N = Except.ok (some (some Err.ErrTimeout))) ∧
        (∀ r, s.reason D = some r → Error s1 D = Except.ok (some (some r)))) := by
  have h := reachable_inv hs
  have hN := (descendant_valid h hd).1
  constructor
  · obtain ⟨s1, hcan, hcas, hf, hi⟩ := Cancel_cascade h hN
    obtain ⟨hlive, hdead⟩ := cascade_reasons h hcas hi hf
      ((reachable_unreclaimed hs).descendant hd)
    exact ⟨s1, hcan,
      fun hr => ⟨Error_of_reason hi (hlive hr).1, Error_of_reason hi (hlive hr).2⟩,
      fun r hr => Error_of_reason hi (hdead r hr)⟩
  · intro n k tm hn hk htm ha
    obtain ⟨tm1, htm1, htg⟩ := h.timer_owner N n k hn hk
    rw [htm] at htm1
    cases htm1
    obtain ⟨s1, htf, hcas, hf, hi⟩ := timerFires_cascade h htm ha
    rw [htg] at hcas hf
    obtain ⟨hlive, hdead⟩ := cascade_reasons h hcas hi hf
      ((reachable_unreclaimed hs).descendant hd)
    exact ⟨s1, htf,
      fun hr => ⟨Error_of_reason hi (hlive hr).1, Error_of_reason hi (hlive hr).2⟩,
      fun r hr => Error_of_reason hi (hdead r hr)⟩

/-- C2 amended, at the heap `demo` with the root `0` and its grandchild `2`. -/
theorem C2_witness :
    Reachable demo ∧ Descendant demo.parentOf 0 2 ∧
    ∃ s1, Cancel demo 0 = Except.ok s1 ∧
      (demo.reason 2 = none →
        Error s1 2 = Except.ok (some (some Err.ErrCanceled)) ∧
        Error s1 0 = Except.ok (some (some Err.ErrCanceled))) ∧
      (∀ r, demo.reason 2 = some r → Error s1 2 = Except.ok (some (some r))) :=
  ⟨reachable_after demoOps demo rfl,
    @Descendant.trans demo.parentOf 0 1 2 (@Descendant.child demo.parentOf 0 1 rfl) rfl,
    (C2_live_descendants_share_reason demo 0 2 (reachable_after demoOps demo rfl)
      (@Descendant.trans demo.parentOf 0 1 2 (@Descendant.child demo.parentOf 0 1 rfl)
        rfl)).1⟩

/-- C3: firing is one-shot.  In every reachable heap, for a node `N` that holds a
reason `r`: any further `Fire` on `N` (as issued by a cascade from an ancestor, by the
timer function or by `Cancel`) returns the heap unchanged; `Cancel` on `N` and the
timer owned by `N` return with every node unchanged (the heap after `Cancel` is the
heap before, the runtime timer of `N`, if it has one, stopped); no operation whatever
changes node `N`; and `Error` on `N` keeps returning `r`.  For any node `N`, a second
`Cancel` leaves the heap exactly as the first one left it, with the same result of
`Error`. -/
theorem C3_fire_is_one_shot (s : State K V) (N : Nat) (hs : Reachable s)
    (hN : N < s.nodes.length) :
    (∀ r, s.reason N = some r →
      (∀ (fuel : Nat) (v : Option Err), Fire (fuel + 1) s N v = Except.ok s) ∧
      (∃ s1, Cancel s N = Except.ok s1 ∧ s1.nodes = s.nodes ∧
        Error s1 N = Except.ok (some (some r)) ∧
        ∀ n : context K V, s.nodes[N]? = some n →
          s1 = (match n.timer with
            | none => s
            | some k => s.stopTimer k)) ∧
      (∀ (n : context K V) (k : Nat), s.nodes[N]? = some n → n.timer = some k →
        ∃ s1, timerFires s k = Except.ok s1 ∧ s1.nodes = s.nodes ∧
          Error s1 N = Except.ok (some (some r))) ∧
      (∀ (op : Op K V) (s1 : State K V), step s op = Except.ok s1 →
        s1.nodes[N]? = s.nodes[N]? ∧ Error s1 N = Except.ok (some (some r)))) ∧
    (∃ s1 r, Cancel s N = Except.ok s1 ∧ Error s1 N = Except.ok (some (some r)) ∧
      Cancel s1 N = Except.ok s1) := by
  have h := reachable_inv hs
  obtain ⟨n, hn⟩ := get_of_lt hN
  have hnoop : ∀ (σ : State K V) (t : Nat), Inv σ → σ.fired t →
      ∀ (fuel : Nat) (v : Option Err), Fire (fuel + 1) σ t v = Except.ok σ := by
    intro σ t hσ ⟨c, hc, hv⟩ fuel v
    exact Fire_noop fuel σ t c v hc (hσ.unlocked t c hc) hv
  have hcancel : ∀ (σ : State K V), Inv σ → σ.fired N → ∀ c, σ.nodes[N]? = some c →
      Cancel σ N = Except.ok (match c.timer with
        | none => σ
        | some k => σ.stopTimer k) := by
    intro σ hσ hf c hc
    unfold Cancel
    rw [hc]
    cases hk : c.timer with
    | none =>
      simp only [hk, State.fuel]
      exact hnoop σ N hσ hf _ _
    | some k =>
      have hnodes : (σ.stopTimer k).nodes = σ.nodes := (stopTimer_spec σ k).1
      simp only [hk, State.fuel]
      exact hnoop _ N (hσ.of_stopTimer k)
        (by
          rcases hf with ⟨c0, hc0, hv0⟩
          exact ⟨c0, by rw [hnodes]; exact hc0, hv0⟩) _ _
  constructor
  · intro r hr
    have hf : s.fired N := fired_iff_reason.mpr (by rw [hr]; simp)
    have hv : n.trigger.value ≠ none := by
      rw [← reason_of_get hn, hr]
      simp
    refine ⟨hnoop s N h hf, ?_, ?_, ?_⟩
    · refine ⟨_, hcancel s h hf n hn, ?_, ?_, ?_⟩
      · cases n.timer with
        | none => rfl
        | some k => exact (stopTimer_spec s k).1
      · cases hk : n.timer with
        | none => exact Error_of_reason h hr
        | some k =>
          refine Error_of_reason (h.of_stopTimer k) ?_
          unfold State.reason
          rw [(stopTimer_spec s k).1]
          exact hr
      · intro n1 hn1
        rw [hn] at hn1
        cases hn1
        rfl
    · intro n1 k hn1 hk
      by_cases ha : ∃ tm, s.timers[k]? = some tm ∧ tm.state = TimerState.armed
      · obtain ⟨tm, htm, hst⟩ := ha
        obtain ⟨tm1, htm1, htg⟩ := h.timer_owner N n1 k hn1 hk
        rw [htm] at htm1
        cases htm1
        have hi0 : Inv (State.mk s.nodes
            (s.timers.set k { tm with state := TimerState.expired }) : State K V) := by
          refine h.of_timers rfl (fun j tm1 hj => ?_) (fun j tm1 hj => ?_)
          · have hj1 : (s.timers.set k { tm with state := TimerState.expired })[j]? =
                some tm1 := hj
            by_cases hjk : j = k
            · subst hjk
              rw [List.getElem?_set_self (lt_length_of_get htm)] at hj1
              cases hj1
              exact h.timer_target j tm htm
            · rw [List.getElem?_set_ne (Ne.symm hjk)] at hj1
              exact h.timer_target j tm1 hj1
          · show ∃ tm2, (s.timers.set k { tm with state := TimerState.expired })[j]? =
                some tm2 ∧ _
            by_cases hjk : j = k
            · subst hjk
              rw [htm] at hj
              cases hj
              rw [List.getElem?_set_self (lt_length_of_get htm)]
              exact ⟨_, rfl, rfl⟩
            · rw [List.getElem?_set_ne (Ne.symm hjk)]
              exact ⟨tm1, hj, rfl⟩
        refine ⟨_, ?_, ?_, Error_of_reason hi0 hr⟩
        · unfold timerFires
          rw [htm]
          simp only [hst, State.fuel]
          exact hnoop _ tm.target hi0 (by rw [htg]; exact hf) _ _
        · rfl
      · exact ⟨s, timerFires_idle s k (fun tm hk hst => ha ⟨tm, hk, hst⟩), rfl,
          Error_of_reason h hr⟩
    · intro op s1 hst
      obtain ⟨hi1, hk1⟩ := step_inv h op hst
      have hnode := hk1.node_eq hn hv
      refine ⟨by rw [hnode, hn], Error_of_reason hi1 ?_⟩
      rw [reason_of_get hnode, ← reason_of_get hn]
      exact hr
  · obtain ⟨s1, hcan, hcas, hf, hi⟩ := Cancel_cascade h hN
    obtain ⟨c1, hc1, hv1⟩ := hf
    have hf1 : s1.fired N := ⟨c1, hc1, hv1⟩
    have htimer : c1.timer = n.timer := by
      rcases hcas.get_some hn with ⟨c2, hc2, _, _, ht, _⟩
      rw [hc1] at hc2
      cases hc2
      exact ht
    obtain ⟨r, hr⟩ : ∃ r, s1.reason N = some r := by
      cases hr : s1.reason N with
      | none => exact absurd hr (fired_iff_reason.mp hf1)
      | some r => exact ⟨r, rfl⟩
    refine ⟨s1, r, hcan, Error_of_reason hi hr, ?_⟩
    · rw [hcancel s1 hi hf1 c1 hc1]
      cases hk : c1.timer with
      | none => rfl
      | some k =>
        simp only
        -- the first call has already stopped timer `k`
        have hs1 : ∃ s0 : State K V, s1.timers = (s0.stopTimer k).timers := by
          have hcan1 := hcan
          unfold Cancel at hcan1
          rw [hn] at hcan1
          have hk0 : n.timer = some k := by rw [← htimer]; exact hk
          simp only [hk0] at hcan1
          obtain ⟨s2, hf2, htm2, _⟩ := Fire_of_inv (h.of_stopTimer k) Err.ErrCanceled
            (show N < (s.stopTimer k).nodes.length by
              rw [(stopTimer_spec s k).1]; exact hN)
          rw [hf2] at hcan1
          cases hcan1
          exact ⟨s, htm2⟩
        obtain ⟨s0, hs0⟩ := hs1
        have hidem := stopTimer_idem s0 k
        have : s1.stopTimer k = s1 := by
          have e1 : (s1.stopTimer k).timers = s1.timers := by
            have a1 : (s1.stopTimer k).timers =
                ((State.mk s0.nodes s1.timers : State K V).stopTimer k).timers := by
              unfold State.stopTimer
              cases s1.timers[k]? <;> rfl
            rw [a1, hs0]
            have a2 : (State.mk s0.nodes (s0.stopTimer k).timers : State K V) =
                s0.stopTimer k := by
              rw [← (stopTimer_spec s0 k).1]
            rw [a2, hidem]
          have e2 : (s1.stopTimer k).nodes = s1.nodes := (stopTimer_spec s1 k).1
          cases hq : s1.stopTimer k
          rw [hq] at e1 e2
          simp only at e1 e2
          subst e1 e2
          rfl
        rw [this]

/-- C3 at the heap `demoCanceled`, whose root `0` already holds `ErrCanceled`. -/
theorem C3_witness :
    Reachable demoCanceled ∧ 0 < demoCanceled.nodes.length ∧
    demoCanceled.reason 0 = some Err.ErrCanceled ∧
    (∀ (fuel : Nat) (v : Option Err),
      Fire (fuel + 1) demoCanceled 0 v = Except.ok demoCanceled) ∧
    (∃ s1, Cancel demoCanceled 0 = Except.ok s1 ∧ s1.nodes = demoCanceled.nodes ∧
      Error s1 0 = Except.ok (some (some Err.ErrCanceled)) ∧
      ∀ n : context Nat Nat, demoCanceled.nodes[0]? = some n →
        s1 = (match n.timer with
          | none => demoCanceled
          | some k => demoCanceled.stopTimer k)) :=
  ⟨reachable_after (demoOps ++ [Op.Cancel 0]) demoCanceled rfl, by decide, rfl,
    ((C3_fire_is_one_shot demoCanceled 0
      (reachable_after (demoOps ++ [Op.Cancel 0]) demoCanceled rfl) (by decide)).1
        Err.ErrCanceled rfl).1,
    ((C3_fire_is_one_shot demoCanceled 0
      (reachable_after (demoOps ++ [Op.Cancel 0]) demoCanceled rfl) (by decide)).1
        Err.ErrCanceled rfl).2.1⟩

theorem canceledAtBirth_of {s s1 : State K V} {P c : Nat} {r : Err} (hs1 : Reachable s1)
    (hi : Inv s) (hP : s.reason P = some r) (hc : s1.reason c = some r)
    (hnode : s1.nodes[P]? = s.nodes[P]?) : CanceledAtBirth s s1 P c r := by
  have hi1 := reachable_inv hs1
  obtain ⟨p, hp, hpv⟩ := reason_eq_some hP
  refine ⟨Error_of_reason hi1 hc, hnode, fun p1 hp1 => ?_, fun ops s2 hrun => ?_⟩
  · rw [hnode, hp] at hp1
    cases hp1
    have := (hi.dead P p hp (by rw [hpv]; simp)).2
    simp [subscriberList, this]
  · obtain ⟨hr2, hk2⟩ := reachable_run hs1 ops s2 hrun
    obtain ⟨cc, hcc, hcv⟩ := reason_eq_some hc
    have hnode2 := hk2.node_eq hcc (by rw [hcv]; simp)
    refine Error_of_reason (reachable_inv hr2) ?_
    rw [reason_of_get hnode2]
    exact hcv

/-- C4: in every reachable heap, for a node `P` that already holds reason `r`, each of
`WithValue`, `WithFields` with at least one entry, and `WithTimeout` returns a node on
which `Error` returns `r` at once, leaves `P` as it was with the new node absent from
its subscribers, and in every later heap `Error` on the new node still returns `r` (so
a `WithTimeout` child of a parent canceled with `ErrCanceled` never reports
`ErrTimeout`). -/
theorem C4_child_of_canceled_parent_is_born_canceled (s : State K V) (P : Nat) (r : Err)
    (hs : Reachable s) (hP : s.reason P = some r) :
    (∀ (key : K) (value : Option V),
      ∃ s1 c, WithValue s P key value = Except.ok (s1, c) ∧ CanceledAtBirth s s1 P c r) ∧
    (∀ fields : Fields K V, fields ≠ [] →
      ∃ s1 c, WithFields s P fields = Except.ok (s1, c) ∧ CanceledAtBirth s s1 P c r) ∧
    (∀ now timeout : Int,
      ∃ s1 c, WithTimeout s P now timeout = Except.ok (s1, c) ∧
        CanceledAtBirth s s1 P c r) := by
  have h := reachable_inv hs
  obtain ⟨p, hp, hpv⟩ := reason_eq_some hP
  have hpl := lt_length_of_get hp
  have hsub : p.subscribe s.nodes.length = p := subscribe_fired p _ r hpv
  have hchild : (p.child P).trigger.value = some r := by
    simp [context.child, hpv, firedTrigger]
  have hPn : P ≠ s.nodes.length := by omega
  refine ⟨fun key value => ?_, fun fields hne => ?_, fun now timeout => ?_⟩
  · have hw := WithValue_eq h hp key value
    refine ⟨_, _, hw, canceledAtBirth_of ?_ h hP ?_ ?_⟩
    · exact Reachable.step (Op.WithValue P key value) hs (by simp [step, hw, Except.map])
    · unfold State.reason
      show ((s.nodes.set P (p.subscribe s.nodes.length) ++ _)[s.nodes.length]?).bind _ = _
      rw [get_set_append _ _ _ _ hpl, if_neg (Ne.symm hPn), if_pos rfl]
      exact hchild
    · show (s.nodes.set P (p.subscribe s.nodes.length) ++ _)[P]? = _
      rw [get_set_append _ _ _ _ hpl, if_pos rfl, hsub, hp]
  · obtain ⟨s1, new, cn, hwf, hi1, hkp, hcn, _, _, hrs, _, _⟩ :=
      WithFields_spec fields s P p h hp
    refine ⟨s1, new, hwf, canceledAtBirth_of ?_ h hP ?_ ?_⟩
    · exact Reachable.step (Op.WithFields P fields) hs (by simp [step, hwf, Except.map])
    · rw [reason_of_get hcn]
      exact hrs r hpv
    · rw [hkp.node_eq hp (by rw [hpv]; simp), hp]
  · have hw := WithTimeout_eq h hp now timeout
    by_cases hd : p.deadline ≠ 0 ∧ p.deadline < now + timeout
    · rw [if_pos hd] at hw
      refine ⟨_, _, hw, canceledAtBirth_of ?_ h hP ?_ ?_⟩
      · exact Reachable.step (Op.WithTimeout P now timeout) hs
          (by simp [step, hw, Except.map])
      · unfold State.reason
        show ((s.nodes.set P (p.subscribe s.nodes.length) ++ _)[s.nodes.length]?).bind _ = _
        rw [get_set_append _ _ _ _ hpl, if_neg (Ne.symm hPn), if_pos rfl]
        exact hchild
      · show (s.nodes.set P (p.subscribe s.nodes.length) ++ _)[P]? = _
        rw [get_set_append _ _ _ _ hpl, if_pos rfl, hsub, hp]
    · rw [if_neg hd] at hw
      refine ⟨_, _, hw, canceledAtBirth_of ?_ h hP ?_ ?_⟩
      · exact Reachable.step (Op.WithTimeout P now timeout) hs
          (by simp [step, hw, Except.map])
      · unfold State.reason
        show ((s.nodes.set P (p.subscribe s.nodes.length) ++ _)[s.nodes.length]?).bind _ = _
        rw [get_set_append _ _ _ _ hpl, if_neg (Ne.symm hPn), if_pos rfl]
        exact hchild
      · show (s.nodes.set P (p.subscribe s.nodes.length) ++ _)[P]? = _
        rw [get_set_append _ _ _ _ hpl, if_pos rfl, hsub, hp]

/-- C4 at the heap `demoCanceled`, deriving from its canceled child `1`. -/
theorem C4_witness :
    Reachable demoCanceled ∧ demoCanceled.reason 1 = some Err.ErrCanceled ∧
    (∀ now timeout : Int,
      ∃ s1 c, WithTimeout demoCanceled 1 now timeout = Except.ok (s1, c) ∧
        CanceledAtBirth demoCanceled s1 1 c Err.ErrCanceled) :=
  ⟨reachable_after (demoOps ++ [Op.Cancel 0]) demoCanceled rfl, rfl,
    (C4_child_of_canceled_parent_is_born_canceled demoCanceled 1 Err.ErrCanceled
      (reachable_after (demoOps ++ [Op.Cancel 0]) demoCanceled rfl) rfl).2.2⟩

theorem Get_eq_firstMatch [GoEq K] [DecidableEq K] (l : pairs K V) (key : K)
    (h : ∀ e ∈ l.entries, GoEq.eq e.1 key = some (decide (e.1 = key))) :
    l.Get key = Except.ok (firstMatch l.entries key) := by
  induction l with
  | nil => rfl
  | node prev k v ih =>
    have hk := h (k, v) (by simp [pairs.entries])
    have hprev := ih (fun e he => h e (by simp [pairs.entries, he]))
    simp only at hk
    by_cases hkk : k = key
    · subst hkk
      simp only [decide_True] at hk
      simp [pairs.Get, pairs.entries, firstMatch, hk]
    · simp only [pairs.Get, hk, decide_eq_false hkk, hprev, pairs.entries, firstMatch]
      rw [List.find?_cons_of_neg _ (by simp [hkk])]

theorem firstMatch_present_iff [DecidableEq K] (es : List (K × Option V)) (key : K) :
    (firstMatch es key).2 = true ↔ ∃ e ∈ es, e.1 = key := by
  unfold firstMatch
  cases hf : es.find? (fun e => decide (e.1 = key)) with
  | none =>
    simp only [Bool.false_eq_true, false_iff, not_exists, not_and]
    intro e he hek
    have := List.find?_eq_none.mp hf e he
    simp [hek] at this
  | some e =>
    simp only [true_iff]
    have h1 := List.find?_some hf
    have h2 := List.mem_of_find?_eq_some hf
    exact ⟨e, h2, by simpa using h1⟩

theorem Get_append [GoEq K] (l : pairs K V) (k k1 : K) (v : Option V) :
    (l.append k v).Get k1 =
      match GoEq.eq k k1 with
      | none => Except.error Fault.uncomparable
      | some true => Except.ok (v, true)
      | some false => l.Get k1 := by
  simp only [pairs.append, pairs.Get]

/-- C5, as stated, fails: the chain holding the single entry `NaN ↦ 1` does not return
that entry for the key `NaN`, because `NaN == NaN` is false. -/
theorem C5_counterexample :
    ¬ ∀ (l : pairs Key Nat) (k k1 : Key) (v : Option Nat), k1 = k →
      (l.append k v).Get k1 = Except.ok (v, true) := by
  intro hall
  have h := hall pairs.nil Key.nan Key.nan (some 1) rfl
  have h1 : ((pairs.nil : pairs Key Nat).append Key.nan (some 1)).Get Key.nan =
      Except.ok (none, false) := rfl
  rw [h1] at h
  cases h

/-- C5, amended: `Get` is the first match walking from the head, with the keys compared
by `==`.  `Get` on the nil chain is not-found; `Get` on `append l k v` for the key `k1`
returns `(v, true)` when `k == k1` is true, the result on `l` when it is false, and
panics when the comparison panics.  Where `==` is equality on the keys of the chain,
`Get` is the reference lookup `firstMatch` on the entries listed head first, and
`present` is true exactly when some entry has the queried key. -/
theorem C5_Get_is_first_match_from_head [GoEq K] [DecidableEq K] (l : pairs K V) (k k1 : K)
    (v : Option V) :
    pairs.Get (pairs.nil : pairs K V) k1 = Except.ok (none, false) ∧
    (GoEq.eq k k1 = some true → (l.append k v).Get k1 = Except.ok (v, true)) ∧
    (GoEq.eq k k1 = some false → (l.append k v).Get k1 = l.Get k1) ∧
    (GoEq.eq k k1 = none → (l.append k v).Get k1 = Except.error Fault.uncomparable) ∧
    ((∀ e ∈ l.entries, GoEq.eq e.1 k1 = some (decide (e.1 = k1))) →
      l.Get k1 = Except.ok (firstMatch l.entries k1) ∧
      ((firstMatch l.entries k1).2 = true ↔ ∃ e ∈ l.entries, e.1 = k1)) := by
  refine ⟨rfl, fun h => ?_, fun h => ?_, fun h => ?_, fun h => ?_⟩
  · rw [Get_append, h]
  · rw [Get_append, h]
  · rw [Get_append, h]
  · exact ⟨Get_eq_firstMatch l k1 h, firstMatch_present_iff l.entries k1⟩

/-- C5 amended, on chains with one entry: an integer key is found, the key `NaN` is
passed over, and two slices make the lookup panic; and on a chain of integer keys `Get`
is the reference lookup. -/
theorem C5_witness :
    ((pairs.nil : pairs Key Nat).append (Key.int 1) (some 2)).Get (Key.int 1) =
      Except.ok (some 2, true) ∧
    ((pairs.nil : pairs Key Nat).append Key.nan (some 2)).Get Key.nan =
      (pairs.nil : pairs Key Nat).Get Key.nan ∧
    ((pairs.nil : pairs Key Nat).append (Key.slice [1]) (some 2)).Get (Key.slice [1]) =
      Except.error Fault.uncomparable ∧
    (pairs.node (pairs.node pairs.nil 1 (some 2)) 3 (some 4) : pairs Nat Nat).Get 1 =
      Except.ok (firstMatch [(3, some 4), (1, some 2)] 1) :=
  ⟨(C5_Get_is_first_match_from_head pairs.nil (Key.int 1) (Key.int 1) (some 2)).2.1 rfl,
    (C5_Get_is_first_match_from_head pairs.nil Key.nan Key.nan (some 2)).2.2.1 rfl,
    (C5_Get_is_first_match_from_head pairs.nil (Key.slice [1]) (Key.slice [1])
      (some 2)).2.2.2.1 rfl,
    ((C5_Get_is_first_match_from_head
      (pairs.node (pairs.node pairs.nil 1 (some 2)) 3 (some 4) : pairs Nat Nat) 0 1
      none).2.2.2.2 (by decide)).1⟩

theorem GetValue_of_get [GoEq K] {s : State K V} {c : Nat} {n : context K V}
    (h : s.nodes[c]? = some n) (key : K) :
    GetValue s c key = n.fields.Get key := by
  unfold GetValue
  rw [h]

theorem WithValue_node {s : State K V} (h : Inv s) {c : Nat} {p : context K V}
    (hp : s.nodes[c]? = some p) (key : K) (value : Option V) :
    ∃ s1 cn, WithValue s c key value = Except.ok (s1, s.nodes.length) ∧ Inv s1 ∧
      (Reachable s → Reachable s1) ∧ s1.nodes[s.nodes.length]? = some cn ∧
      cn.fields = p.fields.append key value := by
  have hw := WithValue_eq h hp key value
  have hslot := (child_slot (s.nodes.set c (p.subscribe s.nodes.length))
    ({ p.child c with fields := p.fields.append key value } : context K V)
    { p.child c with fields := p.fields.append key value }).1
  rw [List.length_set] at hslot
  exact ⟨_, _, hw, h.of_WithValue hp key value,
    fun hs => Reachable.step (Op.WithValue c key value) hs (by simp [step, hw, Except.map]),
    hslot, rfl⟩

/-- C6, as stated, fails: on a fresh root, after two `WithValue` for the key `NaN`,
`GetValue` for `NaN` does not report the second value. -/
theorem C6_counterexample :
    ¬ ∀ (s : State Key Nat) (N : Nat) (k : Key) (v1 v2 : Option Nat), Reachable s →
      N < s.nodes.length →
      ∃ s1 c1 s2 c2, WithValue s N k v1 = Except.ok (s1, c1) ∧
        WithValue s1 c1 k v2 = Except.ok (s2, c2) ∧
        GetValue s2 c2 k = Except.ok (v2, true) := by
  intro hall
  obtain ⟨s1, c1, s2, c2, h1, h2, h3⟩ := hall keyRoot 0 Key.nan (some 1) (some 2)
    (reachable_after [Op.New] keyRoot rfl) (by decide)
  have e1 : WithValue keyRoot 0 Key.nan (some 1) =
      Except.ok (after [Op.New, Op.WithValue 0 Key.nan (some 1)], 1) := rfl
  rw [e1] at h1
  injection h1 with h1
  injection h1 with hs1 hc1
  subst hs1 hc1
  have e2 : WithValue (after [Op.New, Op.WithValue 0 Key.nan (some 1)]) 1 Key.nan (some 2) =
      Except.ok (after [Op.New, Op.WithValue 0 Key.nan (some 1),
        Op.WithValue 1 Key.nan (some 2)], 2) := rfl
  rw [e2] at h2
  injection h2 with h2
  injection h2 with hs2 hc2
  subst hs2 hc2
  have e3 : GetValue (after [Op.New, Op.WithValue 0 Key.nan (some 1),
      Op.WithValue 1 Key.nan (some 2)]) 2 Key.nan = Except.ok (none, false) := rfl
  rw [e3] at h3
  cases h3

/-- C6, amended: shadowing for the keys that `==` finds equal to themselves.  In every
reachable heap, for every node `N`, key `k` and values `v1`, `v2`, both derivations
return, and `GetValue` on `WithValue(WithValue(N, k, v1), k, v2)` for `k` is
`(v2, true)` when `k == k` is true, whatever `N` held; when `k == k` is false the lookup
passes over both entries and returns what `GetValue` returns on `N`; when `k == k`
panics so does `GetValue`. -/
theorem C6_latest_value_shadows [GoEq K] (s : State K V) (N : Nat) (k : K)
    (v1 v2 : Option V) (hs : Reachable s) (hN : N < s.nodes.length) :
    ∃ s1 c1 s2 c2, WithValue s N k v1 = Except.ok (s1, c1) ∧
      WithValue s1 c1 k v2 = Except.ok (s2, c2) ∧
      (GoEq.eq k k = some true → GetValue s2 c2 k = Except.ok (v2, true)) ∧
      (GoEq.eq k k = some false → GetValue s2 c2 k = GetValue s N k) ∧
      (GoEq.eq k k = none → GetValue s2 c2 k = Except.error Fault.uncomparable) := by
  obtain ⟨p, hp⟩ := get_of_lt hN
  obtain ⟨s1, n1, hw1, hi1, _, hn1, hf1⟩ := WithValue_node (reachable_inv hs) hp k v1
  obtain ⟨s2, n2, hw2, _, _, hn2, hf2⟩ := WithValue_node hi1 hn1 k v2
  refine ⟨s1, _, s2, _, hw1, hw2, fun h => ?_, fun h => ?_, fun h => ?_⟩
  · rw [GetValue_of_get hn2 k, hf2, Get_append, h]
  · rw [GetValue_of_get hn2 k, GetValue_of_get hp k, hf2, hf1, Get_append, h, Get_append, h]
  · rw [GetValue_of_get hn2 k, hf2, Get_append, h]

/-- C6 amended, at the heap `demo`: the child `1` holds `2` for the integer key `1`; two
further values for that key are added on top and the second is found.  On the fresh
root `keyRoot` the same is done with the key `NaN`, which is not found, as on the root
itself, and with a slice, on which `GetValue` panics. -/
theorem C6_witness :
    Reachable demo ∧ 1 < demo.nodes.length ∧
    (∃ s1 c1 s2 c2, WithValue demo 1 1 (some 7) = Except.ok (s1, c1) ∧
      WithValue s1 c1 1 (some 8) = Except.ok (s2, c2) ∧
      GetValue s2 c2 1 = Except.ok (some 8, true)) ∧
    Reachable keyRoot ∧ 0 < keyRoot.nodes.length ∧
    (∃ s1 c1 s2 c2, WithValue keyRoot 0 Key.nan (some 7) = Except.ok (s1, c1) ∧
      WithValue s1 c1 Key.nan (some 8) = Except.ok (s2, c2) ∧
      GetValue s2 c2 Key.nan = GetValue keyRoot 0 Key.nan) ∧
    (∃ s1 c1 s2 c2, WithValue keyRoot 0 (Key.slice [1]) (some 7) = Except.ok (s1, c1) ∧
      WithValue s1 c1 (Key.slice [1]) (some 8) = Except.ok (s2, c2) ∧
      GetValue s2 c2 (Key.slice [1]) = Except.error Fault.uncomparable) := by
  obtain ⟨s1, c1, s2, c2, h1, h2, h3, _⟩ :=
    C6_latest_value_shadows demo 1 1 (some 7) (some 8) (reachable_after demoOps demo rfl)
      (by decide)
  obtain ⟨t1, d1, t2, d2, g1, g2, _, g3, _⟩ :=
    C6_latest_value_shadows keyRoot 0 Key.nan (some 7) (some 8)
      (reachable_after [Op.New] keyRoot rfl) (by decide)
  obtain ⟨u1, e1, u2, e2, k1, k2, _, _, k3⟩ :=
    C6_latest_value_shadows keyRoot 0 (Key.slice [1]) (some 7) (some 8)
      (reachable_after [Op.New] keyRoot rfl) (by decide)
  exact ⟨reachable_after demoOps demo rfl, by decide, ⟨s1, c1, s2, c2, h1, h2, h3 rfl⟩,
    reachable_after [Op.New] keyRoot rfl, by decide, ⟨t1, d1, t2, d2, g1, g2, g3 rfl⟩,
    ⟨u1, e1, u2, e2, k1, k2, k3 rfl⟩⟩

/-- C7: stored data is never changed.  In every reachable heap, for every node `M`
and key `q`, the result of `GetValue` on `M` is the same after any operation: a
`WithValue`, `WithFields` or `WithTimeout` from any node (`M` itself and the key `q`
included), a `Cancel`, a timer running, or a new root. -/
theorem C7_data_is_never_changed [GoEq K] (s s1 : State K V) (M : Nat) (q : K)
    (op : Op K V) (hs : Reachable s) (hM : M < s.nodes.length)
    (hst : step s op = Except.ok s1) :
    GetValue s1 M q = GetValue s M q := by
  obtain ⟨m, hm⟩ := get_of_lt hM
  obtain ⟨_, hk⟩ := step_inv (reachable_inv hs) op hst
  obtain ⟨m1, hm1, _, hf, _⟩ := hk M m hm
  rw [GetValue_of_get hm1 q, GetValue_of_get hm q, hf]

/-- C7 at the heap `demo`: deriving from node `1` with its own key `1` does not change
what node `1` reports for that key. -/
theorem C7_witness :
    Reachable demo ∧ 1 < demo.nodes.length ∧
    step demo (Op.WithValue 1 1 (some 9)) =
      Except.ok (after (demoOps ++ [Op.WithValue 1 1 (some 9)])) ∧
    GetValue (after (demoOps ++ [Op.WithValue 1 1 (some 9)])) 1 1 = GetValue demo 1 1 :=
  ⟨reachable_after demoOps demo rfl, by decide, by rfl,
    C7_data_is_never_changed demo (after (demoOps ++ [Op.WithValue 1 1 (some 9)])) 1 1
      (Op.WithValue 1 1 (some 9)) (reachable_after demoOps demo rfl) (by decide) (by rfl)⟩

theorem appendAll_append (l : pairs K V) (xs ys : Fields K V) :
    appendAll l (xs ++ ys) = appendAll (appendAll l xs) ys := by
  induction xs generalizing l with
  | nil => rfl
  | cons kv rest ih =>
    obtain ⟨k, v⟩ := kv
    simp only [List.cons_append, appendAll]
    exact ih (l.append k v)

theorem Get_appendAll_absent [GoEq K] :
    ∀ (fields : Fields K V) (l : pairs K V) (q : K),
      (∀ e ∈ fields, GoEq.eq e.1 q = some false) →
      (appendAll l fields).Get q = l.Get q := by
  intro fields
  induction fields with
  | nil => intro l q _; rfl
  | cons kv rest ih =>
    intro l q hq
    obtain ⟨k, v⟩ := kv
    simp only [appendAll]
    rw [ih (l.append k v) q (fun e he => hq e (List.mem_cons_of_mem _ he)), Get_append,
      hq (k, v) (List.mem_cons_self _ _)]

theorem Get_appendAll_mem [GoEq K] (pre post : Fields K V) (k q : K) (v : Option V)
    (l : pairs K V) (hk : GoEq.eq k q = some true)
    (hpost : ∀ e ∈ post, GoEq.eq e.1 q = some false) :
    (appendAll l (pre ++ (k, v) :: post)).Get q = Except.ok (v, true) := by
  rw [appendAll_append]
  simp only [appendAll]
  rw [Get_appendAll_absent post _ q hpost, Get_append, hk]

/-- C8, as stated, fails: on a fresh root, `WithFields` with the map holding the single
entry `NaN ↦ 1` returns a node on which `GetValue` for `NaN` does not find that entry. -/
theorem C8_counterexample :
    ¬ ∀ (s : State Key Nat) (N : Nat) (fields : Fields Key Nat) (q : Key) (v : Option Nat),
      Reachable s → N < s.nodes.length → (fields.map Prod.fst).Nodup → (q, v) ∈ fields →
      ∃ s1 new, WithFields s N fields = Except.ok (s1, new) ∧
        GetValue s1 new q = Except.ok (v, true) := by
  intro hall
  obtain ⟨s1, new, h1, h2⟩ := hall keyRoot 0 [(Key.nan, some 1)] Key.nan (some 1)
    (reachable_after [Op.New] keyRoot rfl) (by decide) (by decide) (by decide)
  have e1 : WithFields keyRoot 0 [(Key.nan, some 1)] =
      Except.ok (after [Op.New, Op.WithValue 0 Key.nan (some 1)], 1) := rfl
  rw [e1] at h1
  injection h1 with h1
  injection h1 with hs1 hc1
  subst hs1 hc1
  have e2 : GetValue (after [Op.New, Op.WithValue 0 Key.nan (some 1)]) 1 Key.nan =
      Except.ok (none, false) := rfl
  rw [e2] at h2
  cases h2

/-- C8, amended: `WithFields` agrees with sequential `WithValue` on lookups, whatever
the order in which the map is traversed, with the keys compared by `==`.  In every
reachable heap, for every node `N` and every traversal `fields` of a map, `WithFields`
returns a node on which `GetValue` for `q` is the entry `(v, true)` when `q` equals
(`==`) the key of that entry and differs from the keys of the entries traversed after
it, and is `GetValue` on `N` when `q` differs from every key of the map; and for two
keys that differ from each other, both traversals of the two-entry map give on `k1` and
`k2` the lookups of `WithValue(WithValue(N, k1, v1), k2, v2)`. -/
theorem C8_WithFields_agrees_with_WithValue [GoEq K] (s : State K V) (N : Nat)
    (hs : Reachable s) (hN : N < s.nodes.length) :
    (∀ fields : Fields K V,
      ∃ s1 new, WithFields s N fields = Except.ok (s1, new) ∧
        (∀ (q k : K) (v : Option V) (pre post : Fields K V),
          fields = pre ++ (k, v) :: post → GoEq.eq k q = some true →
          (∀ e ∈ post, GoEq.eq e.1 q = some false) →
          GetValue s1 new q = Except.ok (v, true)) ∧
        (∀ q, (∀ e ∈ fields, GoEq.eq e.1 q = some false) →
          GetValue s1 new q = GetValue s N q)) ∧
    (∀ (k1 k2 : K) (v1 v2 : Option V), GoEq.eq k1 k2 = some false →
      GoEq.eq k2 k1 = some false →
      ∃ s1 c1 s2 c2, WithValue s N k1 v1 = Except.ok (s1, c1) ∧
        WithValue s1 c1 k2 v2 = Except.ok (s2, c2) ∧
        ∀ fields : Fields K V,
          fields = [(k1, v1), (k2, v2)] ∨ fields = [(k2, v2), (k1, v1)] →
          ∃ s3 c3, WithFields s N fields = Except.ok (s3, c3) ∧
            GetValue s3 c3 k1 = GetValue s2 c2 k1 ∧
            GetValue s3 c3 k2 = GetValue s2 c2 k2) := by
  have h := reachable_inv hs
  obtain ⟨p, hp⟩ := get_of_lt hN
  refine ⟨fun fields => ?_, fun k1 k2 v1 v2 h12 h21 => ?_⟩
  · obtain ⟨s1, new, cn, hwf, _, _, hcn, hfl, _⟩ := WithFields_spec fields s N p h hp
    refine ⟨s1, new, hwf, fun q k v pre post hf hk hpost => ?_, fun q hq => ?_⟩
    · rw [GetValue_of_get hcn q, hfl, hf, Get_appendAll_mem pre post k q v p.fields hk hpost]
    · rw [GetValue_of_get hcn q, GetValue_of_get hp q, hfl,
        Get_appendAll_absent fields p.fields q hq]
  · obtain ⟨s1, n1, hw1, hi1, _, hn1, hf1⟩ := WithValue_node h hp k1 v1
    obtain ⟨s2, n2, hw2, _, _, hn2, hf2⟩ := WithValue_node hi1 hn1 k2 v2
    refine ⟨s1, _, s2, _, hw1, hw2, fun fields hf => ?_⟩
    obtain ⟨s3, c3, cn, hwf, _, _, hcn, hfl, _⟩ := WithFields_spec fields s N p h hp
    refine ⟨s3, c3, hwf, ?_, ?_⟩
    · rw [GetValue_of_get hcn k1, GetValue_of_get hn2 k1, hfl, hf2, hf1]
      rcases hf with rfl | rfl
      · rfl
      · simp only [appendAll, Get_append, h21]
    · rw [GetValue_of_get hcn k2, GetValue_of_get hn2 k2, hfl, hf2, hf1]
      rcases hf with rfl | rfl
      · rfl
      · simp only [appendAll, Get_append, h12]

/-- C8 amended, at the heap `demo`, adding two fields with integer keys to node `1` in
the order opposite to the sequential derivations: the lookups on the two keys agree
with the sequential derivations, they find the two entries, and the key `1`, which is
not in the map, is looked up as on node `1`. -/
theorem C8_witness :
    Reachable demo ∧ 1 < demo.nodes.length ∧
    (∃ s1 c1 s2 c2, WithValue demo 1 5 (some 50) = Except.ok (s1, c1) ∧
      WithValue s1 c1 6 (some 60) = Except.ok (s2, c2) ∧
      ∃ s3 c3, WithFields demo 1 [(6, some 60), (5, some 50)] = Except.ok (s3, c3) ∧
        GetValue s3 c3 5 = GetValue s2 c2 5 ∧ GetValue s3 c3 6 = GetValue s2 c2 6) ∧
    (∃ s3 c3, WithFields demo 1 [(6, some 60), (5, some 50)] = Except.ok (s3, c3) ∧
      GetValue s3 c3 5 = Except.ok (some 50, true) ∧
      GetValue s3 c3 6 = Except.ok (some 60, true) ∧
      GetValue s3 c3 1 = GetValue demo 1 1) := by
  obtain ⟨s1, c1, s2, c2, h1, h2, h3⟩ :=
    (C8_WithFields_agrees_with_WithValue demo 1 (reachable_after demoOps demo rfl)
      (by decide)).2 5 6 (some 50) (some 60) rfl rfl
  obtain ⟨s3, c3, hw, hin, hout⟩ :=
    (C8_WithFields_agrees_with_WithValue demo 1 (reachable_after demoOps demo rfl)
      (by decide)).1 [(6, some 60), (5, some 50)]
  exact ⟨reachable_after demoOps demo rfl, by decide,
    ⟨s1, c1, s2, c2, h1, h2, h3 [(6, some 60), (5, some 50)] (Or.inr rfl)⟩,
    ⟨s3, c3, hw, hin 5 5 (some 50) [(6, some 60)] [] rfl rfl (by simp),
      hin 6 6 (some 60) [] [(5, some 50)] rfl rfl (by decide),
      hout 1 (by decide)⟩⟩

/-- C9 fails on the code for the empty map: `WithFields` with no entries returns the
receiver itself and allocates nothing, so on the fresh root `0`, which is Live, `Cancel`
on the returned context cancels the root. -/
theorem C9_empty_fields_returns_the_receiver :
    (∀ (s : State Nat Nat) (c : Nat), WithFields s c [] = Except.ok (s, c)) ∧
    WithFields rootOnly 0 [] = Except.ok (rootOnly, 0) ∧
    rootOnly.nodes.length = 1 ∧ rootOnly.reason 0 = none ∧
    (Cancel rootOnly 0).map (fun s1 => s1.reason 0) = Except.ok (some Err.ErrCanceled) :=
  ⟨fun _ _ => rfl, rfl, rfl, rfl, rfl⟩

theorem untouchedOutside_of_cascade {s s1 : State K V} (h : Inv s) {e : Err} {N : Nat}
    (hc : Cascade (some e) N (fun i => i = N ∨ Descendant s.parentOf N i) s s1) :
    UntouchedOutside s s1 N := by
  have hnode : ∀ i : Nat, i ≠ N → ¬ Descendant s.parentOf N i →
      s1.nodes[i]? = s.nodes[i]? := by
    intro i hi hnd
    cases hq : s.nodes[i]? with
    | none => exact hc.get_none hq
    | some c =>
      rcases hc.2 i c hq with h1 | ⟨_, hR, _⟩
      · exact h1
      · rcases hR with hR | hR
        · exact absurd hR hi
        · exact absurd hR hnd
  have hreason : ∀ i : Nat, i ≠ N → ¬ Descendant s.parentOf N i →
      s1.reason i = s.reason i := by
    intro i hi hnd
    unfold State.reason
    rw [hnode i hi hnd]
  refine ⟨hnode, fun A hA => ?_, fun S hS hpar => ?_⟩
  · have hlt := h.descendant_lt hA
    refine hreason A (by omega) (fun hd => ?_)
    have := h.descendant_lt hd
    omega
  · refine hreason S hS (fun hd => ?_)
    obtain ⟨P, hP⟩ : ∃ P, s.parentOf S = some P := by
      cases hd with
      | child hp => exact ⟨_, hp⟩
      | trans _ hp => exact ⟨_, hp⟩
    have hPN : s.parentOf N = some P := by rw [← hpar]; exact hP
    have hlt := h.parent_lt N P hPN
    rcases hd.parent_mem hP with hpn | hpd
    · omega
    · have := h.descendant_lt hpd
      omega

/-- C10: cancellation never propagates upward or sideways.  In every reachable heap,
`Cancel` on `N` and the timer owned by `N` return, and leave every node other than `N`
and the descendants of `N` unchanged; every ancestor and every sibling of `N` keeps the
reason (or the Live state) it had. -/
theorem C10_cancellation_stays_in_the_subtree (s : State K V) (N : Nat)
    (hs : Reachable s) (hN : N < s.nodes.length) :
    (∃ s1, Cancel s N = Except.ok s1 ∧ UntouchedOutside s s1 N) ∧
    (∀ (n : context K V) (k : Nat) (tm : Timer), s.nodes[N]? = some n →
      n.timer = some k → s.timers[k]? = some tm → tm.state = TimerState.armed →
      ∃ s1, timerFires s k = Except.ok s1 ∧ UntouchedOutside s s1 N) := by
  have h := reachable_inv hs
  constructor
  · obtain ⟨s1, hcan, hcas, _, _⟩ := Cancel_cascade h hN
    exact ⟨s1, hcan, untouchedOutside_of_cascade h hcas⟩
  · intro n k tm hn hk htm ha
    obtain ⟨tm1, htm1, htg⟩ := h.timer_owner N n k hn hk
    rw [htm] at htm1
    cases htm1
    obtain ⟨s1, htf, hcas, _, _⟩ := timerFires_cascade h htm ha
    rw [htg] at hcas
    exact ⟨s1, htf, untouchedOutside_of_cascade h hcas⟩

/-- C10 at the heap `demo`, canceling the child `1` and running the timer of the
grandchild `2`. -/
theorem C10_witness :
    Reachable demo ∧ 1 < demo.nodes.length ∧
    (∃ s1, Cancel demo 1 = Except.ok s1 ∧ UntouchedOutside demo s1 1) ∧
    (∃ s1, timerFires demo 0 = Except.ok s1 ∧ UntouchedOutside demo s1 2) :=
  ⟨reachable_after demoOps demo rfl, by decide,
    (C10_cancellation_stays_in_the_subtree demo 1 (reachable_after demoOps demo rfl)
      (by decide)).1,
    (C10_cancellation_stays_in_the_subtree demo 2 (reachable_after demoOps demo rfl)
      (by decide)).2 _ 0 _ rfl rfl rfl rfl⟩

theorem Get_of_inv {s : State K V} (h : Inv s) {i : Nat} {c : context K V}
    (hc : s.nodes[i]? = some c) : Get s i = Except.ok c.trigger.value := by
  simp [Get, hc, h.unlocked i c hc]

/-- C13: in every reachable heap, for every node `N` and instant `now`,
`TimeRemaining` returns `(0, false)` when `N` has no deadline, `(0, false)` when `N`
holds a reason (whichever it is, deadline or not), and otherwise
`(max 0 (deadline - now), true)`; the returned duration is never negative. -/
theorem C13_TimeRemaining_by_cases (s : State K V) (N : Nat) (now : Int)
    (n : context K V) (hs : Reachable s) (hn : s.nodes[N]? = some n) :
    TimeRemaining s N now = Except.ok
      (if n.deadline = 0 then (0, false)
       else if s.reason N ≠ none then (0, false)
       else (max 0 (n.deadline - now), true)) ∧
    ∀ (r : Int) (present : Bool), TimeRemaining s N now = Except.ok (r, present) → 0 ≤ r := by
  have h := reachable_inv hs
  have hget := Get_of_inv h hn
  have hr := reason_of_get hn
  have key : TimeRemaining s N now = Except.ok
      (if n.deadline = 0 then (0, false)
       else if s.reason N ≠ none then (0, false)
       else (max 0 (n.deadline - now), true)) := by
    unfold TimeRemaining
    rw [hn]
    by_cases hd : n.deadline = 0
    · simp [hd]
    · simp only [if_neg hd, hget, hr]
      cases hv : n.trigger.value with
      | some v => simp
      | none =>
        by_cases hlt : now < n.deadline
        · have : max 0 (n.deadline - now) = n.deadline - now := by
            apply max_eq_right
            omega
          simp [hlt, this]
        · have : max 0 (n.deadline - now) = 0 := by
            apply max_eq_left
            omega
          simp [hlt, this]
  refine ⟨key, fun r present hrp => ?_⟩
  rw [key] at hrp
  injection hrp with hrp
  by_cases hd : n.deadline = 0
  · rw [if_pos hd] at hrp
    injection hrp with h1 _
    omega
  · rw [if_neg hd] at hrp
    by_cases hf : s.reason N ≠ none
    · rw [if_pos hf] at hrp
      injection hrp with h1 _
      omega
    · rw [if_neg hf] at hrp
      injection hrp with h1 _
      rw [← h1]
      exact le_max_left _ _

/-- C13 at the heap `demo`: the grandchild `2` is Live with deadline `105`. -/
theorem C13_witness :
    Reachable demo ∧
    demo.nodes[2]? = some (context.mk (some 1) (pairs.node pairs.nil 1 (some 2))
      newTrigger (some 0) 105 true) ∧
    TimeRemaining demo 2 103 = Except.ok (2, true) ∧
    TimeRemaining demo 2 200 = Except.ok (0, true) :=
  ⟨reachable_after demoOps demo rfl, rfl,
    (C13_TimeRemaining_by_cases demo 2 103 _ (reachable_after demoOps demo rfl) rfl).1,
    (C13_TimeRemaining_by_cases demo 2 200 _ (reachable_after demoOps demo rfl) rfl).1⟩

/-- C17: wait handle and reason stay in step.  In every reachable heap and for every
node `N`, the `Terminated` channel is closed exactly when the trigger holds a reason,
and that reason is `ErrCanceled` or `ErrTimeout`; `Error` blocks while `N` is Live; once
`N` holds a reason `Error` returns, and returns that reason; whenever `Error` returns
it returns the stored reason, one of the two, never nil; and after `Cancel` on `N`,
which returns, `Error` on `N` returns one of the two. -/
theorem C17_wait_handle_and_reason_in_step (s : State K V) (N : Nat)
    (hs : Reachable s) (hN : N < s.nodes.length) :
    (Terminated s N = Except.ok true ↔ s.reason N ≠ none) ∧
    (Terminated s N = Except.ok false ↔ s.reason N = none) ∧
    (∀ r, s.reason N = some r → r = Err.ErrCanceled ∨ r = Err.ErrTimeout) ∧
    (s.reason N = none → Error s N = Except.ok none) ∧
    (∀ r, s.reason N = some r → Error s N = Except.ok (some (some r))) ∧
    (∀ v, Error s N = Except.ok (some v) →
      s.reason N = v ∧ (v = some Err.ErrCanceled ∨ v = some Err.ErrTimeout)) ∧
    (∃ s1 r, Cancel s N = Except.ok s1 ∧ s1.reason N = some r ∧
      Terminated s1 N = Except.ok true ∧ Error s1 N = Except.ok (some (some r)) ∧
      (r = Err.ErrCanceled ∨ r = Err.ErrTimeout)) := by
  have h := reachable_inv hs
  obtain ⟨n, hn⟩ := get_of_lt hN
  have hr := reason_of_get hn
  have hterm : Terminated s N = Except.ok n.trigger.waiter := by
    simp [Terminated, Fired, hn]
  have htwo : ∀ r : Err, r = Err.ErrCanceled ∨ r = Err.ErrTimeout := by
    intro r
    cases r
    · exact Or.inr rfl
    · exact Or.inl rfl
  have hcancel : ∃ s1 r, Cancel s N = Except.ok s1 ∧ s1.reason N = some r ∧
      Terminated s1 N = Except.ok true ∧ Error s1 N = Except.ok (some (some r)) ∧
      (r = Err.ErrCanceled ∨ r = Err.ErrTimeout) := by
    obtain ⟨s1, hcan, _, hf, hi⟩ := Cancel_cascade h hN
    have hne := fired_iff_reason.mp hf
    cases hr1 : s1.reason N with
    | none => exact absurd hr1 hne
    | some r =>
      exact ⟨s1, r, hcan, hr1, Terminated_of_fired hi hf, Error_of_reason hi hr1, htwo r⟩
  cases hv : n.trigger.value with
  | none =>
    have hl := h.live N n hn hv
    have herr := Error_of_live h hn hv
    rw [hr, hv, hterm, hl.1, herr]
    refine ⟨by simp, by simp, fun r hr1 => (by cases hr1), fun _ => rfl,
      fun r hr1 => (by cases hr1), fun v hv1 => ?_, hcancel⟩
    injection hv1 with hv1
    cases hv1
  | some r =>
    have hd := h.dead N n hn (by rw [hv]; simp)
    have herr := Error_of_reason h (by rw [hr]; exact hv)
    rw [hr, hv, hterm, hd.1, herr]
    refine ⟨by simp, by simp, fun r1 _ => htwo r1, fun hc => (by cases hc),
      fun r1 hr1 => ?_, fun v hv1 => ?_, hcancel⟩
    · injection hr1 with hr1
      rw [hr1]
    · injection hv1 with hv1
      injection hv1 with hv1
      subst hv1
      refine ⟨rfl, ?_⟩
      rcases htwo r with h1 | h1
      · exact Or.inl (by rw [h1])
      · exact Or.inr (by rw [h1])

/-- C17 at the heap `demoCanceled`, where node `2` has been canceled by the cascade from
the root: its channel is closed and `Error` on it returns `ErrCanceled`; and at the
heap `demo`, where node `2` is Live: `Error` blocks, and returns `ErrCanceled` after
`Cancel`. -/
theorem C17_witness :
    Reachable demoCanceled ∧ 2 < demoCanceled.nodes.length ∧
    demoCanceled.reason 2 = some Err.ErrCanceled ∧
    (Terminated demoCanceled 2 = Except.ok true ↔ demoCanceled.reason 2 ≠ none) ∧
    Error demoCanceled 2 = Except.ok (some (some Err.ErrCanceled)) ∧
    (∀ v, Error demoCanceled 2 = Except.ok (some v) →
      demoCanceled.reason 2 = v ∧ (v = some Err.ErrCanceled ∨ v = some Err.ErrTimeout)) ∧
    Reachable demo ∧ Error demo 2 = Except.ok none ∧
    (∃ s1 r, Cancel demo 2 = Except.ok s1 ∧ s1.reason 2 = some r ∧
      Terminated s1 2 = Except.ok true ∧ Error s1 2 = Except.ok (some (some r)) ∧
      (r = Err.ErrCanceled ∨ r = Err.ErrTimeout)) :=
  ⟨reachable_after (demoOps ++ [Op.Cancel 0]) demoCanceled rfl, by decide, rfl,
    (C17_wait_handle_and_reason_in_step demoCanceled 2
      (reachable_after (demoOps ++ [Op.Cancel 0]) demoCanceled rfl) (by decide)).1,
    (C17_wait_handle_and_reason_in_step demoCanceled 2
      (reachable_after (demoOps ++ [Op.Cancel 0]) demoCanceled rfl) (by decide)).2.2.2.2.1
      Err.ErrCanceled rfl,
    (C17_wait_handle_and_reason_in_step demoCanceled 2
      (reachable_after (demoOps ++ [Op.Cancel 0]) demoCanceled rfl) (by decide)).2.2.2.2.2.1,
    reachable_after demoOps demo rfl,
    (C17_wait_handle_and_reason_in_step demo 2 (reachable_after demoOps demo rfl)
      (by decide)).2.2.2.1 rfl,
    (C17_wait_handle_and_reason_in_step demo 2 (reachable_after demoOps demo rfl)
      (by decide)).2.2.2.2.2.2⟩

theorem WithTimeout_node {s : State K V} (h : Inv s) {c : Nat} {p : context K V}
    (hp : s.nodes[c]? = some p) (now timeout : Int) :
    ∃ s1 cn, WithTimeout s c now timeout = Except.ok (s1, s.nodes.length) ∧ Inv s1 ∧
      (Reachable s → Reachable s1) ∧ Keeps s s1 ∧
      s1.nodes[s.nodes.length]? = some cn ∧ cn.parent = some c ∧
      cn.fields = p.fields ∧ cn.trigger = (p.child c).trigger ∧
      ((p.deadline ≠ 0 ∧ p.deadline < now + timeout) →
        cn.deadline = p.deadline ∧ cn.timer = none ∧ s1.timers = s.timers) ∧
      (¬ (p.deadline ≠ 0 ∧ p.deadline < now + timeout) →
        cn.deadline = now + timeout ∧ cn.timer = some s.timers.length ∧
        s1.timers = s.timers ++ [Timer.mk s.nodes.length (now + timeout) TimerState.armed]) := by
  have hw := WithTimeout_eq h hp now timeout
  have hi := h.of_WithTimeout hp now timeout
  have hslot1 := (child_slot (s.nodes.set c (p.subscribe s.nodes.length))
    ({ p.child c with deadline := p.deadline } : context K V)
    { p.child c with deadline := p.deadline }).1
  have hslot2 := (child_slot (s.nodes.set c (p.subscribe s.nodes.length))
    ({ p.child c with deadline := now + timeout, timer := some s.timers.length } :
      context K V)
    { p.child c with deadline := now + timeout, timer := some s.timers.length }).1
  rw [List.length_set] at hslot1 hslot2
  by_cases hd : p.deadline ≠ 0 ∧ p.deadline < now + timeout
  · rw [if_pos hd] at hw hi
    exact ⟨_, _, hw, hi,
      fun hs => Reachable.step (Op.WithTimeout c now timeout) hs
        (by simp [step, hw, Except.map]),
      Keeps.with_child s c p _ hp _, hslot1, rfl, rfl, rfl,
      fun _ => ⟨rfl, rfl, rfl⟩, fun hn => absurd hd hn⟩
  · rw [if_neg hd] at hw hi
    exact ⟨_, _, hw, hi,
      fun hs => Reachable.step (Op.WithTimeout c now timeout) hs
        (by simp [step, hw, Except.map]),
      Keeps.with_child s c p _ hp _, hslot2, rfl, rfl, rfl,
      fun hy => absurd hy hd, fun _ => ⟨rfl, rfl, rfl⟩⟩

/-- C12, as stated, fails at equality: under the timeout child `1` (deadline `105`) a
`WithTimeout` that requests exactly `105` gets a timer of its own, although the
parent's deadline is not strictly after the requested instant. -/
theorem C12_counterexample :
    ¬ ∀ (s s1 : State Nat Nat) (P c : Nat) (now timeout : Int) (p cn : context Nat Nat),
      Reachable s → s.nodes[P]? = some p →
      WithTimeout s P now timeout = Except.ok (s1, c) → s1.nodes[c]? = some cn →
      (cn.timer ≠ none ↔ (p.deadline = 0 ∨ now + timeout < p.deadline)) := by
  intro hall
  have h := hall (after timeoutOps) (after (timeoutOps ++ [Op.WithTimeout 1 100 5])) 1 2
    100 5 (context.mk (some 0) pairs.nil newTrigger (some 0) 105 true)
    (context.mk (some 1) pairs.nil newTrigger (some 1) 105 true)
    (reachable_after timeoutOps (after timeoutOps) rfl) rfl (by rfl) (by decide)
  have h1 := h.mp (by simp)
  simp at h1

/-- C12, amended: in every reachable heap, for every node `P` and `requested = now +
timeout`, `WithTimeout` returns a child that gets its own armed timer, set for
`requested`, with deadline `requested`, if and only if `P` has no deadline or the
deadline of `P` is at or after `requested`; when the deadline of `P` is strictly
earlier than `requested` the child takes the deadline of `P` and no timer is
created. -/
theorem C12_timer_armed_unless_parent_strictly_earlier (s : State K V) (P : Nat)
    (now timeout : Int) (p : context K V) (hs : Reachable s)
    (hp : s.nodes[P]? = some p) :
    ∃ s1 c cn, WithTimeout s P now timeout = Except.ok (s1, c) ∧
      s1.nodes[c]? = some cn ∧
      (cn.timer ≠ none ↔ (p.deadline = 0 ∨ now + timeout ≤ p.deadline)) ∧
      ((p.deadline = 0 ∨ now + timeout ≤ p.deadline) →
        cn.deadline = now + timeout ∧ cn.timer = some s.timers.length ∧
        s1.timers = s.timers ++ [Timer.mk c (now + timeout) TimerState.armed]) ∧
      ((p.deadline ≠ 0 ∧ p.deadline < now + timeout) →
        cn.deadline = p.deadline ∧ cn.timer = none ∧ s1.timers = s.timers) := by
  obtain ⟨s1, cn, hw, _, _, _, hcn, _, _, _, hinh, harm⟩ :=
    WithTimeout_node (reachable_inv hs) hp now timeout
  have hiff : ¬ (p.deadline ≠ 0 ∧ p.deadline < now + timeout) ↔
      (p.deadline = 0 ∨ now + timeout ≤ p.deadline) := by
    constructor
    · intro hn
      by_cases h0 : p.deadline = 0
      · exact Or.inl h0
      · refine Or.inr ?_
        by_contra hlt
        exact hn ⟨h0, by omega⟩
    · rintro (h0 | hle) ⟨hne, hlt⟩
      · exact hne h0
      · omega
  refine ⟨s1, _, cn, hw, hcn, ?_, fun hy => harm (hiff.mpr hy), hinh⟩
  constructor
  · intro ht
    by_contra hn
    have := hinh (by
      by_contra hc
      exact hn (hiff.mp hc))
    exact ht this.2.1
  · intro hy
    rw [(harm (hiff.mpr hy)).2.1]
    simp

/-- C12 amended, at the heap with the timeout child `1` of deadline `105`, requesting
`105` again. -/
theorem C12_witness :
    Reachable (after timeoutOps) ∧
    (after timeoutOps).nodes[1]? =
      some (context.mk (some 0) pairs.nil newTrigger (some 0) 105 true) ∧
    ∃ s1 c cn, WithTimeout (after timeoutOps) 1 100 5 = Except.ok (s1, c) ∧
      s1.nodes[c]? = some cn ∧
      (cn.timer ≠ none ↔ ((105 : Int) = 0 ∨ (100 : Int) + 5 ≤ 105)) := by
  obtain ⟨s1, c, cn, h1, h2, h3, _⟩ :=
    C12_timer_armed_unless_parent_strictly_earlier (after timeoutOps) 1 100 5 _
      (reachable_after timeoutOps (after timeoutOps) rfl) rfl
  exact ⟨reachable_after timeoutOps (after timeoutOps) rfl, rfl, s1, c, cn, h1, h2, h3⟩

/-- C14 fails on the code: the timeout child `1` of the heap after `expiredOps` has
deadline `105` and has been canceled by its timer with `ErrTimeout`; at instant `200`,
after the timeout has elapsed, `TimeRemaining` returns `(0, false)`, not `(0, true)`.
Likewise node `2` of `demoCanceled`, which has a deadline and was canceled with
`ErrCanceled`, reports `timeoutPresent = false` although a timeout has been set. -/
theorem C14_TimeRemaining_after_timeout_reports_absent :
    (after expiredOps).nodes[1]? =
      some (context.mk (some 0) pairs.nil (firedTrigger (some Err.ErrTimeout)) (some 0) 105
        true) ∧
    TimeRemaining (after expiredOps) 1 200 = Except.ok (0, false) ∧
    demoCanceled.nodes[2]? =
      some (context.mk (some 1) (pairs.node pairs.nil 1 (some 2))
        (firedTrigger (some Err.ErrCanceled)) (some 0) 105 true) ∧
    TimeRemaining demoCanceled 2 103 = Except.ok (0, false) :=
  ⟨rfl, rfl, rfl, rfl⟩

/-! ## Deadlines -/

theorem deadlineInv_extend {s s1 : State K V} (hi : Inv s) (hk : Keeps s s1)
    (hd : DeadlineInv s)
    (hnew : ∀ (i p : Nat) (c cp : context K V), s.nodes.length ≤ i →
      s1.nodes[i]? = some c → c.parent = some p → s1.nodes[p]? = some cp →
      cp.deadline ≠ 0 → c.deadline ≠ 0 ∧ c.deadline ≤ cp.deadline) :
    DeadlineInv s1 := by
  intro i p c cp hc hpar hcp hne
  by_cases hil : i < s.nodes.length
  · obtain ⟨c0, hc0⟩ := get_of_lt hil
    obtain ⟨c1, hc1, hp1, _, _, hd1, _⟩ := hk i c0 hc0
    rw [hc] at hc1
    injection hc1 with hc1
    subst hc1
    have hpar0 : s.parentOf i = some p := by
      unfold State.parentOf
      rw [hc0]
      simp [← hp1, hpar]
    have hpl := hi.parent_lt i p hpar0
    obtain ⟨cp0, hcp0⟩ := get_of_lt (show p < s.nodes.length by omega)
    obtain ⟨cp1, hcp1, _, _, _, hdp, _⟩ := hk p cp0 hcp0
    rw [hcp] at hcp1
    injection hcp1 with hcp1
    subst hcp1
    rw [hd1, hdp]
    exact hd i p c0 cp0 hc0 (by rw [← hp1]; exact hpar) hcp0 (by rw [← hdp]; exact hne)
  · exact hnew i p c cp (by omega) hc hpar hcp hne

theorem deadlineInv_grow {s : State K V} (hi : Inv s) (hd : DeadlineInv s) {c : Nat}
    {p : context K V} (hp : s.nodes[c]? = some p) (ch : context K V)
    (hpar : ch.parent = some c)
    (hch : p.deadline ≠ 0 → ch.deadline ≠ 0 ∧ ch.deadline ≤ p.deadline)
    (tms : List Timer) :
    DeadlineInv (State.mk (s.nodes.set c (p.subscribe s.nodes.length) ++ [ch]) tms) := by
  have hclt := lt_length_of_get hp
  refine deadlineInv_extend hi (Keeps.with_child s c p ch hp tms) hd ?_
  intro i q ci cq hil hci hq hcq hne
  rcases grown_get hp _ ch i ci hci with ⟨h1, _⟩ | ⟨h1, h2⟩ | ⟨_, h1, _⟩
  · omega
  · subst h2
    rw [hpar] at hq
    injection hq with hq
    subst hq
    rcases grown_get hp _ ci c cq hcq with ⟨_, h3⟩ | ⟨h3, _⟩ | ⟨h3, _⟩
    · subst h3
      have hsd := (subscribe_shape p s.nodes.length).2.2.2.1
      rw [hsd] at hne ⊢
      exact hch hne
    · omega
    · exact absurd rfl h3
  · omega

theorem deadlineInv_step {s s1 : State K V} (hs : Reachable s) (hd : DeadlineInv s)
    (op : Op K V) (hok : op.clockOk = true) (hst : step s op = Except.ok s1) :
    DeadlineInv s1 := by
  have hi := reachable_inv hs
  have hWV : ∀ (σ : State K V) (c : Nat) (k : K) (v : Option V) (σ1 : State K V) (c1 : Nat),
      (Inv σ ∧ DeadlineInv σ) → WithValue σ c k v = Except.ok (σ1, c1) →
      (Inv σ1 ∧ DeadlineInv σ1) := by
    intro σ c k v σ1 c1 ⟨hiσ, hdσ⟩ hw
    cases hc : σ.nodes[c]? with
    | none =>
      rw [WithValue_invalid σ c k v hc] at hw
      cases hw
    | some p =>
      rw [WithValue_eq hiσ hc k v] at hw
      injection hw with hw
      injection hw with h1 _
      rw [← h1]
      refine ⟨hiσ.of_WithValue hc k v, deadlineInv_grow hiσ hdσ hc _ ?_ ?_ _⟩
      · rfl
      · exact fun hne => ⟨hne, le_refl _⟩
  cases op with
  | New =>
    simp only [step] at hst
    injection hst with hst
    rw [← hst]
    refine deadlineInv_extend hi (Keeps.after_New s) hd ?_
    intro i q ci cq hil hci hq _ _
    have hci1 : (s.nodes ++ [context.mk none pairs.nil newTrigger none 0 false])[i]? =
        some ci := hci
    rw [get_append_one] at hci1
    by_cases h1 : i = s.nodes.length
    · rw [if_pos h1] at hci1
      injection hci1 with hci1
      rw [← hci1] at hq
      cases hq
    · rw [if_neg h1] at hci1
      have := lt_length_of_get hci1
      omega
  | WithValue c key value =>
    simp only [step] at hst
    cases hq : WithValue s c key value with
    | error e =>
      rw [hq] at hst
      cases hst
    | ok r =>
      obtain ⟨σ1, c1⟩ := r
      rw [hq] at hst
      injection hst with hst
      have hst1 : σ1 = s1 := hst
      rw [← hst1]
      exact (hWV s c key value σ1 c1 ⟨hi, hd⟩ hq).2
  | WithFields c fields =>
    simp only [step] at hst
    cases hq : WithFields s c fields with
    | error e =>
      rw [hq] at hst
      cases hst
    | ok r =>
      obtain ⟨σ1, c1⟩ := r
      rw [hq] at hst
      injection hst with hst
      have hst1 : σ1 = s1 := hst
      rw [← hst1]
      exact (WithFields_induct (fun σ => Inv σ ∧ DeadlineInv σ) hWV fields s c σ1 c1
        ⟨hi, hd⟩ hq).2
  | WithTimeout c now timeout =>
    simp only [step] at hst
    have hclock : now + timeout ≠ 0 := by
      simpa [Op.clockOk] using hok
    cases hc : s.nodes[c]? with
    | none =>
      rw [WithTimeout_invalid s c now timeout hc] at hst
      cases hst
    | some p =>
      rw [WithTimeout_eq hi hc now timeout] at hst
      injection hst with hst
      rw [← hst]
      by_cases hdl : p.deadline ≠ 0 ∧ p.deadline < now + timeout
      · rw [if_pos hdl]
        refine deadlineInv_grow hi hd hc _ ?_ ?_ _
        · rfl
        · exact fun hne => ⟨hne, le_refl _⟩
      · rw [if_neg hdl]
        refine deadlineInv_grow hi hd hc _ ?_ ?_ _
        · rfl
        · intro hne
          refine ⟨hclock, ?_⟩
          show now + timeout ≤ p.deadline
          by_contra hlt
          exact hdl ⟨hne, by omega⟩
  | Cancel c =>
    obtain ⟨_, hk⟩ := step_inv hi (Op.Cancel c) hst
    simp only [step] at hst
    cases hc : s.nodes[c]? with
    | none =>
      rw [Cancel_invalid s c hc] at hst
      cases hst
    | some p =>
      obtain ⟨s2, hcan, hcas, _, _⟩ := Cancel_cascade hi (lt_length_of_get hc)
      rw [hcan] at hst
      injection hst with hst
      subst hst
      refine deadlineInv_extend hi hk hd ?_
      intro i q ci cq hil hci _ _ _
      have := lt_length_of_get hci
      rw [hcas.1] at this
      omega
  | timerFires k =>
    obtain ⟨_, hk1⟩ := step_inv hi (Op.timerFires k) hst
    simp only [step] at hst
    by_cases ha : ∃ tm, s.timers[k]? = some tm ∧ tm.state = TimerState.armed
    · obtain ⟨tm, htm, hst0⟩ := ha
      obtain ⟨s2, htf, hcas, _, _⟩ := timerFires_cascade hi htm hst0
      rw [htf] at hst
      injection hst with hst
      subst hst
      refine deadlineInv_extend hi hk1 hd ?_
      intro i q ci cq hil hci _ _ _
      have := lt_length_of_get hci
      rw [hcas.1] at this
      omega
    · rw [timerFires_idle s k (fun tm hk hs0 => ha ⟨tm, hk, hs0⟩)] at hst
      injection hst with hst
      rw [← hst]
      exact hd

theorem clockReachable_reachable {s : State K V} (h : ClockReachable s) : Reachable s := by
  induction h with
  | empty => exact Reachable.empty
  | step op _ _ hst ih => exact Reachable.step op ih hst

theorem clockReachable_deadlineInv {s : State K V} (h : ClockReachable s) :
    DeadlineInv s := by
  induction h with
  | empty =>
    intro i p c cp hc
    simp [State.empty] at hc
  | step op hprev hok hst ih =>
    exact deadlineInv_step (clockReachable_reachable hprev) ih op hok hst

theorem clockReachable_run {s : State K V} (h : ClockReachable s) :
    ∀ (ops : List (Op K V)) (s1 : State K V), ops.all Op.clockOk = true →
      run s ops = Except.ok s1 → ClockReachable s1 := by
  intro ops
  induction ops generalizing s with
  | nil =>
    intro s1 _ hr
    simp only [run] at hr
    injection hr with hr
    rw [← hr]
    exact h
  | cons op rest ih =>
    intro s1 hall hr
    simp only [List.all_cons, Bool.and_eq_true] at hall
    simp only [run] at hr
    cases hst : step s op with
    | error e =>
      rw [hst] at hr
      cases hr
    | ok s2 =>
      rw [hst] at hr
      exact ih (ClockReachable.step op h hall.1 hst) s1 hall.2 hr

theorem clockReachable_after (ops : List (Op K V)) (s1 : State K V)
    (hall : ops.all Op.clockOk = true) (h : run State.empty ops = Except.ok s1) :
    ClockReachable (after ops) := by
  have : after ops = s1 := by
    unfold after
    rw [h]
  rw [this]
  exact clockReachable_run ClockReachable.empty ops s1 hall h

theorem WithValue_shape {s : State K V} (h : Inv s) {c : Nat} {p : context K V}
    (hp : s.nodes[c]? = some p) (key : K) (value : Option V) :
    ∃ s1 cn, WithValue s c key value = Except.ok (s1, s.nodes.length) ∧
      s1.nodes[s.nodes.length]? = some cn ∧ cn.parent = some c ∧
      cn.deadline = p.deadline ∧ cn.timer = none ∧ s1.timers = s.timers ∧
      cn.trigger = (p.child c).trigger := by
  have hw := WithValue_eq h hp key value
  have hslot := (child_slot (s.nodes.set c (p.subscribe s.nodes.length))
    ({ p.child c with fields := p.fields.append key value } : context K V)
    { p.child c with fields := p.fields.append key value }).1
  rw [List.length_set] at hslot
  exact ⟨_, _, hw, hslot, rfl, rfl, rfl, rfl, rfl⟩

theorem TimeRemaining_of_inv {s : State K V} (h : Inv s) {N : Nat} {n : context K V}
    (hn : s.nodes[N]? = some n) (now : Int) :
    ∃ rem present, TimeRemaining s N now = Except.ok (rem, present) ∧
      (rem = 0 ∨ (n.deadline ≠ 0 ∧ rem = n.deadline - now)) := by
  have hget := Get_of_inv h hn
  unfold TimeRemaining
  rw [hn]
  by_cases hd : n.deadline = 0
  · exact ⟨0, false, by simp [hd], Or.inl rfl⟩
  · simp only [if_neg hd, hget]
    cases hv : n.trigger.value with
    | some v => exact ⟨0, false, rfl, Or.inl rfl⟩
    | none =>
      by_cases hlt : now < n.deadline
      · exact ⟨n.deadline - now, true, by simp [hlt], Or.inr ⟨hd, rfl⟩⟩
      · exact ⟨0, true, by simp [hlt], Or.inl rfl⟩

theorem deadline_along_descendant {s : State K V} (hd : DeadlineInv s) {A D : Nat}
    (h : Descendant s.parentOf A D) :
    ∀ (a d : context K V), s.nodes[A]? = some a → s.nodes[D]? = some d →
      a.deadline ≠ 0 → d.deadline ≠ 0 ∧ d.deadline ≤ a.deadline := by
  have parentNode : ∀ (i q : Nat) (ci : context K V), s.nodes[i]? = some ci →
      s.parentOf i = some q → ci.parent = some q := by
    intro i q ci hci hq
    unfold State.parentOf at hq
    rw [hci] at hq
    exact hq
  induction h with
  | child hp =>
    intro a d ha hdn hne
    exact hd _ A d a hdn (parentNode _ A d hdn hp) ha hne
  | trans hprev hp ih =>
    intro a d ha hdn hne
    rename_i q D1
    have hql : q < s.nodes.length := by
      cases hprev with
      | child h0 => exact lt_length_of_parentOf h0
      | trans _ h0 => exact lt_length_of_parentOf h0
    obtain ⟨cq, hcq⟩ := get_of_lt hql
    have h1 := ih a cq ha hcq hne
    have h2 := hd _ q d cq hdn (parentNode _ q d hdn hp) hcq h1.1
    exact ⟨h2.1, le_trans h2.2 h1.2⟩

/-- C11: tightest deadline wins.  In every heap reached by runs whose `WithTimeout`
calls never request the zero time: `WithTimeout` on `P` returns a child with deadline
`now + timeout` when `P` has none and the earlier of `now + timeout` and the deadline
of `P` otherwise; `WithValue` and `WithFields` return a node with the deadline of `P`;
every descendant of a node with a deadline has a deadline that is not later; and for
`A = WithTimeout(R, dA)` and `B = WithTimeout(A, dB)`, queried no earlier than `A` was
made, `TimeRemaining` on `B` reports at most `dA`. -/
theorem C11_tightest_deadline_wins (s : State K V) (hs : ClockReachable s) :
    (∀ (P : Nat) (p : context K V) (now timeout : Int), s.nodes[P]? = some p →
      ∃ s1 c cn, WithTimeout s P now timeout = Except.ok (s1, c) ∧
        s1.nodes[c]? = some cn ∧
        cn.deadline = (if p.deadline = 0 then now + timeout
          else min (now + timeout) p.deadline)) ∧
    (∀ (P : Nat) (p : context K V) (key : K) (value : Option V), s.nodes[P]? = some p →
      ∃ s1 c cn, WithValue s P key value = Except.ok (s1, c) ∧
        s1.nodes[c]? = some cn ∧ cn.deadline = p.deadline) ∧
    (∀ (P : Nat) (p : context K V) (fields : Fields K V), s.nodes[P]? = some p →
      ∃ s1 c cn, WithFields s P fields = Except.ok (s1, c) ∧
        s1.nodes[c]? = some cn ∧ cn.deadline = p.deadline) ∧
    (∀ (A D : Nat) (a d : context K V), Descendant s.parentOf A D →
      s.nodes[A]? = some a → s.nodes[D]? = some d → a.deadline ≠ 0 →
      d.deadline ≠ 0 ∧ d.deadline ≤ a.deadline) ∧
    (∀ (R : Nat) (nowA dA nowB dB nowT : Int), R < s.nodes.length → 0 ≤ dA →
      nowA + dA ≠ 0 → nowA ≤ nowT →
      ∃ s1 A s2 B rem present, WithTimeout s R nowA dA = Except.ok (s1, A) ∧
        WithTimeout s1 A nowB dB = Except.ok (s2, B) ∧
        TimeRemaining s2 B nowT = Except.ok (rem, present) ∧ rem ≤ dA) := by
  have hr := clockReachable_reachable hs
  have hi := reachable_inv hr
  refine ⟨?_, ?_, ?_, ?_, ?_⟩
  · intro P p now timeout hp
    obtain ⟨s1, cn, hw, _, _, _, hcn, _, _, _, hinh, harm⟩ :=
      WithTimeout_node hi hp now timeout
    refine ⟨s1, _, cn, hw, hcn, ?_⟩
    by_cases hd : p.deadline ≠ 0 ∧ p.deadline < now + timeout
    · rw [(hinh hd).1, if_neg hd.1, min_eq_right (le_of_lt hd.2)]
    · rw [(harm hd).1]
      by_cases h0 : p.deadline = 0
      · rw [if_pos h0]
      · rw [if_neg h0, min_eq_left]
        by_contra hlt
        exact hd ⟨h0, by omega⟩
  · intro P p key value hp
    obtain ⟨s1, cn, hw, hcn, _, hdl, _⟩ := WithValue_shape hi hp key value
    exact ⟨s1, _, cn, hw, hcn, hdl⟩
  · intro P p fields hp
    obtain ⟨s1, new, cn, hwf, _, _, hcn, _, hdl, _⟩ := WithFields_spec fields s P p hi hp
    exact ⟨s1, new, cn, hwf, hcn, hdl⟩
  · intro A D a d hdesc ha hd hne
    exact deadline_along_descendant (clockReachable_deadlineInv hs) hdesc a d ha hd hne
  · intro R nowA dA nowB dB nowT hR hdA hclock hle
    obtain ⟨r, hr0⟩ := get_of_lt hR
    obtain ⟨s1, ca, hw1, hi1, _, _, hca, _, _, _, hinh1, harm1⟩ :=
      WithTimeout_node hi hr0 nowA dA
    obtain ⟨s2, cb, hw2, hi2, _, _, hcb, _, _, _, hinh2, harm2⟩ :=
      WithTimeout_node hi1 hca nowB dB
    obtain ⟨rem, present, htr, hrem⟩ := TimeRemaining_of_inv hi2 hcb nowT
    refine ⟨s1, _, s2, _, rem, present, hw1, hw2, htr, ?_⟩
    have hA : ca.deadline ≠ 0 ∧ ca.deadline ≤ nowA + dA := by
      by_cases hd : r.deadline ≠ 0 ∧ r.deadline < nowA + dA
      · rw [(hinh1 hd).1]
        exact ⟨hd.1, le_of_lt hd.2⟩
      · rw [(harm1 hd).1]
        exact ⟨hclock, le_refl _⟩
    have hB : cb.deadline ≤ nowA + dA := by
      by_cases hd : ca.deadline ≠ 0 ∧ ca.deadline < nowB + dB
      · rw [(hinh2 hd).1]
        exact hA.2
      · rw [(harm2 hd).1]
        have : nowB + dB ≤ ca.deadline := by
          by_contra hlt
          exact hd ⟨hA.1, by omega⟩
        omega
    rcases hrem with h0 | ⟨_, h1⟩
    · omega
    · omega

/-- C11 at the heap `demo`, for a first timeout of `10` at instant `100` and a second
of `30` at instant `101`, queried at instant `102`. -/
theorem C11_witness :
    ClockReachable demo ∧ 0 < demo.nodes.length ∧
    ∃ s1 A s2 B rem present, WithTimeout demo 0 100 10 = Except.ok (s1, A) ∧
      WithTimeout s1 A 101 30 = Except.ok (s2, B) ∧
      TimeRemaining s2 B 102 = Except.ok (rem, present) ∧ rem ≤ 10 :=
  ⟨clockReachable_after demoOps demo rfl rfl, by decide,
    (C11_tightest_deadline_wins demo (clockReachable_after demoOps demo rfl rfl)).2.2.2.2
      0 100 10 101 30 102 (by decide) (by decide) (by decide) (by decide)⟩

/-! ## No fault is reachable -/

theorem step_total {s : State K V} (h : Inv s) :
    (∀ c : Nat, c < s.nodes.length →
      (∀ (key : K) (value : Option V), ∃ r, WithValue s c key value = Except.ok r) ∧
      (∀ fields : Fields K V, ∃ r, WithFields s c fields = Except.ok r) ∧
      (∀ now timeout : Int, ∃ r, WithTimeout s c now timeout = Except.ok r) ∧
      (∃ r, Cancel s c = Except.ok r)) ∧
    (∀ k : Nat, ∃ r, timerFires s k = Except.ok r) := by
  constructor
  · intro c hc
    obtain ⟨p, hp⟩ := get_of_lt hc
    refine ⟨fun key value => ⟨_, WithValue_eq h hp key value⟩, fun fields => ?_,
      fun now timeout => ⟨_, WithTimeout_eq h hp now timeout⟩, ?_⟩
    · obtain ⟨s1, new, _, hwf, _⟩ := WithFields_spec fields s c p h hp
      exact ⟨_, hwf⟩
    · obtain ⟨s1, hcan, _⟩ := Cancel_cascade h hc
      exact ⟨_, hcan⟩
  · intro k
    by_cases ha : ∃ tm, s.timers[k]? = some tm ∧ tm.state = TimerState.armed
    · obtain ⟨tm, htm, hst⟩ := ha
      obtain ⟨s1, htf, _⟩ := timerFires_cascade h htm hst
      exact ⟨_, htf⟩
    · exact ⟨s, timerFires_idle s k (fun tm hk hs0 => ha ⟨tm, hk, hs0⟩)⟩

theorem step_fault_is_nilDeref {s : State K V} (h : Inv s) (op : Op K V) (e : Fault)
    (he : step s op = Except.error e) : e = Fault.nilDeref := by
  obtain ⟨hnode, htimer⟩ := step_total h
  have absurd_ok : ∀ {α β : Type} (f : α → β) (r : α) (x : Except Fault α),
      x = Except.ok r → Except.map f x = Except.error e → False := by
    intro α β f r x hx hm
    rw [hx] at hm
    cases hm
  cases op with
  | New =>
    simp only [step] at he
    cases he
  | WithValue c key value =>
    simp only [step] at he
    by_cases hc : c < s.nodes.length
    · obtain ⟨r, hr⟩ := (hnode c hc).1 key value
      exact (absurd_ok _ r _ hr he).elim
    · rw [WithValue_invalid s c key value (List.getElem?_eq_none (by omega))] at he
      injection he with he
      exact he.symm
  | WithFields c fields =>
    simp only [step] at he
    by_cases hc : c < s.nodes.length
    · obtain ⟨r, hr⟩ := (hnode c hc).2.1 fields
      exact (absurd_ok _ r _ hr he).elim
    · cases fields with
      | nil =>
        simp only [WithFields] at he
        cases he
      | cons kv rest =>
        obtain ⟨k, v⟩ := kv
        simp only [WithFields,
          WithValue_invalid s c k v (List.getElem?_eq_none (by omega))] at he
        injection he with he
        exact he.symm
  | WithTimeout c now timeout =>
    simp only [step] at he
    by_cases hc : c < s.nodes.length
    · obtain ⟨r, hr⟩ := (hnode c hc).2.2.1 now timeout
      exact (absurd_ok _ r _ hr he).elim
    · rw [WithTimeout_invalid s c now timeout (List.getElem?_eq_none (by omega))] at he
      injection he with he
      exact he.symm
  | Cancel c =>
    simp only [step] at he
    by_cases hc : c < s.nodes.length
    · obtain ⟨r, hr⟩ := (hnode c hc).2.2.2
      rw [hr] at he
      cases he
    · rw [Cancel_invalid s c (List.getElem?_eq_none (by omega))] at he
      injection he with he
      exact he.symm
  | timerFires k =>
    simp only [step] at he
    obtain ⟨r, hr⟩ := htimer k
    rw [hr] at he
    cases he

/-- C15: no invalid state is reachable through the public interface.  In every
reachable heap an operation can only fail on a pointer that is not in the heap: called
on a node of the heap every derivation and `Cancel` return, and so does every timer
function, so no `Subscribe` writes into a nil map, no channel is closed twice, no mutex
is taken twice.  Every trigger is unlocked and either holds no reason, with its map
present and its channel open, or holds `ErrCanceled` or `ErrTimeout`, with its map nil
and its channel closed; the heap that `Fire` with the nil error would leave (no reason,
map nil, channel closed) is never met.  On that heap `Subscribe` faults on the nil map
and a second `Fire` with nil closes the closed channel. -/
theorem C15_no_invalid_state_is_reachable (s : State K V) (hs : Reachable s) :
    (∀ (op : Op K V) (e : Fault), step s op = Except.error e → e = Fault.nilDeref) ∧
    (∀ c : Nat, c < s.nodes.length →
      (∀ (key : K) (value : Option V), ∃ r, WithValue s c key value = Except.ok r) ∧
      (∀ fields : Fields K V, ∃ r, WithFields s c fields = Except.ok r) ∧
      (∀ now timeout : Int, ∃ r, WithTimeout s c now timeout = Except.ok r) ∧
      (∃ r, Cancel s c = Except.ok r)) ∧
    (∀ k : Nat, ∃ r, timerFires s k = Except.ok r) ∧
    (∀ (i : Nat) (c : context K V), s.nodes[i]? = some c →
      c.trigger.mu = false ∧
      (c.trigger.value = none → c.trigger.subscribers ≠ none ∧ c.trigger.waiter = false) ∧
      (∀ r, c.trigger.value = some r →
        (r = Err.ErrCanceled ∨ r = Err.ErrTimeout) ∧
        c.trigger.subscribers = none ∧ c.trigger.waiter = true)) ∧
    (Fire 1 rootOnly 0 none = Except.ok nilFired ∧
      Subscribe 1 nilFired 0 1 = Except.error Fault.nilMapWrite ∧
      Fire 1 nilFired 0 none = Except.error Fault.closeOfClosedChannel) := by
  have h := reachable_inv hs
  refine ⟨step_fault_is_nilDeref h, (step_total h).1, (step_total h).2, ?_, rfl, rfl, rfl⟩
  intro i c hc
  refine ⟨h.unlocked i c hc, fun hv => ⟨(h.live i c hc hv).2, (h.live i c hc hv).1⟩,
    fun r hv => ?_⟩
  have hd := h.dead i c hc (by rw [hv]; simp)
  refine ⟨?_, hd.2, hd.1⟩
  cases r
  · exact Or.inr rfl
  · exact Or.inl rfl

/-- C15 at the heap `demoCanceled`. -/
theorem C15_witness :
    Reachable demoCanceled ∧
    (∀ (op : Op Nat Nat) (e : Fault),
      step demoCanceled op = Except.error e → e = Fault.nilDeref) ∧
    (∀ k : Nat, ∃ r, timerFires demoCanceled k = Except.ok r) :=
  ⟨reachable_after (demoOps ++ [Op.Cancel 0]) demoCanceled rfl,
    (C15_no_invalid_state_is_reachable demoCanceled
      (reachable_after (demoOps ++ [Op.Cancel 0]) demoCanceled rfl)).1,
    (C15_no_invalid_state_is_reachable demoCanceled
      (reachable_after (demoOps ++ [Op.Cancel 0]) demoCanceled rfl)).2.2.1⟩

/-! ## Subscriber maps -/

theorem subscribe_nodup (p : context K V) (n : Nat)
    (h : (subscriberList p.trigger).Nodup) :
    (subscriberList (p.subscribe n).trigger).Nodup := by
  unfold context.subscribe
  cases hv : p.trigger.value with
  | some v => exact h
  | none =>
    cases hl : p.trigger.subscribers with
    | none =>
      simp only
      exact h
    | some l =>
      simp only [subscriberList, hl] at h ⊢
      exact h.insert

theorem nodupSubs_grow {s : State K V} (hd : NodupSubs s) {c : Nat} {p : context K V}
    (hp : s.nodes[c]? = some p) (ch : context K V)
    (htr : ch.trigger = (p.child c).trigger) (tms : List Timer) :
    NodupSubs (State.mk (s.nodes.set c (p.subscribe s.nodes.length) ++ [ch]) tms) := by
  intro i ci hci
  rcases grown_get hp _ ch i ci hci with ⟨_, h1⟩ | ⟨_, h1⟩ | ⟨_, _, h1⟩
  · rw [h1]
    exact subscribe_nodup p _ (hd c p hp)
  · rw [h1, htr]
    unfold context.child subscriberList
    cases p.trigger.value <;> simp [newTrigger, firedTrigger]
  · exact hd i ci h1

theorem nodupSubs_cascade {s s1 : State K V} {value : Option Err} {lo : Nat}
    {R : Nat → Prop} (hd : NodupSubs s) (hc : Cascade value lo R s s1) : NodupSubs s1 := by
  intro i c1 hc1
  rcases hc.get_back hc1 with ⟨c, hcs, rfl | ⟨_, _, _, rfl, _⟩⟩
  · exact hd i c1 hcs
  · simp [firedTrigger, subscriberList]

theorem nodupSubs_step {s s1 : State K V} (hs : Reachable s) (hd : NodupSubs s)
    (op : Op K V) (hst : step s op = Except.ok s1) : NodupSubs s1 := by
  have hi := reachable_inv hs
  have hWV : ∀ (σ : State K V) (c : Nat) (k : K) (v : Option V) (σ1 : State K V) (c1 : Nat),
      (Inv σ ∧ NodupSubs σ) → WithValue σ c k v = Except.ok (σ1, c1) →
      (Inv σ1 ∧ NodupSubs σ1) := by
    intro σ c k v σ1 c1 ⟨hiσ, hdσ⟩ hw
    cases hc : σ.nodes[c]? with
    | none =>
      rw [WithValue_invalid σ c k v hc] at hw
      cases hw
    | some p =>
      rw [WithValue_eq hiσ hc k v] at hw
      injection hw with hw
      injection hw with h1 _
      rw [← h1]
      refine ⟨hiσ.of_WithValue hc k v, nodupSubs_grow hdσ hc _ ?_ _⟩
      rfl
  cases op with
  | New =>
    simp only [step] at hst
    injection hst with hst
    rw [← hst]
    intro i ci hci
    have hci1 : (s.nodes ++ [context.mk none pairs.nil newTrigger none 0 false])[i]? =
        some ci := hci
    rw [get_append_one] at hci1
    by_cases h1 : i = s.nodes.length
    · rw [if_pos h1] at hci1
      injection hci1 with hci1
      rw [← hci1]
      simp [newTrigger, subscriberList]
    · rw [if_neg h1] at hci1
      exact hd i ci hci1
  | WithValue c key value =>
    simp only [step] at hst
    cases hq : WithValue s c key value with
    | error e =>
      rw [hq] at hst
      cases hst
    | ok r =>
      obtain ⟨σ1, c1⟩ := r
      rw [hq] at hst
      injection hst with hst
      have hst1 : σ1 = s1 := hst
      rw [← hst1]
      exact (hWV s c key value σ1 c1 ⟨hi, hd⟩ hq).2
  | WithFields c fields =>
    simp only [step] at hst
    cases hq : WithFields s c fields with
    | error e =>
      rw [hq] at hst
      cases hst
    | ok r =>
      obtain ⟨σ1, c1⟩ := r
      rw [hq] at hst
      injection hst with hst
      have hst1 : σ1 = s1 := hst
      rw [← hst1]
      exact (WithFields_induct (fun σ => Inv σ ∧ NodupSubs σ) hWV fields s c σ1 c1
        ⟨hi, hd⟩ hq).2
  | WithTimeout c now timeout =>
    simp only [step] at hst
    cases hc : s.nodes[c]? with
    | none =>
      rw [WithTimeout_invalid s c now timeout hc] at hst
      cases hst
    | some p =>
      rw [WithTimeout_eq hi hc now timeout] at hst
      injection hst with hst
      rw [← hst]
      by_cases hdl : p.deadline ≠ 0 ∧ p.deadline < now + timeout
      · rw [if_pos hdl]
        refine nodupSubs_grow hd hc _ ?_ _
        rfl
      · rw [if_neg hdl]
        refine nodupSubs_grow hd hc _ ?_ _
        rfl
  | Cancel c =>
    simp only [step] at hst
    cases hc : s.nodes[c]? with
    | none =>
      rw [Cancel_invalid s c hc] at hst
      cases hst
    | some p =>
      obtain ⟨s2, hcan, hcas, _, _⟩ := Cancel_cascade hi (lt_length_of_get hc)
      rw [hcan] at hst
      injection hst with hst
      subst hst
      exact nodupSubs_cascade hd hcas
  | timerFires k =>
    simp only [step] at hst
    by_cases ha : ∃ tm, s.timers[k]? = some tm ∧ tm.state = TimerState.armed
    · obtain ⟨tm, htm, hst0⟩ := ha
      obtain ⟨s2, htf, hcas, _, _⟩ := timerFires_cascade hi htm hst0
      rw [htf] at hst
      injection hst with hst
      subst hst
      exact nodupSubs_cascade hd hcas
    · rw [timerFires_idle s k (fun tm hk hs0 => ha ⟨tm, hk, hs0⟩)] at hst
      injection hst with hst
      rw [← hst]
      exact hd

theorem reachable_nodupSubs {s : State K V} (h : Reachable s) : NodupSubs s := by
  induction h with
  | empty =>
    intro i c hc
    simp [State.empty] at hc
  | step op hprev hst ih => exact nodupSubs_step hprev ih op hst

theorem rangeSubscribers_skips (f : State K V → Nat → Except Fault (State K V)) (x : Nat)
    (hf : ∀ (σ : State K V) (sub : Nat) (σ1 : State K V), f σ sub = Except.ok σ1 →
      x ≠ sub → Unlisted σ x → σ1.nodes[x]? = σ.nodes[x]? ∧ Unlisted σ1 x) :
    ∀ (l : List Nat) (σ σ1 : State K V), rangeSubscribers f l σ = Except.ok σ1 →
      x ∉ l → Unlisted σ x → σ1.nodes[x]? = σ.nodes[x]? ∧ Unlisted σ1 x := by
  intro l
  induction l with
  | nil =>
    intro σ σ1 h _ hu
    simp only [rangeSubscribers] at h
    injection h with h
    rw [← h]
    exact ⟨rfl, hu⟩
  | cons j rest ih =>
    intro σ σ1 h hx hu
    simp only [List.mem_cons, not_or] at hx
    simp only [rangeSubscribers] at h
    cases hq : f σ j with
    | error e =>
      rw [hq] at h
      cases h
    | ok σ2 =>
      rw [hq] at h
      obtain ⟨h1, hu1⟩ := hf σ j σ2 hq hx.1 hu
      obtain ⟨h2, hu2⟩ := ih σ2 σ1 h hx.2 hu1
      exact ⟨h2.trans h1, hu2⟩

theorem unlisted_setTrigger {s : State K V} {x t : Nat} (tr : errorTrigger)
    (hu : Unlisted s x) (hx : x ∉ subscriberList tr) : Unlisted (s.setTrigger t tr) x := by
  intro j cj hcj
  by_cases hjt : j = t
  · subst hjt
    cases hc : s.nodes[j]? with
    | none =>
      have hl := lt_length_of_get hcj
      rw [setTrigger_length] at hl
      rw [List.getElem?_eq_none_iff] at hc
      omega
    | some c =>
      rw [setTrigger_self s j tr c hc] at hcj
      injection hcj with hcj
      rw [← hcj]
      exact hx
  · rw [setTrigger_other s t j tr hjt] at hcj
    exact hu j cj hcj

theorem Fire_skips (v : Option Err) (x : Nat) :
    ∀ (fuel : Nat) (s : State K V) (t : Nat) (s1 : State K V),
      Fire fuel s t v = Except.ok s1 → x ≠ t → Unlisted s x →
      s1.nodes[x]? = s.nodes[x]? ∧ Unlisted s1 x := by
  intro fuel
  induction fuel with
  | zero =>
    intro s t s1 h _ _
    simp only [Fire] at h
    cases h
  | succ fuel IH =>
    intro s t s1 h hxt hu
    cases hc : s.nodes[t]? with
    | none =>
      simp only [Fire, hc] at h
      cases h
    | some c =>
      simp only [Fire, hc] at h
      by_cases hmu : c.trigger.mu = true
      · simp only [hmu, if_true] at h
        cases h
      · simp only [hmu, Bool.false_eq_true, if_false] at h
        by_cases hv : c.trigger.value = none
        · simp only [hv, ne_eq, not_true_eq_false, if_false] at h
          have hu0 : Unlisted (s.setTrigger t { c.trigger with mu := true, value := v }) x :=
            unlisted_setTrigger _ hu (hu t c hc)
          cases hr : rangeSubscribers (fun st sub => Fire fuel st sub v)
              (subscriberList c.trigger)
              (s.setTrigger t { c.trigger with mu := true, value := v }) with
          | error e =>
            simp only [hv] at hr
            rw [hr] at h
            cases h
          | ok s2 =>
            simp only [hv] at hr
            rw [hr] at h
            obtain ⟨h2, hu2⟩ := rangeSubscribers_skips _ x
              (fun σ sub σ1 hσ hne hun => IH σ sub σ1 hσ hne hun)
              (subscriberList c.trigger) _ s2 hr (hu t c hc) (by simpa [hv] using hu0)
            cases hc2 : s2.nodes[t]? with
            | none =>
              simp only [hc2] at h
              cases h
            | some c2 =>
              simp only [hc2] at h
              by_cases hw : c2.trigger.waiter = true
              · simp only [hw, if_true] at h
                cases h
              · simp only [hw, Bool.false_eq_true, if_false] at h
                injection h with h
                rw [← h]
                refine ⟨?_, unlisted_setTrigger _ hu2 (by simp [subscriberList])⟩
                rw [setTrigger_other _ t x _ hxt, h2, setTrigger_other _ t x _ hxt]
        · simp only [ne_eq, hv, not_false_eq_true, if_true] at h
          injection h with h
          rw [← h]
          exact ⟨rfl, hu⟩

theorem setTrigger_same (s : State K V) (t : Nat) (c : context K V)
    (hc : s.nodes[t]? = some c) : s.setTrigger t c.trigger = s := by
  unfold State.setTrigger
  rw [hc]
  show State.mk (s.nodes.set t c) s.timers = s
  rw [set_same s.nodes t c hc]

theorem Unsubscribe_of_inv {s : State K V} (h : Inv s) {t : Nat} {c : context K V}
    (hc : s.nodes[t]? = some c) (sub : Nat) :
    Unsubscribe s t sub = Except.ok (s.setTrigger t
      { c.trigger with subscribers := c.trigger.subscribers.map (fun l => l.erase sub) }) := by
  simp [Unsubscribe, hc, h.unlocked t c hc]

theorem unsubscribed_list (tr : errorTrigger) (sub : Nat)
    (hnd : (subscriberList tr).Nodup) :
    (∀ j, j ∈ subscriberList
        { tr with subscribers := tr.subscribers.map (fun l => l.erase sub) } ↔
      (j ∈ subscriberList tr ∧ j ≠ sub)) ∧
    (sub ∉ subscriberList tr →
      ({ tr with subscribers := tr.subscribers.map (fun l => l.erase sub) } :
        errorTrigger) = tr) := by
  cases tr with
  | mk mu value waiter subscribers =>
    cases subscribers with
    | none =>
      refine ⟨fun j => ?_, fun _ => rfl⟩
      simp [subscriberList]
    | some l =>
      simp only [subscriberList] at hnd
      refine ⟨fun j => ?_, fun hn => ?_⟩
      · simp only [subscriberList, Option.map_some']
        rw [hnd.mem_erase_iff]
        exact And.comm
      · simp only [subscriberList] at hn
        simp only [Option.map_some', List.erase_of_not_mem hn]

/-- C18: subscriber-set discipline.  In every reachable heap, for every trigger `t`:
once it has fired its map is nil and lists nobody; `Unsubscribe` of `child` returns,
touches no other node and no timer, keeps the reason, the channel, the mutex and the
other fields of `t`, and leaves in the map exactly the former subscribers other than
`child`; when `child` is not subscribed or `t` has fired it changes nothing at all; and
when `child` was subscribed to the unfired `t`, a `Fire` on `t` after the `Unsubscribe`
returns, stores its reason at `t` and leaves `child` as it was. -/
theorem C18_subscriber_set_discipline (s : State K V) (t child : Nat) (c : context K V)
    (hs : Reachable s) (hc : s.nodes[t]? = some c) :
    (c.trigger.value ≠ none →
      c.trigger.subscribers = none ∧ subscriberList c.trigger = []) ∧
    (∃ s1 c1, Unsubscribe s t child = Except.ok s1 ∧ s1.timers = s.timers ∧
      (∀ i : Nat, i ≠ t → s1.nodes[i]? = s.nodes[i]?) ∧
      s1.nodes[t]? = some c1 ∧ c1.parent = c.parent ∧ c1.fields = c.fields ∧
      c1.timer = c.timer ∧ c1.deadline = c.deadline ∧
      c1.trigger.value = c.trigger.value ∧ c1.trigger.waiter = c.trigger.waiter ∧
      c1.trigger.mu = c.trigger.mu ∧
      (∀ j, j ∈ subscriberList c1.trigger ↔ (j ∈ subscriberList c.trigger ∧ j ≠ child)) ∧
      ((child ∉ subscriberList c.trigger ∨ c.trigger.value ≠ none) → s1 = s)) ∧
    (c.trigger.value = none → child ∈ subscriberList c.trigger →
      ∀ e : Err, ∃ s1 s2, Unsubscribe s t child = Except.ok s1 ∧
        Fire s1.fuel s1 t (some e) = Except.ok s2 ∧ s2.reason t = some e ∧
        s2.nodes[child]? = s.nodes[child]?) := by
  have h := reachable_inv hs
  have hnd := reachable_nodupSubs hs t c hc
  have hun := Unsubscribe_of_inv h hc child
  obtain ⟨hmem, hsame⟩ := unsubscribed_list c.trigger child hnd
  have hfired : c.trigger.value ≠ none →
      c.trigger.subscribers = none ∧ subscriberList c.trigger = [] := by
    intro hv
    have hd := (h.dead t c hc hv).2
    exact ⟨hd, by simp [subscriberList, hd]⟩
  have hs1t := setTrigger_self s t
    { c.trigger with subscribers := c.trigger.subscribers.map (fun l => l.erase child) } c hc
  refine ⟨hfired, ⟨_, _, hun, setTrigger_timers _ _ _,
    fun i hi => setTrigger_other s t i _ hi, hs1t, rfl, rfl, rfl, rfl, rfl, rfl, rfl, hmem,
    fun hcase => ?_⟩, fun hv hchild e => ?_⟩
  · have hnot : child ∉ subscriberList c.trigger := by
      rcases hcase with h1 | h1
      · exact h1
      · rw [(hfired h1).2]
        simp
    rw [hsame hnot]
    exact setTrigger_same s t c hc
  · have htl := lt_length_of_get hc
    have hpar : s.parentOf child = some t := h.subs_child t c hc child hchild
    have hct : t < child := h.parent_lt child t hpar
    have hpo := setTrigger_parentOf s t
      { c.trigger with subscribers := c.trigger.subscribers.map (fun l => l.erase child) }
    have hwf : WellFormedFrom (s.setTrigger t
        { c.trigger with subscribers := c.trigger.subscribers.map (fun l => l.erase child) })
        t := by
      intro i ci hti hci
      rw [hpo]
      by_cases hit : i = t
      · subst hit
        rw [hs1t] at hci
        injection hci with hci
        rw [← hci]
        refine ⟨h.unlocked i c hc, fun hv1 => (h.live i c hc hv1).1, fun j hj => ?_⟩
        have hj0 := ((hmem j).mp hj).1
        have hp := h.subs_child i c hc j hj0
        exact ⟨hp, h.parent_lt j i hp⟩
      · rw [setTrigger_other s t i _ hit] at hci
        exact h.wellFormed t i ci hti hci
    obtain ⟨s2, hf, _, hcas, hfd⟩ := Fire_cascade e
      (s.setTrigger t
        { c.trigger with subscribers := c.trigger.subscribers.map (fun l => l.erase child) }).fuel
      _ t (by rw [setTrigger_length]; exact htl)
      (by unfold State.fuel; omega) hwf
    refine ⟨_, s2, hun, hf, ?_, ?_⟩
    · obtain ⟨c2, hc2, hv2⟩ := hfd
      rcases hcas.get_back hc2 with ⟨c0, hc0, rfl | ⟨_, _, _, rfl, _⟩⟩
      · rw [hs1t] at hc0
        injection hc0 with hc0
        rw [← hc0] at hv2
        exact absurd hv hv2
      · rw [reason_of_get hc2]
        rfl
    · have hul : Unlisted (s.setTrigger t
          { c.trigger with subscribers := c.trigger.subscribers.map (fun l => l.erase child) })
          child := by
        intro j cj hcj hin
        by_cases hjt : j = t
        · subst hjt
          rw [hs1t] at hcj
          injection hcj with hcj
          rw [← hcj] at hin
          exact ((hmem child).mp hin).2 rfl
        · rw [setTrigger_other s t j _ hjt] at hcj
          have hp := h.subs_child j cj hcj child hin
          rw [hpar] at hp
          injection hp with hp
          exact hjt hp.symm
      have hsk := (Fire_skips (some e) child _ _ t s2 hf (by omega) hul).1
      rw [hsk, setTrigger_other s t child _ (by omega)]

/-- C18 at the heap `demo`: the child `1` is subscribed to the root `0`; after
`Unsubscribe`, a `Fire` on the root leaves the child Live. -/
theorem C18_witness :
    Reachable demo ∧
    demo.nodes[0]? = some (context.mk none pairs.nil
      (errorTrigger.mk false none false (some [1])) none 0 false) ∧
    ∃ s1 s2, Unsubscribe demo 0 1 = Except.ok s1 ∧
      Fire s1.fuel s1 0 (some Err.ErrCanceled) = Except.ok s2 ∧
      s2.reason 0 = some Err.ErrCanceled ∧ s2.nodes[1]? = demo.nodes[1]? :=
  ⟨reachable_after demoOps demo rfl, rfl,
    (C18_subscriber_set_discipline demo 0 1 _ (reachable_after demoOps demo rfl) rfl).2.2
      rfl (by decide) Err.ErrCanceled⟩

/-! ## Timers behind deadlines -/

theorem Cancel_timers {s s1 : State K V} (h : Inv s) {N : Nat} {n : context K V}
    (hn : s.nodes[N]? = some n) (hcan : Cancel s N = Except.ok s1) :
    (n.timer = none → s1.timers = s.timers) ∧
    (∀ k, n.timer = some k → s1.timers = (s.stopTimer k).timers) := by
  have hN := lt_length_of_get hn
  unfold Cancel at hcan
  rw [hn] at hcan
  constructor
  · intro hk
    simp only [hk] at hcan
    obtain ⟨s2, hf, htm, _⟩ := Fire_of_inv h Err.ErrCanceled hN
    rw [hf] at hcan
    injection hcan with hcan
    rw [← hcan]
    exact htm
  · intro k hk
    simp only [hk] at hcan
    obtain ⟨s2, hf, htm, _⟩ := Fire_of_inv (h.of_stopTimer k) Err.ErrCanceled
      (show N < (s.stopTimer k).nodes.length by rw [(stopTimer_spec s k).1]; exact hN)
    rw [hf] at hcan
    injection hcan with hcan
    rw [← hcan]
    exact htm

theorem timerFires_timers {s s1 : State K V} (h : Inv s) {k : Nat} {tm : Timer}
    (hk : s.timers[k]? = some tm) (ha : tm.state = TimerState.armed)
    (htf : timerFires s k = Except.ok s1) :
    s1.timers = s.timers.set k { tm with state := TimerState.expired } := by
  have htg := h.timer_target k tm hk
  have hkl := lt_length_of_get hk
  have hi0 : Inv (State.mk s.nodes (s.timers.set k { tm with state := TimerState.expired })) := by
    refine h.of_timers rfl (fun j tm1 hj => ?_) (fun j tm1 hj => ?_)
    · have hj1 : (s.timers.set k { tm with state := TimerState.expired })[j]? = some tm1 := hj
      by_cases hjk : j = k
      · subst hjk
        rw [List.getElem?_set_self hkl] at hj1
        injection hj1 with hj1
        rw [← hj1]
        exact htg
      · rw [List.getElem?_set_ne (Ne.symm hjk)] at hj1
        exact h.timer_target j tm1 hj1
    · show ∃ tm2, (s.timers.set k { tm with state := TimerState.expired })[j]? = some tm2 ∧ _
      by_cases hjk : j = k
      · subst hjk
        rw [hk] at hj
        injection hj with hj
        rw [List.getElem?_set_self hkl, ← hj]
        exact ⟨_, rfl, rfl⟩
      · rw [List.getElem?_set_ne (Ne.symm hjk)]
        exact ⟨tm1, hj, rfl⟩
  obtain ⟨s2, hf, htm, _⟩ := Fire_of_inv hi0 Err.ErrTimeout
    (show tm.target < s.nodes.length from htg)
  unfold timerFires at htf
  rw [hk] at htf
  simp only [ha] at htf
  rw [hf] at htf
  injection htf with htf
  rw [← htf]
  exact htm

theorem stopTimer_other (s : State K V) (k j : Nat) (h : j ≠ k) :
    (s.stopTimer k).timers[j]? = s.timers[j]? := by
  unfold State.stopTimer
  cases hk : s.timers[k]? with
  | none => rfl
  | some tm =>
    show (s.timers.set k tm.Stop)[j]? = s.timers[j]?
    rw [List.getElem?_set_ne (Ne.symm h)]

theorem timerInv_grow {s : State K V} (ht : TimerInv s) {c : Nat}
    {p : context K V} (hp : s.nodes[c]? = some p) (ch : context K V)
    (hpar : ch.parent = some c) (tms : List Timer)
    (hkeep : ∀ (k : Nat) (tm : Timer), s.timers[k]? = some tm → tms[k]? = some tm)
    (hch : ch.deadline = p.deadline ∨
      ∃ k tm, ch.timer = some k ∧ tms[k]? = some tm ∧ tm.state = TimerState.armed ∧
        tm.when = ch.deadline ∧ tm.target = s.nodes.length) :
    TimerInv (State.mk (s.nodes.set c (p.subscribe s.nodes.length) ++ [ch]) tms) := by
  have hclt := lt_length_of_get hp
  obtain ⟨sp, _, st, sd, sv, _⟩ := subscribe_shape p s.nodes.length
  have hk := Keeps.with_child s c p ch hp tms
  -- an old node, as it was
  have old : ∀ (i : Nat) (c0 : context K V), s.nodes[i]? = some c0 →
      c0.trigger.value = none → c0.deadline ≠ 0 →
      (∃ k tm, c0.timer = some k ∧ tms[k]? = some tm ∧ tm.state = TimerState.armed ∧
        tm.when = c0.deadline ∧ tm.target = i) ∨
      (∃ q cq, c0.parent = some q ∧
        (s.nodes.set c (p.subscribe s.nodes.length) ++ [ch])[q]? = some cq ∧
        cq.deadline = c0.deadline) := by
    intro i c0 hc0 hv hd
    rcases ht i c0 hc0 hv hd with ⟨k, tm, h1, h2, h3, h4, h5⟩ | ⟨q, cq, h1, h2, h3⟩
    · exact Or.inl ⟨k, tm, h1, hkeep k tm h2, h3, h4, h5⟩
    · obtain ⟨cq1, hcq1, _, _, _, hdq, _⟩ := hk q cq h2
      exact Or.inr ⟨q, cq1, h1, hcq1, by rw [hdq]; exact h3⟩
  intro i ci hci hv hd
  rcases grown_get hp _ ch i ci hci with ⟨h1, h2⟩ | ⟨h1, h2⟩ | ⟨_, _, h1⟩
  · subst h1 h2
    rw [sv] at hv
    rw [sd] at hd
    have := old i p hp hv hd
    rw [st, sp, sd]
    exact this
  · subst h2
    rcases hch with hdl | ⟨k, tm, a1, a2, a3, a4, a5⟩
    · refine Or.inr ⟨c, p.subscribe s.nodes.length, hpar, ?_, ?_⟩
      · show (s.nodes.set c (p.subscribe s.nodes.length) ++ [ci])[c]? = _
        rw [get_set_append _ _ _ _ hclt, if_pos rfl]
      · rw [sd, hdl]
    · exact Or.inl ⟨k, tm, a1, a2, a3, a4, by rw [a5, h1]⟩
  · exact old i ci h1 hv hd

theorem timerInv_cascade {s s1 : State K V} (ht : TimerInv s) {e : Err}
    {lo : Nat} {R : Nat → Prop} (hc : Cascade (some e) lo R s s1)
    (htm : ∀ (i : Nat) (c : context K V) (k : Nat) (tm : Timer), s.nodes[i]? = some c →
      s1.nodes[i]? = some c → c.trigger.value = none → c.timer = some k →
      s.timers[k]? = some tm → s1.timers[k]? = some tm) :
    TimerInv s1 := by
  intro i c1 hc1 hv hd
  rcases hc.get_back hc1 with ⟨c, hcs, rfl | ⟨_, _, _, rfl, _⟩⟩
  · rcases ht i c1 hcs hv hd with ⟨k, tm, h1, h2, h3, h4, h5⟩ | ⟨q, cq, h1, h2, h3⟩
    · exact Or.inl ⟨k, tm, h1, htm i c1 k tm hcs hc1 hv h1 h2, h3, h4, h5⟩
    · obtain ⟨cq1, hcq1, _, _, _, hdq, _⟩ := hc.get_some h2
      exact Or.inr ⟨q, cq1, h1, hcq1, by rw [hdq]; exact h3⟩
  · simp [firedTrigger] at hv

theorem timerInv_step {s s1 : State K V} (hs : Reachable s) (ht : TimerInv s)
    (op : Op K V) (hst : step s op = Except.ok s1) : TimerInv s1 := by
  have hi := reachable_inv hs
  have hWV : ∀ (σ : State K V) (c : Nat) (k : K) (v : Option V) (σ1 : State K V) (c1 : Nat),
      (Inv σ ∧ TimerInv σ) → WithValue σ c k v = Except.ok (σ1, c1) →
      (Inv σ1 ∧ TimerInv σ1) := by
    intro σ c k v σ1 c1 ⟨hiσ, htσ⟩ hw
    cases hc : σ.nodes[c]? with
    | none =>
      rw [WithValue_invalid σ c k v hc] at hw
      cases hw
    | some p =>
      rw [WithValue_eq hiσ hc k v] at hw
      injection hw with hw
      injection hw with h1 _
      rw [← h1]
      refine ⟨hiσ.of_WithValue hc k v,
        timerInv_grow htσ hc _ ?_ _ (fun k tm hk => hk) (Or.inl ?_)⟩
      · rfl
      · rfl
  cases op with
  | New =>
    simp only [step] at hst
    injection hst with hst
    rw [← hst]
    intro i ci hci hv hd
    have hci1 : (s.nodes ++ [context.mk none pairs.nil newTrigger none 0 false])[i]? =
        some ci := hci
    rw [get_append_one] at hci1
    by_cases h1 : i = s.nodes.length
    · rw [if_pos h1] at hci1
      injection hci1 with hci1
      rw [← hci1] at hd
      exact absurd rfl hd
    · rw [if_neg h1] at hci1
      rcases ht i ci hci1 hv hd with hown | ⟨q, cq, a1, a2, a3⟩
      · exact Or.inl hown
      · obtain ⟨cq1, hcq1, _, _, _, hdq, _⟩ := Keeps.after_New s q cq a2
        exact Or.inr ⟨q, cq1, a1, hcq1, by rw [hdq]; exact a3⟩
  | WithValue c key value =>
    simp only [step] at hst
    cases hq : WithValue s c key value with
    | error e =>
      rw [hq] at hst
      cases hst
    | ok r =>
      obtain ⟨σ1, c1⟩ := r
      rw [hq] at hst
      injection hst with hst
      have hst1 : σ1 = s1 := hst
      rw [← hst1]
      exact (hWV s c key value σ1 c1 ⟨hi, ht⟩ hq).2
  | WithFields c fields =>
    simp only [step] at hst
    cases hq : WithFields s c fields with
    | error e =>
      rw [hq] at hst
      cases hst
    | ok r =>
      obtain ⟨σ1, c1⟩ := r
      rw [hq] at hst
      injection hst with hst
      have hst1 : σ1 = s1 := hst
      rw [← hst1]
      exact (WithFields_induct (fun σ => Inv σ ∧ TimerInv σ) hWV fields s c σ1 c1
        ⟨hi, ht⟩ hq).2
  | WithTimeout c now timeout =>
    simp only [step] at hst
    cases hc : s.nodes[c]? with
    | none =>
      rw [WithTimeout_invalid s c now timeout hc] at hst
      cases hst
    | some p =>
      rw [WithTimeout_eq hi hc now timeout] at hst
      injection hst with hst
      rw [← hst]
      by_cases hdl : p.deadline ≠ 0 ∧ p.deadline < now + timeout
      · rw [if_pos hdl]
        refine timerInv_grow ht hc _ ?_ _ (fun k tm hk => hk) (Or.inl ?_)
        · rfl
        · rfl
      · rw [if_neg hdl]
        refine timerInv_grow ht hc _ ?_ _ (fun k tm hk => ?_)
          (Or.inr ⟨s.timers.length, _, ?_, List.getElem?_concat_length _ _, rfl, rfl, rfl⟩)
        · rfl
        · rw [get_append_one, if_neg]
          · exact hk
          · have := lt_length_of_get hk
            omega
        · rfl
  | Cancel c =>
    simp only [step] at hst
    cases hc : s.nodes[c]? with
    | none =>
      rw [Cancel_invalid s c hc] at hst
      cases hst
    | some n =>
      obtain ⟨s2, hcan, hcas, hfd, _⟩ := Cancel_cascade hi (lt_length_of_get hc)
      have htms := Cancel_timers hi hc hcan
      rw [hcan] at hst
      injection hst with hst
      subst hst
      refine timerInv_cascade ht hcas ?_
      intro i ci k tm hci hci1 hv hk htm
      cases hnt : n.timer with
      | none =>
        rw [htms.1 hnt]
        exact htm
      | some k0 =>
        rw [htms.2 k0 hnt]
        have hne : k ≠ k0 := by
          intro hkk
          subst hkk
          obtain ⟨tm1, htm1, htg1⟩ := hi.timer_owner i ci k hci hk
          obtain ⟨tm2, htm2, htg2⟩ := hi.timer_owner c n k hc hnt
          rw [htm1] at htm2
          injection htm2 with htm2
          rw [htm2] at htg1
          have hic : i = c := by rw [← htg1, ← htg2]
          subst hic
          obtain ⟨cf, hcf, hvf⟩ := hfd
          rw [hci1] at hcf
          injection hcf with hcf
          rw [← hcf] at hvf
          exact hvf hv
        rw [stopTimer_other s k0 k hne]
        exact htm
  | timerFires k0 =>
    simp only [step] at hst
    by_cases ha : ∃ tm, s.timers[k0]? = some tm ∧ tm.state = TimerState.armed
    · obtain ⟨tm0, htm0, hst0⟩ := ha
      obtain ⟨s2, htf, hcas, hfd, _⟩ := timerFires_cascade hi htm0 hst0
      have htms := timerFires_timers hi htm0 hst0 htf
      rw [htf] at hst
      injection hst with hst
      subst hst
      refine timerInv_cascade ht hcas ?_
      intro i ci k tm hci hci1 hv hk htm
      rw [htms]
      have hne : k ≠ k0 := by
        intro hkk
        subst hkk
        obtain ⟨tm1, htm1, htg1⟩ := hi.timer_owner i ci k hci hk
        rw [htm0] at htm1
        injection htm1 with htm1
        rw [← htm1] at htg1
        obtain ⟨cf, hcf, hvf⟩ := hfd
        rw [htg1, hci1] at hcf
        injection hcf with hcf
        rw [← hcf] at hvf
        exact hvf hv
      rw [List.getElem?_set_ne (Ne.symm hne)]
      exact htm
    · rw [timerFires_idle s k0 (fun tm hk hs0 => ha ⟨tm, hk, hs0⟩)] at hst
      injection hst with hst
      rw [← hst]
      exact ht

theorem reachable_timerInv {s : State K V} (h : Reachable s) : TimerInv s := by
  induction h with
  | empty =>
    intro i c hc
    simp [State.empty] at hc
  | step op hprev hst ih => exact timerInv_step hprev ih op hst

theorem cascade_root_reason {s s1 : State K V} {e : Err} {lo : Nat} {R : Nat → Prop}
    {A : Nat} (hc : Cascade (some e) lo R s s1) (hf : s1.fired A)
    (hr : s.reason A = none) : s1.reason A = some e := by
  obtain ⟨c1, hc1, hv1⟩ := hf
  rcases hc.get_back hc1 with ⟨c, hcs, rfl | ⟨_, _, _, rfl, _⟩⟩
  · rw [reason_of_get hcs] at hr
    exact absurd hr hv1
  · rw [reason_of_get hc1]
    rfl

theorem backed_by_timer {s : State K V} (hi : Inv s) (ht : TimerInv s)
    (hu : Unreclaimed s) :
    ∀ (N : Nat) (n : context K V), s.nodes[N]? = some n → n.trigger.value = none →
      n.deadline ≠ 0 →
      ∃ A a k tm, (A = N ∨ Descendant s.parentOf A N) ∧ s.nodes[A]? = some a ∧
        a.trigger.value = none ∧ a.deadline = n.deadline ∧ a.timer = some k ∧
        s.timers[k]? = some tm ∧ tm.state = TimerState.armed ∧ tm.when = n.deadline ∧
        tm.target = A ∧ SubChain s A N := by
  intro N
  induction N using Nat.strong_induction_on with
  | _ N ih =>
    intro n hn hv hd
    rcases ht N n hn hv hd with ⟨k, tm, h1, h2, h3, h4, h5⟩ | ⟨q, cq, h1, h2, h3⟩
    · exact ⟨N, n, k, tm, Or.inl rfl, hn, hv, rfl, h1, h2, h3, h4, h5, SubChain.refl⟩
    · have hpar : s.parentOf N = some q := by
        unfold State.parentOf
        rw [hn]
        exact h1
      have hql := hi.parent_lt N q hpar
      have hlink := hi.link N q n cq hn h1 h2 (hu N n hn (by rw [h1]; simp))
      have hqv : cq.trigger.value = none := by
        by_contra hne
        exact hlink.2 hne hv
      obtain ⟨A, a, k, tm, hdesc, ha, hav, had, hat, htm, harm, hwhen, htg, hchain⟩ :=
        ih q hql cq h2 hqv (by rw [h3]; exact hd)
      refine ⟨A, a, k, tm, Or.inr ?_, ha, hav, by rw [had, h3], hat, htm, harm,
        by rw [hwhen, h3], htg, SubChain.step hchain h2 (hlink.1 hqv)⟩
      rcases hdesc with rfl | hdesc
      · exact Descendant.child hpar
      · exact Descendant.trans hdesc hpar

/-- C19: every inherited deadline is backed by a live timer.  In every reachable heap,
every Live node `N` with a deadline has an ancestor-or-self `A` that is Live, has the
same deadline, owns a timer that is armed (neither stopped nor expired), set for that
deadline and aimed at the trigger of `A`, and from which `N` is reached by an unbroken
chain of subscriptions; when that timer runs its function the call returns and `N` is
canceled with `ErrTimeout`. -/
theorem C19_deadline_is_backed_by_an_armed_timer (s : State K V) (N : Nat)
    (n : context K V) (hs : Reachable s) (hn : s.nodes[N]? = some n)
    (hlive : n.trigger.value = none) (hd : n.deadline ≠ 0) :
    ∃ A a k tm, (A = N ∨ Descendant s.parentOf A N) ∧ s.nodes[A]? = some a ∧
      a.trigger.value = none ∧ a.deadline = n.deadline ∧ a.timer = some k ∧
      s.timers[k]? = some tm ∧ tm.state = TimerState.armed ∧ tm.when = n.deadline ∧
      tm.target = A ∧ SubChain s A N ∧
      ∃ s1, timerFires s k = Except.ok s1 ∧ s1.reason N = some Err.ErrTimeout ∧
        Error s1 N = Except.ok (some (some Err.ErrTimeout)) := by
  have hi := reachable_inv hs
  obtain ⟨A, a, k, tm, hdesc, ha, hav, had, hat, htm, harm, hwhen, htg, hchain⟩ :=
    backed_by_timer hi (reachable_timerInv hs) (reachable_unreclaimed hs) N n hn hlive hd
  obtain ⟨s1, htf, hcas, hfd, hi1⟩ := timerFires_cascade hi htm harm
  rw [htg] at hcas hfd
  have hrN : s1.reason N = some Err.ErrTimeout := by
    rcases hdesc with rfl | hdesc
    · exact cascade_root_reason hcas hfd (by rw [reason_of_get ha]; exact hav)
    · exact ((cascade_reasons hi hcas hi1 hfd ((reachable_unreclaimed hs).descendant hdesc)).1
        (by rw [reason_of_get hn]; exact hlive)).1
  exact ⟨A, a, k, tm, hdesc, ha, hav, had, hat, htm, harm, hwhen, htg, hchain, s1, htf, hrN,
    Error_of_reason hi1 hrN⟩

/-- C19 at the heap after `inheritedOps`: node `3` is Live and has taken the deadline
`105` of its parent `2`, which owns the armed timer `0`. -/
theorem C19_witness :
    Reachable (after inheritedOps) ∧
    (after inheritedOps).nodes[3]? = some (context.mk (some 2)
      (pairs.node (pairs.node pairs.nil 1 (some 2)) 9 none) newTrigger none 105 true) ∧
    ∃ A a k tm, (A = 3 ∨ Descendant (after inheritedOps).parentOf A 3) ∧
      (after inheritedOps).nodes[A]? = some a ∧
      a.trigger.value = none ∧ a.deadline = 105 ∧ a.timer = some k ∧
      (after inheritedOps).timers[k]? = some tm ∧ tm.state = TimerState.armed ∧
      tm.when = 105 ∧ tm.target = A ∧ SubChain (after inheritedOps) A 3 ∧
      ∃ s1, timerFires (after inheritedOps) k = Except.ok s1 ∧
        s1.reason 3 = some Err.ErrTimeout ∧
        Error s1 3 = Except.ok (some (some Err.ErrTimeout)) :=
  ⟨reachable_after inheritedOps (after inheritedOps) rfl, rfl,
    C19_deadline_is_backed_by_an_armed_timer (after inheritedOps) 3 _
      (reachable_after inheritedOps (after inheritedOps) rfl) rfl rfl (by decide)⟩

/-! ## The cascade as a traversal -/

theorem rangeLog_erase (f : State K V → Nat → Except Fault (State K V × List Nat))
    (g : State K V → Nat → Except Fault (State K V))
    (hfg : ∀ (σ : State K V) (sub : Nat), (f σ sub).map Prod.fst = g σ sub) :
    ∀ (l : List Nat) (σ : State K V),
      (rangeLog f l σ).map Prod.fst = rangeSubscribers g l σ := by
  intro l
  induction l with
  | nil => intro σ; rfl
  | cons j rest ih =>
    intro σ
    have h1 := hfg σ j
    simp only [rangeLog, rangeSubscribers]
    cases hq : f σ j with
    | error e =>
      rw [hq] at h1
      rw [← h1]
      rfl
    | ok r =>
      obtain ⟨σ1, log1⟩ := r
      rw [hq] at h1
      rw [← h1]
      have h2 := ih σ1
      simp only [Except.map]
      cases hq2 : rangeLog f rest σ1 with
      | error e =>
        rw [hq2] at h2
        rw [← h2]
        rfl
      | ok r2 =>
        obtain ⟨σ2, log2⟩ := r2
        rw [hq2] at h2
        rw [← h2]
        rfl

theorem FireLog_erase (v : Option Err) :
    ∀ (fuel : Nat) (s : State K V) (t : Nat),
      (FireLog fuel s t v).map Prod.fst = Fire fuel s t v := by
  intro fuel
  induction fuel with
  | zero => intro s t; rfl
  | succ fuel IH =>
    intro s t
    cases hc : s.nodes[t]? with
    | none => simp only [FireLog, Fire, hc]; rfl
    | some c =>
      simp only [FireLog, Fire, hc]
      by_cases hmu : c.trigger.mu = true
      · simp only [hmu, if_true]
        rfl
      · simp only [hmu, Bool.false_eq_true, if_false]
        by_cases hv : c.trigger.value = none
        · simp only [hv, ne_eq, not_true_eq_false, if_false]
          have h1 := rangeLog_erase (fun st sub => FireLog fuel st sub v)
            (fun st sub => Fire fuel st sub v) (fun σ sub => IH σ sub)
            (subscriberList c.trigger)
            (s.setTrigger t { c.trigger with mu := true, value := v })
          simp only [hv] at h1
          rw [← h1]
          cases hq : rangeLog (fun st sub => FireLog fuel st sub v)
              (subscriberList c.trigger)
              (s.setTrigger t { c.trigger with mu := true, value := v }) with
          | error e => rfl
          | ok r =>
            obtain ⟨s2, log⟩ := r
            simp only [Except.map]
            cases hc2 : s2.nodes[t]? with
            | none => rfl
            | some c2 =>
              simp only
              by_cases hw : c2.trigger.waiter = true
              · simp only [hw, if_true]
              · simp only [hw, Bool.false_eq_true, if_false]
        · simp only [ne_eq, hv, not_false_eq_true, if_true]
          rfl

theorem Descendant.lt_of {par : Nat → Option Nat}
    (hlt : ∀ i p : Nat, par i = some p → p < i) {N D : Nat}
    (hd : Descendant par N D) : N < D := by
  induction hd with
  | child hp => exact hlt _ _ hp
  | trans _ hp ih => exact lt_trans ih (hlt _ _ hp)

theorem subtree_disjoint {par : Nat → Option Nat}
    (hlt : ∀ i p : Nat, par i = some p → p < i) {t j j1 : Nat}
    (hj : par j = some t) (hj1 : par j1 = some t) (hne : j ≠ j1) :
    ∀ x : Nat, (x = j ∨ Descendant par j x) → (x = j1 ∨ Descendant par j1 x) → False := by
  have htj := hlt j t hj
  have htj1 := hlt j1 t hj1
  intro x
  induction x using Nat.strong_induction_on with
  | _ x ih =>
    intro h1 h2
    rcases h1 with rfl | d1
    · rcases h2 with h2 | d2
      · exact hne h2
      · rcases d2.parent_mem hj with h3 | h3
        · omega
        · have := Descendant.lt_of hlt h3
          omega
    · rcases h2 with rfl | d2
      · rcases d1.parent_mem hj1 with h3 | h3
        · omega
        · have := Descendant.lt_of hlt h3
          omega
      · obtain ⟨P, hP⟩ : ∃ P, par x = some P := by
          cases d1 with
          | child hp => exact ⟨_, hp⟩
          | trans _ hp => exact ⟨_, hp⟩
        exact ih P (hlt x P hP) (d1.parent_mem hP) (d2.parent_mem hP)

theorem Fire_of_FireLog {v : Option Err} {fuel : Nat} {s s1 : State K V} {t : Nat}
    {log : List Nat} (h : FireLog fuel s t v = Except.ok (s1, log)) :
    Fire fuel s t v = Except.ok s1 := by
  have := FireLog_erase v fuel s t
  rw [h] at this
  exact this.symm

theorem rangeLog_visits (e : Err) (fuel : Nat)
    (IH : ∀ (s : State K V) (t : Nat) (s1 : State K V) (log : List Nat),
      FireLog fuel s t (some e) = Except.ok (s1, log) → t < s.nodes.length →
      s.nodes.length ≤ fuel + t → WellFormedFrom s t → NodupSubs s →
      (∀ i p : Nat, s.parentOf i = some p → p < i) →
      log.Nodup ∧ ∀ x ∈ log, x = t ∨ Descendant s.parentOf t x)
    (t : Nat) :
    ∀ (l : List Nat) (σ σ1 : State K V) (log : List Nat),
      rangeLog (fun st sub => FireLog fuel st sub (some e)) l σ = Except.ok (σ1, log) →
      (∀ j ∈ l, t < j ∧ σ.parentOf j = some t) → l.Nodup →
      σ.nodes.length ≤ fuel + (t + 1) → WellFormedFrom σ (t + 1) → NodupSubs σ →
      (∀ i p : Nat, σ.parentOf i = some p → p < i) →
      log.Nodup ∧ ∀ x ∈ log, ∃ j ∈ l, x = j ∨ Descendant σ.parentOf j x := by
  intro l
  induction l with
  | nil =>
    intro σ σ1 log h _ _ _ _ _ _
    simp only [rangeLog] at h
    injection h with h
    injection h with _ h2
    rw [← h2]
    exact ⟨List.nodup_nil, fun x hx => by cases hx⟩
  | cons j rest ih =>
    intro σ σ1 log h hl hnd hlen hw hns hlt
    have hj := hl j (List.mem_cons_self j rest)
    have hjlt := lt_length_of_parentOf hj.2
    rw [List.nodup_cons] at hnd
    simp only [rangeLog] at h
    cases hq : FireLog fuel σ j (some e) with
    | error e1 =>
      rw [hq] at h
      cases h
    | ok r =>
      obtain ⟨σ2, log1⟩ := r
      rw [hq] at h
      simp only at h
      cases hq2 : rangeLog (fun st sub => FireLog fuel st sub (some e)) rest σ2 with
      | error e1 =>
        rw [hq2] at h
        cases h
      | ok r2 =>
        obtain ⟨σ3, log2⟩ := r2
        rw [hq2] at h
        injection h with h
        injection h with _ hlog
        have hwj : WellFormedFrom σ j := fun i c hi => hw i c (by omega)
        obtain ⟨hn1, hin1⟩ := IH σ j σ2 log1 hq hjlt (by omega) hwj hns hlt
        obtain ⟨s1, hf, _, hcas, _⟩ := Fire_cascade e fuel σ j hjlt (by omega) hwj
        rw [Fire_of_FireLog hq] at hf
        injection hf with hf
        subst hf
        have hpo := hcas.parentOf
        obtain ⟨hn2, hin2⟩ := ih σ2 σ3 log2 hq2
          (by
            rw [hpo]
            intro k hk
            exact hl k (List.mem_cons_of_mem j hk))
          hnd.2 (by rw [hcas.1]; exact hlen) (hcas.wellFormedFrom hw)
          (nodupSubs_cascade hns hcas) (by rw [hpo]; exact hlt)
        rw [hpo] at hin2
        rw [← hlog]
        refine ⟨hn1.append hn2 ?_, fun x hx => ?_⟩
        · intro x hx1 hx2
          obtain ⟨j2, hj2, hx2d⟩ := hin2 x hx2
          have hne : j ≠ j2 := by
            intro heq
            rw [← heq] at hj2
            exact hnd.1 hj2
          exact subtree_disjoint hlt hj.2 (hl j2 (List.mem_cons_of_mem j hj2)).2 hne x
            (hin1 x hx1) hx2d
        · rcases List.mem_append.mp hx with hx1 | hx2
          · exact ⟨j, List.mem_cons_self j rest, hin1 x hx1⟩
          · obtain ⟨j2, hj2, hx2d⟩ := hin2 x hx2
            exact ⟨j2, List.mem_cons_of_mem j hj2, hx2d⟩

theorem FireLog_visits (e : Err) :
    ∀ (fuel : Nat) (s : State K V) (t : Nat) (s1 : State K V) (log : List Nat),
      FireLog fuel s t (some e) = Except.ok (s1, log) → t < s.nodes.length →
      s.nodes.length ≤ fuel + t → WellFormedFrom s t → NodupSubs s →
      (∀ i p : Nat, s.parentOf i = some p → p < i) →
      log.Nodup ∧ ∀ x ∈ log, x = t ∨ Descendant s.parentOf t x := by
  intro fuel
  induction fuel with
  | zero =>
    intro s t s1 log h
    simp only [FireLog] at h
    cases h
  | succ fuel IH =>
    intro s t s1 log h ht hlen hw hns hlt
    obtain ⟨c, hc⟩ := get_of_lt ht
    rcases hw t c (le_refl t) hc with ⟨hmu, _, hsub⟩
    simp only [FireLog, hc, hmu, Bool.false_eq_true, if_false] at h
    by_cases hv : c.trigger.value = none
    · simp only [hv, ne_eq, not_true_eq_false, if_false] at h
      have hs0p : (s.setTrigger t { c.trigger with mu := true, value := some e }).parentOf =
          s.parentOf := setTrigger_parentOf s t _
      have hs0len : (s.setTrigger t { c.trigger with mu := true, value := some e }).nodes.length
          = s.nodes.length := setTrigger_length s t _
      have hw0 : WellFormedFrom
          (s.setTrigger t { c.trigger with mu := true, value := some e }) (t + 1) := by
        intro i ci hi hci
        have hne : i ≠ t := by omega
        rw [setTrigger_other s t i _ hne] at hci
        rw [hs0p]
        exact hw i ci (by omega) hci
      have hns0 : NodupSubs (s.setTrigger t { c.trigger with mu := true, value := some e }) := by
        intro i ci hci
        by_cases hit : i = t
        · subst hit
          rw [setTrigger_self s i _ c hc] at hci
          injection hci with hci
          rw [← hci]
          exact hns i c hc
        · rw [setTrigger_other s t i _ hit] at hci
          exact hns i ci hci
      cases hq : rangeLog (fun st sub => FireLog fuel st sub (some e))
          (subscriberList c.trigger)
          (s.setTrigger t { c.trigger with mu := true, value := some e }) with
      | error e1 =>
        simp only [hv] at hq
        rw [hq] at h
        cases h
      | ok r =>
        obtain ⟨s2, clog⟩ := r
        simp only [hv] at hq
        rw [hq] at h
        simp only at h
        obtain ⟨hn, hin⟩ := rangeLog_visits e fuel IH t (subscriberList c.trigger) _ s2 clog
          (by simpa [hv] using hq)
          (by
            intro j hj
            rw [hs0p]
            exact ⟨(hsub j hj).2, (hsub j hj).1⟩)
          (hns t c hc) (by rw [hs0len]; omega) hw0 hns0 (by rw [hs0p]; exact hlt)
        rw [hs0p] at hin
        have hlog : log = t :: clog := by
          cases hc2 : s2.nodes[t]? with
          | none =>
            simp only [hc2] at h
            cases h
          | some c2 =>
            simp only [hc2] at h
            by_cases hwt : c2.trigger.waiter = true
            · simp only [hwt, if_true] at h
              cases h
            · simp only [hwt, Bool.false_eq_true, if_false] at h
              injection h with h
              injection h with _ h2
              exact h2.symm
        rw [hlog]
        refine ⟨List.nodup_cons.mpr ⟨fun hmem => ?_, hn⟩, fun x hx => ?_⟩
        · obtain ⟨j, hj, hxd⟩ := hin t hmem
          have h1 := (hsub j hj).2
          rcases hxd with h2 | h2
          · omega
          · have := Descendant.lt_of hlt h2
            omega
        · rcases List.mem_cons.mp hx with rfl | hx
          · exact Or.inl rfl
          · obtain ⟨j, hj, hxd⟩ := hin x hx
            have hp := (hsub j hj).1
            rcases hxd with rfl | hxd
            · exact Or.inr (Descendant.child hp)
            · exact Or.inr (Descendant.of_parent hp hxd)
    · simp only [ne_eq, hv, not_false_eq_true, if_true] at h
      injection h with h
      injection h with _ h2
      rw [← h2]
      exact ⟨by simp, fun x hx => Or.inl (by simpa using hx)⟩

theorem rangeSubscribers_mono (f g : State K V → Nat → Except Fault (State K V))
    (hfg : ∀ (σ : State K V) (sub : Nat) (σ1 : State K V),
      f σ sub = Except.ok σ1 → g σ sub = Except.ok σ1) :
    ∀ (l : List Nat) (σ σ1 : State K V),
      rangeSubscribers f l σ = Except.ok σ1 → rangeSubscribers g l σ = Except.ok σ1 := by
  intro l
  induction l with
  | nil => intro σ σ1 h; exact h
  | cons j rest ih =>
    intro σ σ1 h
    simp only [rangeSubscribers] at h ⊢
    cases hq : f σ j with
    | error e =>
      rw [hq] at h
      cases h
    | ok σ2 =>
      rw [hq] at h
      rw [hfg σ j σ2 hq]
      exact ih σ2 σ1 h

theorem Fire_unfold (fuel : Nat) (s : State K V) (t : Nat) (value : Option Err) :
    Fire (fuel + 1) s t value =
      (match s.nodes[t]? with
      | none => Except.error Fault.nilDeref
      | some c =>
        if c.trigger.mu then Except.error Fault.deadlock
        else if c.trigger.value ≠ none then Except.ok s
        else
          match rangeSubscribers (fun st sub => Fire fuel st sub value)
              (subscriberList c.trigger)
              (s.setTrigger t { c.trigger with mu := true, value := value }) with
          | Except.error e => Except.error e
          | Except.ok s2 =>
            match s2.nodes[t]? with
            | none => Except.error Fault.nilDeref
            | some c2 =>
              if c2.trigger.waiter then Except.error Fault.closeOfClosedChannel
              else Except.ok (s2.setTrigger t
                { c2.trigger with subscribers := none, waiter := true, mu := false })) := by
  rfl

theorem Fire_fuel_succ (v : Option Err) :
    ∀ (fuel : Nat) (s : State K V) (t : Nat) (s1 : State K V),
      Fire fuel s t v = Except.ok s1 → Fire (fuel + 1) s t v = Except.ok s1 := by
  intro fuel
  induction fuel with
  | zero =>
    intro s t s1 h
    simp only [Fire] at h
    cases h
  | succ fuel IH =>
    intro s t s1 h
    rw [Fire_unfold] at h ⊢
    cases hc : s.nodes[t]? with
    | none =>
      simp only [hc] at h
      cases h
    | some c =>
      simp only [hc] at h ⊢
      by_cases hmu : c.trigger.mu = true
      · simp only [hmu, if_true] at h
        cases h
      · simp only [hmu, Bool.false_eq_true, if_false] at h ⊢
        by_cases hv : c.trigger.value = none
        · simp only [hv, ne_eq, not_true_eq_false, if_false] at h ⊢
          cases hr : rangeSubscribers (fun st sub => Fire fuel st sub v)
              (subscriberList c.trigger)
              (s.setTrigger t { c.trigger with mu := true, value := v }) with
          | error e =>
            simp only [hv] at hr
            rw [hr] at h
            cases h
          | ok s2 =>
            simp only [hv] at hr
            rw [hr] at h
            have hr1 := rangeSubscribers_mono (fun st sub => Fire fuel st sub v)
              (fun st sub => Fire (fuel + 1) st sub v) (fun σ sub σ1 hσ => IH σ sub σ1 hσ)
              _ _ s2 hr
            rw [hr1]
            exact h
        · simp only [ne_eq, hv, not_false_eq_true, if_true] at h ⊢
          exact h

theorem Fire_fuel_mono (v : Option Err) (fuel : Nat) (s : State K V) (t : Nat)
    (s1 : State K V) (h : Fire fuel s t v = Except.ok s1) :
    ∀ k : Nat, Fire (fuel + k) s t v = Except.ok s1 := by
  intro k
  induction k with
  | zero => exact h
  | succ k ih => exact Fire_fuel_succ v (fuel + k) s t s1 ih

theorem SubChain.le {s : State K V} (hi : Inv s) {A N : Nat} (h : SubChain s A N) :
    A ≤ N := by
  induction h with
  | refl => exact le_refl _
  | step _ hcp hmem ih =>
    have := hi.parent_lt _ _ (hi.subs_child _ _ hcp _ hmem)
    omega

/-- C20: the recursive cascade terminates.  In every reachable heap the subscriptions
form a forest: a trigger is listed in the map of at most one trigger, that trigger is
its parent, which has a smaller index and is never replaced by any operation, and no
chain of subscriptions leads from a trigger back to itself.  So `Fire` on any node of
the heap returns, with one and the same heap for every recursion budget that covers
the nodes from `N` on; along the way it takes no mutex that is held, and the triggers
whose mutex it takes are `N` and descendants of `N`, each at most once. -/
theorem C20_cascade_terminates (s : State K V) (hs : Reachable s) :
    (∀ (i i1 j : Nat) (ci ci1 : context K V), s.nodes[i]? = some ci →
      s.nodes[i1]? = some ci1 → j ∈ subscriberList ci.trigger →
      j ∈ subscriberList ci1.trigger → i = i1) ∧
    (∀ (i j : Nat) (ci : context K V), s.nodes[i]? = some ci →
      j ∈ subscriberList ci.trigger → s.parentOf j = some i ∧ i < j) ∧
    (∀ (A P : Nat) (cp : context K V), SubChain s A P → s.nodes[P]? = some cp →
      A ∉ subscriberList cp.trigger) ∧
    (∀ (op : Op K V) (s1 : State K V) (j p : Nat), step s op = Except.ok s1 →
      s.parentOf j = some p → s1.parentOf j = some p) ∧
    (∀ (N : Nat) (e : Err), N < s.nodes.length →
      ∃ s1, ∀ fuel : Nat, s.nodes.length ≤ fuel + N →
        Fire fuel s N (some e) = Except.ok s1 ∧
        ∃ log, FireLog fuel s N (some e) = Except.ok (s1, log) ∧ log.Nodup ∧
          ∀ x ∈ log, x = N ∨ Descendant s.parentOf N x) := by
  have hi := reachable_inv hs
  have hns := reachable_nodupSubs hs
  refine ⟨?_, ?_, ?_, ?_, ?_⟩
  · intro i i1 j ci ci1 hci hci1 hj hj1
    have h1 := hi.subs_child i ci hci j hj
    have h2 := hi.subs_child i1 ci1 hci1 j hj1
    rw [h1] at h2
    injection h2
  · intro i j ci hci hj
    have h1 := hi.subs_child i ci hci j hj
    exact ⟨h1, hi.parent_lt j i h1⟩
  · intro A P cp hchain hcp hmem
    have h1 := hchain.le hi
    have h2 := hi.parent_lt _ _ (hi.subs_child P cp hcp A hmem)
    omega
  · intro op s1 j p hst hpar
    obtain ⟨_, hk⟩ := step_inv hi op hst
    unfold State.parentOf at hpar ⊢
    cases hc : s.nodes[j]? with
    | none =>
      rw [hc] at hpar
      cases hpar
    | some c =>
      rw [hc] at hpar
      obtain ⟨c1, hc1, hp1, _⟩ := hk j c hc
      rw [hc1]
      show c1.parent = some p
      rw [hp1]
      exact hpar
  · intro N e hN
    obtain ⟨s1, hf0, _, _, _⟩ := Fire_cascade e (s.nodes.length - N) s N hN (by omega)
      (hi.wellFormed N)
    refine ⟨s1, fun fuel hfuel => ?_⟩
    have hf : Fire fuel s N (some e) = Except.ok s1 := by
      have := Fire_fuel_mono (some e) (s.nodes.length - N) s N s1 hf0
        (fuel - (s.nodes.length - N))
      rw [show s.nodes.length - N + (fuel - (s.nodes.length - N)) = fuel by omega] at this
      exact this
    refine ⟨hf, ?_⟩
    have her := FireLog_erase (some e) fuel s N
    rw [hf] at her
    cases hq : FireLog fuel s N (some e) with
    | error e1 =>
      rw [hq] at her
      cases her
    | ok r =>
      obtain ⟨s2, log⟩ := r
      rw [hq] at her
      injection her with her
      have hs2 : s2 = s1 := her
      subst hs2
      obtain ⟨hn, hin⟩ := FireLog_visits e fuel s N s2 log hq hN hfuel (hi.wellFormed N)
        hns hi.parent_lt
      exact ⟨log, rfl, hn, hin⟩

/-- C20 at the heap `demo`, firing the root `0`: the call enters `0`, `1`, `2`, each
once. -/
theorem C20_witness :
    Reachable demo ∧ 0 < demo.nodes.length ∧
    FireLog demo.fuel demo 0 (some Err.ErrCanceled) =
      Except.ok (after (demoOps ++ [Op.Cancel 0]), [0, 1, 2]) ∧
    ∃ s1, ∀ fuel : Nat, demo.nodes.length ≤ fuel + 0 →
      Fire fuel demo 0 (some Err.ErrCanceled) = Except.ok s1 ∧
      ∃ log, FireLog fuel demo 0 (some Err.ErrCanceled) = Except.ok (s1, log) ∧
        log.Nodup ∧ ∀ x ∈ log, x = 0 ∨ Descendant demo.parentOf 0 x :=
  ⟨reachable_after demoOps demo rfl, by decide, rfl,
    (C20_cascade_terminates demo (reachable_after demoOps demo rfl)).2.2.2.2 0
      Err.ErrCanceled (by decide)⟩

end Context
